import Mathlib

/-!
# Verification of the mocha-pod testfs overlay engine

A shallow embedding, in Lean 4, of the core of the mocha-pod repository:

* the directory model of lib/testfs/utils.ts (path resolution, spec
  normalization, flattening, file-entry defaulting), and
* the overlay engine and lock stack of lib/testfs/testfs.ts (enable /
  restore lifecycle, LIFO lock-stack discipline, backup and recovery).

JavaScript objects are modelled as insertion-ordered association lists
(`objGet` / `objSet` / `objMerge` mirror property lookup, property
assignment via spread, and object spread-merge).  Node's POSIX path
functions are modelled on lists of path segments.  The filesystem, glob
and tar libraries (external collaborators of the repository) are modelled
at the level of their contracts: a filesystem is a partial map from
absolute paths to file contents, globbing a list of literal patterns
returns the patterns that exist, and a tar archive of a path set is the
restriction of the filesystem to that set.
-/

namespace MochaPod

/-! ## JavaScript object model

An object is an insertion-ordered association list with pairwise distinct
keys.  `objSet d k v` models the assignment `{...d, [k]: v}`: an existing
key keeps its position and gets the new value, a new key is appended.
`objMerge d e` models the spread-merge `{...d, ...e}`. -/

def objGet {α : Type} : List (String × α) → String → Option α
  | [], _ => none
  | (k', v) :: t, k => if k' = k then some v else objGet t k

def objSet {α : Type} : List (String × α) → String → α → List (String × α)
  | [], k, v => [(k, v)]
  | (k', v') :: t, k, v =>
    if k' = k then (k, v) :: t else (k', v') :: objSet t k v

def objMerge {α : Type} (d e : List (String × α)) : List (String × α) :=
  e.foldl (fun acc p => objSet acc p.1 p.2) d

/-! ## POSIX path model

Node's path functions, restricted to what the source uses, modelled on
the character lists underlying `String`.  `splitSlashCore` is
JavaScript's `location.split('/')` (it never returns `[]`; the empty
string splits to `[""]`), `joinSlashCore` is `parts.join('/')`. -/

def splitSlashCore : List Char → List (List Char)
  | [] => [[]]
  | c :: rest =>
    if c = '/' then [] :: splitSlashCore rest
    else
      match splitSlashCore rest with
      | [] => [[c]]
      | h :: t => (c :: h) :: t

def joinSlashCore : List (List Char) → List Char
  | [] => []
  | [x] => x
  | x :: y :: t => x ++ '/' :: joinSlashCore (y :: t)

/-- One step of Node's path normalization over a list of already-split
segments: empty segments and `.` are dropped, `..` removes the previous
kept segment (and is dropped at the root, since resolution is against
`/`). -/
def resolveStep (acc : List (List Char)) (seg : List Char) : List (List Char) :=
  if seg = [] ∨ seg = ['.'] then acc
  else if seg = ['.', '.'] then acc.dropLast
  else acc ++ [seg]

def resolveSegsCore (segs : List (List Char)) : List (List Char) :=
  segs.foldl resolveStep []

/-- Node's `path.resolve('/', location)`: resolve a (relative or absolute)
path against the root.  The result is a normalized absolute path. -/
def pathResolveRoot (location : String) : String :=
  ⟨'/' :: joinSlashCore (resolveSegsCore (splitSlashCore location.data))⟩

/-- Node's `path.relative('/', p)` for a normalized absolute `p`: strip
the leading slash. -/
def pathRelativeRoot (p : String) : String :=
  ⟨p.data.drop 1⟩

/-- JavaScript's `location.split(path.sep)`. -/
def splitSlash (s : String) : List String :=
  (splitSlashCore s.data).map (fun l => ⟨l⟩)

/-- Node's `path.join(...parts)`.  With no parts the result is `"."`.
The source only ever joins slash-free normalized segments, on which
`path.join` is plain interleaving with `/`. -/
def pathJoin (parts : List String) : String :=
  if parts = [] then "." else ⟨joinSlashCore (parts.map String.data)⟩

/-- Node's `path.isAbsolute`. -/
def pathIsAbsolute (s : String) : Bool :=
  match s.data with
  | '/' :: _ => true
  | _ => false

/-- Node's `path.resolve(parent, p)` where `parent` is absolute. -/
def pathResolveAbs (parent p : String) : String :=
  if pathIsAbsolute p then pathResolveRoot p
  else pathResolveRoot (parent ++ "/" ++ p)

/-- Lexicographic comparison on the underlying character lists, the model
of JavaScript's `a.localeCompare(b) <= 0` for the path strings compared
by the source. -/
def charListLe : List Char → List Char → Bool
  | [], _ => true
  | _ :: _, [] => false
  | a :: as, b :: bs => if a = b then charListLe as bs else decide (a < b)

def strLe (a b : String) : Bool :=
  charListLe a.data b.data

/-! ## File entries and directory specs (lib/testfs/types.ts)

A `File` is raw contents, a content specification with metadata, or a
reference to an on-disk source file with metadata (`string | Buffer`
contents are both modelled as `String`; `Date` timestamps and uid/gid
are modelled as `Nat`).  A `Directory` maps keys to files or
subdirectories; `isDirectory x = !isFile x` from the source becomes the
`Entry.dir` case of the union type. -/

inductive File where
  | contents (s : String)
  | spec (contents : String) (atime mtime uid gid : Nat)
  | ref (src : String) (atime mtime uid gid : Nat)
deriving DecidableEq, Repr

inductive Entry where
  | file (f : File)
  | dir (d : List (String × Entry))

abbrev Directory := List (String × Entry)

/-- Type guard `isFile` (a value that is file contents, a file spec or a
file ref). -/
def Entry.isFile : Entry → Bool
  | .file _ => true
  | .dir _ => false

/-- Type guard `isDirectory` (`x != null && !isFile(x)`). -/
def Entry.isDir : Entry → Bool
  | .file _ => false
  | .dir _ => true

/-- The `contents as Directory` cast, used by the source only after
`isDirectory` has been established. -/
def Entry.getDir : Entry → Directory
  | .dir d => d
  | .file _ => []

/-- The `root[file] as File` cast, used by the source only after `isFile`
has been established. -/
def Entry.getFile : Entry → File
  | .file f => f
  | .dir _ => .contents ""

mutual

def Entry.esize : Entry → Nat
  | .file _ => 0
  | .dir d => Entry.dsize d

def Entry.dsize : List (String × Entry) → Nat
  | [] => 0
  | (k, v) :: t => k.length + 1 + Entry.esize v + Entry.dsize t

end

/-! ## Normalization (lib/testfs/utils.ts, `normalize`)

`normalize` resolves every key of a directory spec against a conceptual
root, groups entries by their first path segment, and recurses into the
resulting subdirectories.  The recursion is not structural (grouping can
nest an entry one level deeper under a shorter key), so the Lean
embedding uses a fuel parameter; the public wrappers supply
`Entry.dsize root + 1` fuel, which is always sufficient (grouping
strictly decreases `Entry.dsize`), so the `outOfFuel` case is an
unreachable artifact of the encoding. -/

inductive NormErr where
  | directoryIsInvalid (path : String)
  | outOfFuel
deriving DecidableEq, Repr

/-- The body of the `Object.keys(child).map(...)` step of `normalize`:
resolve the key from `/`, reject a file entry whose key resolves to the
root (`DirectoryIsInvalid`, naming `[parent, location].join(path.sep)`),
and return the path relative to `/` along with the entry. -/
def normEntryAbs (parent : String) (p : String × Entry) :
    Except NormErr (String × Entry) :=
  let location := p.1
  let contents := p.2
  let fromRoot := pathResolveRoot location
  if fromRoot = "/" && !contents.isDir then
    .error (.directoryIsInvalid (parent ++ "/" ++ location))
  else
    .ok (pathRelativeRoot fromRoot, contents)

/-- The body of the grouping `reduce` of `normalize`: split the resolved
relative path into its first segment `basedir` and the rest, and merge
the entry into the accumulator.  An empty `basedir` (the entry resolved
to the root, validated to be a directory) is spread into the top level;
colliding directories with no remaining segments are shallow-merged;
otherwise the later entry replaces, or is nested one level deeper. -/
def normStep (normalized : Directory) (p : String × Entry) : Directory :=
  let location := p.1
  let contents := p.2
  match splitSlash location with
  | [] => normalized
  | basedir :: rest =>
    if basedir = "" then objMerge normalized contents.getDir
    else
      let file := pathJoin rest
      match objGet normalized basedir with
      | some (Entry.dir current) =>
        if rest = [] then
          match contents with
          | Entry.dir cd => objSet normalized basedir (.dir (objMerge current cd))
          | _ => objSet normalized basedir contents
        else
          objSet normalized basedir (.dir (objSet current file contents))
      | _ =>
        objSet normalized basedir
          (if rest ≠ [] then .dir [(file, contents)] else contents)

/-- `normalize(child, parent)`, with fuel for the non-structural
recursion into grouped subdirectories.  The `parent` argument is only
used to build `DirectoryIsInvalid` messages (the source's
`path.join(parent, location)` is modelled as plain joining). -/
def normalizeF : Nat → Directory → String → Except NormErr Directory
  | 0, _, _ => .error .outOfFuel
  | fuel + 1, child, parent => do
    let pairs ← child.mapM (normEntryAbs parent)
    let grouped := pairs.foldl normStep []
    grouped.foldlM
      (fun normalized p =>
        match p with
        | (location, Entry.dir d) => do
          let nd ← normalizeF fuel d (parent ++ "/" ++ location)
          pure (objSet normalized location (.dir nd))
        | (location, contents) => pure (objSet normalized location contents))
      []

/-- `normalize(child, parent = '.')` with its default argument, as called
by `dir` and `flatten`. -/
def normalize (child : Directory) : Except NormErr Directory :=
  normalizeF (Entry.dsize child + 1) child "."

/-- `dir(root)`: normalize a directory tree. -/
def dir (root : Directory) : Except NormErr Directory :=
  normalize root

/-- `fileNames(root)`: the top-level keys holding files. -/
def fileNames (root : Directory) : List String :=
  (root.map Prod.fst).filter
    (fun k => ((objGet root k).map Entry.isFile).getD false)

/-- `dirNames(root)`: the top-level keys holding directories. -/
def dirNames (root : Directory) : List String :=
  (root.map Prod.fst).filter
    (fun k => ((objGet root k).map Entry.isDir).getD false)

/-- The key-value pair `[path.resolve(parent, file), root[file] as File]`
built by `flatList` for a top-level file key. -/
def flatFilePair (root : Directory) (parent : String) (file : String) :
    String × File :=
  (pathResolveAbs parent file, ((objGet root file).getD (.file (.contents ""))).getFile)

/-- `flatList(root, parent)`: the depth-first list of
`(absolutePath, file)` pairs of a normalized directory, sorted by
path name (the source's `localeCompare` sort is modelled as the
lexicographic order on strings; `Array.prototype.sort` is stable, and is
modelled by the stable `List.insertionSort`).  Fueled like
`normalizeF`. -/
def flatListF : Nat → Directory → String → List (String × File)
  | 0, _, _ => []
  | fuel + 1, root, parent =>
    ((fileNames root).map (flatFilePair root parent) ++
      ((dirNames root).map
        (fun dirname =>
          flatListF fuel ((objGet root dirname).getD (.dir [])).getDir
            (pathResolveAbs parent dirname))).flatten).insertionSort
      (fun a b => strLe a.1 b.1 = true)

/-- `flatten(root)`: normalize, walk, and collapse the pair list into a
flat object (later pairs overwrite earlier ones at the same path). -/
def flatten (root : Directory) : Except NormErr Directory := do
  let n ← normalize root
  pure (((flatListF (Entry.dsize n + 1) n "/").map
      (fun p => (p.1, Entry.file p.2))).foldl
    (fun res p => objSet res p.1 p.2) [])

/-! ## File entry construction (lib/testfs/utils.ts, `fileSpec` / `fileRef`)

`fileSpec` and `fileRef` fill every optional metadata field of a partial
entry: timestamps default to the construction-time current date, uid/gid
to `process.getuid()` / `process.getgid()` or to `0` where those do not
exist (Windows).  The ambient process state (`new Date()`,
`process.getuid`, `process.getgid`, `process.cwd()`) is modelled by an
explicit environment record. -/

structure ProcEnv where
  now : Nat
  procUid : Option Nat
  procGid : Option Nat
  cwd : String

/-- A fully-populated `FileSpec` record. -/
structure FileSpecR where
  contents : String
  atime : Nat
  mtime : Nat
  uid : Nat
  gid : Nat
deriving DecidableEq, Repr

/-- A `Partial<FileSpec>`: every field may be absent. -/
structure FileSpecOpt where
  contents : Option String := none
  atime : Option Nat := none
  mtime : Option Nat := none
  uid : Option Nat := none
  gid : Option Nat := none
deriving DecidableEq, Repr

/-- The union input type of `fileSpec`:
`string | Buffer | Partial<FileSpec>`. -/
inductive FileSpecInput where
  | contents (s : String)
  | opt (p : FileSpecOpt)
deriving DecidableEq, Repr

/-- A fully-populated `FileRef` record (the source's `from` field is
named `src`; `from` is a Lean keyword). -/
structure FileRefR where
  src : String
  atime : Nat
  mtime : Nat
  uid : Nat
  gid : Nat
deriving DecidableEq, Repr

/-- A `WithOptional<FileRef, keyof FileOpts>`: the source path is
required, the metadata fields may be absent. -/
structure FileRefOpt where
  src : String
  atime : Option Nat := none
  mtime : Option Nat := none
  uid : Option Nat := none
  gid : Option Nat := none
deriving DecidableEq, Repr

/-- The union input type of `fileRef`. -/
inductive FileRefInput where
  | str (s : String)
  | opt (p : FileRefOpt)
deriving DecidableEq, Repr

/-- Node's `path.resolve(base, p)` with a (relative or absolute) `base`,
falling back to the process working directory as Node does. -/
def pathResolveCwd (cwd base p : String) : String :=
  if pathIsAbsolute p then pathResolveRoot p
  else if pathIsAbsolute base then pathResolveRoot (base ++ "/" ++ p)
  else pathResolveRoot (cwd ++ "/" ++ base ++ "/" ++ p)

/-- `fileSpec(f)`: build a full file specification from contents or a
partial specification.  Explicitly supplied fields win over the
construction-time defaults (`{ contents: '', mtime: now, atime: now,
uid, gid, ...f }`). -/
def fileSpec (env : ProcEnv) : FileSpecInput → FileSpecR
  | .contents s =>
    { contents := s, atime := env.now, mtime := env.now,
      uid := env.procUid.getD 0, gid := env.procGid.getD 0 }
  | .opt p =>
    { contents := p.contents.getD "", atime := p.atime.getD env.now,
      mtime := p.mtime.getD env.now, uid := p.uid.getD (env.procUid.getD 0),
      gid := p.gid.getD (env.procGid.getD 0) }

/-- `fileRef(f, basedir = process.cwd())`: build a full file reference.
A relative string source path is resolved against `basedir` (never
against the overlay's `rootdir`); an absolute one is kept as is.  The
optional `basedir` argument defaults to the process working
directory. -/
def fileRef (env : ProcEnv) (f : FileRefInput) (basedir : Option String) :
    FileRefR :=
  let bd := basedir.getD env.cwd
  match f with
  | .str s =>
    { src := if !pathIsAbsolute s then pathResolveCwd env.cwd bd s else s,
      atime := env.now, mtime := env.now,
      uid := env.procUid.getD 0, gid := env.procGid.getD 0 }
  | .opt p =>
    { src := p.src, atime := p.atime.getD env.now, mtime := p.mtime.getD env.now,
      uid := p.uid.getD (env.procUid.getD 0), gid := p.gid.getD (env.procGid.getD 0) }

/-! ## Global defaults (lib/testfs/testfs.ts, `config`)

`config(conf)` merges a partial configuration into the process-wide
defaults by object spread (`defaults = { ...defaults, ...conf }`): a
per-field, shallow replacement. -/

structure Config where
  filesystem : Directory
  keep : List String
  cleanup : List String
  rootdir : String
  basedir : String

/-- A `Partial<Config>`. -/
structure ConfigOpt where
  filesystem : Option Directory := none
  keep : Option (List String) := none
  cleanup : Option (List String) := none
  rootdir : Option String := none
  basedir : Option String := none

/-- `config(conf)`, as the pure transformation of the mutable module
state `defaults`. -/
def config (defaults : Config) (conf : ConfigOpt) : Config :=
  { filesystem := conf.filesystem.getD defaults.filesystem,
    keep := conf.keep.getD defaults.keep,
    cleanup := conf.cleanup.getD defaults.cleanup,
    rootdir := conf.rootdir.getD defaults.rootdir,
    basedir := conf.basedir.getD defaults.basedir }

/-! ## The overlay engine and lock stack (lib/testfs/testfs.ts)

The engine is modelled as a state machine over an explicit system state.
The real filesystem is a partial map from absolute paths to contents
(`rootdir` defaults to `/`, and the flattened spec's keys are absolute,
so `path.resolve(rootdir, p) = p` for every path the engine touches).
External collaborators are modelled by their contracts:

* `fast-glob` over a list of literal patterns returns the patterns that
  exist on the filesystem (duplicates are not pruned; the engine only
  deletes or re-extracts per path, so duplicates are harmless);
* `tar.pack` of the keep set stores the restriction of the filesystem to
  the matched paths, `tar.extract` writes those entries back;
* `nanoid()` is a fresh-identifier counter;
* the temp directory is the list of backup artifacts present in it.

An instance's mutable closure state (`isDisabled`, and the
`tarFile` / `backup` / `cleanupGlobs` captured by `doRestore`) lives in
an instance store keyed by instance identity.  `better-lock` serializes
the bodies of `enable` and `restore`; in this sequential model each body
runs atomically, and lock-acquisition failures (queue or timeout
failures) are injected explicitly.  A trace of engine events records the
order of the lock and backup steps. -/

abbrev Fs := String → Option String

def fsWrite (fs : Fs) (p c : String) : Fs :=
  fun q => if q = p then some c else fs q

def fsDelete (fs : Fs) (p : String) : Fs :=
  fun q => if q = p then none else fs q

/-- The Filesystem Writer (`replace(toUpdate)`) on the success path:
write every entry of the flat write-plan. -/
def writeAll (fs : Fs) (l : List (String × String)) : Fs :=
  l.foldl (fun f e => fsWrite f e.1 e.2) fs

/-- The chunked, failure-tolerant unlink loop of `doRestore` /
`doCleanup`: delete every path in the list (individual failures are
ignored by the source, so deletion is total here). -/
def deleteAll (fs : Fs) (l : List String) : Fs :=
  l.foldl fsDelete fs

/-- `fast-glob` over literal patterns: the patterns that exist. -/
def fgExisting (fs : Fs) (globs : List String) : List String :=
  globs.filter (fun p => (fs p).isSome)

/-- Engine events, recording the order of the observable steps of
`enable` and `restore`. -/
inductive Ev where
  | lockAcquired
  | lockFailed
  | backupCreated (tar : String)
  | replaced
  | replaceFailed
  | cleanupDeleted
  | extracted
  | backupDeleted (tar : String)
deriving DecidableEq, Repr

/-- Engine errors. -/
inductive Err where
  /-- `TestFsLockError`: tried to restore `tried` while the last enabled
  instance was `top`. -/
  | lockOrder (tried top : Nat)
  /-- `TestFsAlreadyEnabled`. -/
  | alreadyEnabled
  /-- The source's `assert(stack.length > 0)` failing. -/
  | assertionFailed
  /-- Model artifact: the source would diverge (its `releaseAll` loop
  makes no progress on a stacked instance that is already disabled, a
  state the engine never reaches). -/
  | stuck
  /-- An injected external failure (lock timeout or I/O error), carrying
  an arbitrary tag so that propagation can be observed. -/
  | injected (n : Nat)
deriving DecidableEq, Repr

/-- The per-instance state: the constants captured by `build` (`toUpdate`
is the flattened write-plan `flatten({...defaultSpec, ...spec})`, with
entries resolved to plain contents, plus the effective `keep` / `cleanup`
option lists), the `isDisabled` flag, and the values captured by the
`doRestore` closure at enable time.  `enId` is the `nanoid` of the
current enabled handle; `0` is the id of the initial dummy handle. -/
structure Inst where
  instId : Nat
  toUpdate : List (String × String)
  keep : List String
  cleanup : List String
  isDisabled : Bool
  enId : Nat
  tarFile : String
  backup : List (String × String)
  cleanupGlobs : List String
deriving DecidableEq, Repr

/-- The process-wide state: filesystem, lock stack (`(enId, instId)`
pairs, top of stack last, as the source pushes and pops at the end),
instance store, temp-directory contents, `nanoid` counter and event
trace. -/
structure Sys where
  fs : Fs
  stack : List (Nat × Nat)
  insts : List Inst
  tmp : List String
  nextId : Nat
  log : List Ev

def findInst (s : Sys) (instId : Nat) : Option Inst :=
  s.insts.find? (fun i => i.instId == instId)

def setInst (insts : List Inst) (i : Inst) : List Inst :=
  insts.map (fun j => if j.instId == i.instId then i else j)

/-- `doRestore` of part lib/testfs/testfs.ts: delete the existing
cleanup-glob matches (in chunks of 50, ignoring individual failures),
extract the backup over the target tree, delete the backup artifact,
and mark the instance disabled. -/
def applyDoRestore (s : Sys) (i : Inst) : Sys :=
  let toCleanup := fgExisting s.fs i.cleanupGlobs
  let fs1 := deleteAll s.fs toCleanup
  let fs2 := writeAll fs1 i.backup
  { s with
    fs := fs2,
    tmp := s.tmp.erase i.tarFile,
    insts := setInst s.insts { i with isDisabled := true },
    log := s.log ++ [.cleanupDeleted, .extracted, .backupDeleted i.tarFile] }

def popStack (s : Sys) : Sys :=
  { s with stack := s.stack.dropLast }

/-- The body of `lock.releaseAll`: while the stack is not empty, call
`restore()` on the top handle.  The handle restored is the stack top
itself, so its id check always passes and a live top is restored and
popped; a disabled handle on the stack would return without popping and
the loop would never terminate, which the model reports as `none`.  One
unit of fuel is spent per pop, so `stack.length` fuel is exact. -/
def drainFuel : Nat → Sys → Option Sys
  | 0, s => if s.stack.isEmpty then some s else none
  | fuel + 1, s =>
    match s.stack.getLast? with
    | none => some s
    | some (_, instId) =>
      match findInst s instId with
      | none => none
      | some i =>
        if i.isDisabled then none
        else drainFuel fuel (popStack (applyDoRestore s i))

def releaseAll (s : Sys) : Option Sys :=
  drainFuel s.stack.length s

/-- `enabled.restore()`: return immediately if the instance is already
disabled; otherwise `lock.release(id, doRestore)` checks the id against
the top of the stack — on a match the restore body runs and the stack is
popped, on a mismatch the whole stack is drained (`releaseAll`) and a
`TestFsLockError` is raised. -/
def restoreInst (s : Sys) (instId : Nat) : Sys × Except Err Unit :=
  match findInst s instId with
  | none => (s, .error .stuck)
  | some i =>
    if i.isDisabled then (s, .ok ())
    else
      match s.stack.getLast? with
      | none => (s, .error .assertionFailed)
      | some (topEnId, _) =>
        if topEnId = i.enId then
          (popStack (applyDoRestore s i), .ok ())
        else
          match releaseAll s with
          | some s' => (s', .error (.lockOrder i.enId topEnId))
          | none => (s, .error .stuck)

/-- The backup artifact's name in the temp directory,
`path.join(os.tmpdir(), 'testfs-' + id + '.tar')`. -/
def tarName (enId : Nat) : String :=
  "/tmp/testfs-" ++ toString enId ++ ".tar"

/-- The values captured by the body of `enable` before the write-plan is
applied: probe every write-plan path, mark every existing cleanup-glob
match as existing too, split into keep globs (existing) and cleanup
globs (non-existing), glob-expand the keep set and archive it
(`id = nanoid()`, `tarFile`, tar contents `backup`). -/
def enableCapture (fs : Fs) (nid : Nat) (i : Inst) : Inst :=
  let lookup :=
    i.toUpdate.map (fun e => (e.1, (fs e.1).isSome)) ++
      (fgExisting fs i.cleanup).map (fun p => (p, true))
  let keepGlobs := i.keep ++ (lookup.filter (fun e => e.2)).map Prod.fst
  let cleanupGlobs := i.cleanup ++ (lookup.filter (fun e => !e.2)).map Prod.fst
  let toKeep := fgExisting fs keepGlobs
  let backup := toKeep.filterMap (fun p => (fs p).map (fun c => (p, c)))
  { i with enId := nid, tarFile := tarName nid, backup := backup,
           cleanupGlobs := cleanupGlobs }

/-- `disabled.enable()`.  If the instance is already enabled, it is first
force-restored (`await enabled.restore()`) and `TestFsAlreadyEnabled` is
raised — unless that restore itself fails, in which case its error
propagates instead.  Otherwise the enable body runs under
`lock.acquire`: capture the keep and cleanup sets and the backup archive
(`enableCapture`), apply the write-plan (`replace`), and push the new
handle onto the stack.  `lockFault` injects a lock-acquisition failure
(no part of the body runs); `replaceFault` injects a write failure after
a partial write, upon which the engine runs `doRestore` once and
re-raises the injected error. -/
def enableInst (s : Sys) (instId : Nat) (lockFault : Option Nat)
    (replaceFault : Option (Nat × List (String × String))) :
    Sys × Except Err Unit :=
  match findInst s instId with
  | none => (s, .error .stuck)
  | some i =>
    if !i.isDisabled then
      let r := restoreInst s instId
      match r.2 with
      | .error e => (r.1, .error e)
      | .ok _ => (r.1, .error .alreadyEnabled)
    else
      match lockFault with
      | some n => ({ s with log := s.log ++ [.lockFailed] }, .error (.injected n))
      | none =>
        let s0 : Sys := { s with log := s.log ++ [.lockAcquired] }
        let i' : Inst := enableCapture s0.fs s0.nextId i
        let s1 : Sys :=
          { s0 with nextId := s0.nextId + 1, tmp := s0.tmp ++ [i'.tarFile],
                    log := s0.log ++ [.backupCreated i'.tarFile] }
        match replaceFault with
        | some (n, written) =>
          let sW : Sys :=
            { s1 with fs := writeAll s1.fs written,
                      log := s1.log ++ [.replaceFailed] }
          (applyDoRestore sW i', .error (.injected n))
        | none =>
          let sW : Sys :=
            { s1 with fs := writeAll s1.fs i.toUpdate,
                      log := s1.log ++ [.replaced] }
          let s2 : Sys :=
            { sW with insts := setInst sW.insts { i' with isDisabled := false } }
          ({ s2 with stack := s2.stack ++ [(i'.enId, instId)] }, .ok ())

/-- A freshly built instance (`build(spec, opts)`): disabled, with the
dummy initial handle of id `0`.  `toUpdate` stands for the flattened
write-plan; `keep` / `cleanup` are the effective option lists
(`[...defaults.keep, ...keep]` etc.). -/
def mkInst (instId : Nat) (toUpdate : List (String × String))
    (keep cleanup : List String) : Inst :=
  { instId := instId, toUpdate := toUpdate, keep := keep, cleanup := cleanup,
    isDisabled := true, enId := 0, tarFile := "", backup := [],
    cleanupGlobs := [] }

/-- A fresh process: given filesystem, no enabled instance, empty stack,
empty temp directory. -/
def mkSys (fs : Fs) (insts : List Inst) : Sys :=
  { fs := fs, stack := [], insts := insts, tmp := [], nextId := 1, log := [] }

/-! ## Lemmas: filesystem maps, objects, the instance store -/

theorem fgExisting_mem {fs : Fs} {globs : List String} {q : String} :
    q ∈ fgExisting fs globs ↔ q ∈ globs ∧ (fs q).isSome := by
  simp [fgExisting]

theorem writeAll_cons (fs : Fs) (e : String × String) (t : List (String × String)) :
    writeAll fs (e :: t) = writeAll (fsWrite fs e.1 e.2) t := rfl

theorem deleteAll_cons (fs : Fs) (p : String) (t : List String) :
    deleteAll fs (p :: t) = deleteAll (fsDelete fs p) t := rfl

theorem writeAll_not_mem (fs : Fs) (l : List (String × String)) (q : String)
    (h : q ∉ l.map Prod.fst) : writeAll fs l q = fs q := by
  induction l generalizing fs with
  | nil => rfl
  | cons e t ih =>
    simp only [List.map_cons, List.mem_cons] at h
    push_neg at h
    rw [writeAll_cons, ih _ h.2]
    simp [fsWrite, h.1]

theorem writeAll_isSome_mono (fs : Fs) (l : List (String × String)) (q : String)
    (h : (fs q).isSome) : (writeAll fs l q).isSome := by
  induction l generalizing fs with
  | nil => exact h
  | cons e t ih =>
    rw [writeAll_cons]
    apply ih
    by_cases hq : q = e.1 <;> simp [fsWrite, hq, h]

theorem writeAll_isSome (fs : Fs) (l : List (String × String)) (q : String)
    (h : q ∈ l.map Prod.fst) : (writeAll fs l q).isSome := by
  induction l generalizing fs with
  | nil => simp at h
  | cons e t ih =>
    rw [writeAll_cons]
    simp only [List.map_cons, List.mem_cons] at h
    rcases h with h | h
    · exact writeAll_isSome_mono _ _ _ (by simp [fsWrite, h])
    · exact ih _ h

theorem writeAll_const (fs : Fs) (l : List (String × String)) (q : String)
    (c : String) (hc : ∀ e ∈ l, e.1 = q → e.2 = c) (h : q ∈ l.map Prod.fst) :
    writeAll fs l q = some c := by
  induction l generalizing fs with
  | nil => simp at h
  | cons e t ih =>
    rw [writeAll_cons]
    by_cases hq : q ∈ t.map Prod.fst
    · exact ih _ (fun e' he' => hc e' (List.mem_cons_of_mem _ he')) hq
    · simp only [List.map_cons, List.mem_cons] at h
      rcases h with h | h
      · rw [writeAll_not_mem _ _ _ hq]
        simp [fsWrite, h.symm, hc e (List.mem_cons_self _ _) h.symm]
      · exact absurd h hq

theorem deleteAll_none_mono (fs : Fs) (l : List String) (q : String)
    (h : fs q = none) : deleteAll fs l q = none := by
  induction l generalizing fs with
  | nil => exact h
  | cons p t ih =>
    rw [deleteAll_cons]
    apply ih
    by_cases hq : q = p <;> simp [fsDelete, hq, h]

theorem deleteAll_mem (fs : Fs) (l : List String) (q : String)
    (h : q ∈ l) : deleteAll fs l q = none := by
  induction l generalizing fs with
  | nil => simp at h
  | cons p t ih =>
    rw [deleteAll_cons]
    rcases List.mem_cons.mp h with h | h
    · exact deleteAll_none_mono _ _ _ (by simp [fsDelete, h])
    · exact ih _ h

theorem deleteAll_not_mem (fs : Fs) (l : List String) (q : String)
    (h : q ∉ l) : deleteAll fs l q = fs q := by
  induction l generalizing fs with
  | nil => rfl
  | cons p t ih =>
    simp only [List.mem_cons] at h
    push_neg at h
    rw [deleteAll_cons, ih _ h.2]
    simp [fsDelete, h.1]

theorem keys_objSet {α : Type} (d : List (String × α)) (k : String) (v : α) :
    (objSet d k v).map Prod.fst =
      if k ∈ d.map Prod.fst then d.map Prod.fst else d.map Prod.fst ++ [k] := by
  induction d with
  | nil => simp [objSet]
  | cons e t ih =>
    by_cases hk : e.1 = k
    · simp [objSet, hk]
    · simp only [objSet, if_neg hk, List.map_cons, ih, List.mem_cons]
      by_cases hm : k ∈ t.map Prod.fst <;>
        simp [hm, Ne.symm hk]

theorem nodup_keys_objSet {α : Type} (d : List (String × α)) (k : String) (v : α)
    (h : (d.map Prod.fst).Nodup) : ((objSet d k v).map Prod.fst).Nodup := by
  rw [keys_objSet]
  by_cases hm : k ∈ d.map Prod.fst
  · simpa [hm]
  · simp [hm, h, List.nodup_append]

theorem nodup_keys_foldl_objSet {α : Type} (l : List (String × α))
    (acc : List (String × α)) (h : (acc.map Prod.fst).Nodup) :
    ((l.foldl (fun res p => objSet res p.1 p.2) acc).map Prod.fst).Nodup := by
  induction l generalizing acc with
  | nil => exact h
  | cons e t ih => exact ih _ (nodup_keys_objSet _ _ _ h)

theorem keys_foldl_objSet_subset {α : Type} (l : List (String × α))
    (acc : List (String × α)) (k : String)
    (h : k ∈ ((l.foldl (fun res p => objSet res p.1 p.2) acc).map Prod.fst)) :
    k ∈ acc.map Prod.fst ∨ k ∈ l.map Prod.fst := by
  induction l generalizing acc with
  | nil => exact Or.inl h
  | cons e t ih =>
    rcases ih _ h with h' | h'
    · rw [keys_objSet] at h'
      by_cases hm : e.1 ∈ acc.map Prod.fst
      · rw [if_pos hm] at h'
        exact Or.inl h'
      · rw [if_neg hm] at h'
        rcases List.mem_append.mp h' with h'' | h''
        · exact Or.inl h''
        · simp at h''
          exact Or.inr (by simp [h''])
    · exact Or.inr (List.mem_cons_of_mem _ h')

theorem find_setInst (insts : List Inst) (i' : Inst) (y : Nat) :
    (setInst insts i').find? (fun j => j.instId == y) =
      if i'.instId = y then
        ((insts.find? (fun j => j.instId == y)).map (fun _ => i'))
      else insts.find? (fun j => j.instId == y) := by
  induction insts with
  | nil => by_cases h : i'.instId = y <;> simp [setInst, h]
  | cons j t ih =>
    have hset : setInst (j :: t) i' =
        (if j.instId == i'.instId then i' else j) :: setInst t i' := rfl
    rw [hset]
    by_cases hy : j.instId = y
    · by_cases hj : j.instId = i'.instId
      · have hy' : i'.instId = y := by rw [← hj, hy]
        rw [if_pos (by simpa using hj), if_pos hy',
          List.find?_cons_of_pos _ (by simpa using hy'),
          List.find?_cons_of_pos _ (by simpa using hy)]
        rfl
      · have hy' : ¬ (i'.instId = y) := fun h => hj (by rw [hy, h])
        rw [if_neg (by simpa using hj), if_neg hy',
          List.find?_cons_of_pos _ (by simpa using hy),
          List.find?_cons_of_pos _ (by simpa using hy)]
    · by_cases hj : j.instId = i'.instId
      · have hy' : ¬ (i'.instId = y) := fun h => hy (by rw [hj, h])
        rw [if_pos (by simpa using hj),
          List.find?_cons_of_neg _ (by simpa using hy'),
          List.find?_cons_of_neg _ (by simpa using hy), ih, if_neg hy']
      · rw [if_neg (by simpa using hj),
          List.find?_cons_of_neg _ (by simpa using hy),
          List.find?_cons_of_neg _ (by simpa using hy), ih]

theorem findInst_setInst (s : Sys) (insts : List Inst) (i' : Inst) (y : Nat)
    (hs : s.insts = setInst insts i') :
    findInst s y =
      if i'.instId = y then
        ((insts.find? (fun j => j.instId == y)).map (fun _ => i'))
      else insts.find? (fun j => j.instId == y) := by
  rw [findInst, hs, find_setInst]

/-! ## The backup/restore roundtrip

Restoring an instance right after its enable body ran returns the
filesystem to its pre-enable state: `doRestore` deletes the existing
cleanup-glob matches (exactly the write-plan paths that did not exist
before, plus the explicit cleanup patterns) and extracts the backup
(exactly the pre-enable contents of every existing keep-glob match). -/

theorem mem_backup_keys (fs : Fs) (tk : List String) (q : String) :
    q ∈ (tk.filterMap (fun p => (fs p).map (fun c => (p, c)))).map Prod.fst ↔
      q ∈ tk ∧ (fs q).isSome := by
  constructor
  · intro h
    rcases List.mem_map.mp h with ⟨e, he, hq⟩
    rcases List.mem_filterMap.mp he with ⟨p, hp, hf⟩
    rcases Option.map_eq_some'.mp hf with ⟨c, hc, hce⟩
    subst hq
    rw [← hce]
    exact ⟨hp, by simp [hc]⟩
  · intro ⟨h1, h2⟩
    rcases Option.isSome_iff_exists.mp h2 with ⟨c, hc⟩
    refine List.mem_map.mpr ⟨(q, c), List.mem_filterMap.mpr ⟨q, h1, ?_⟩, rfl⟩
    rw [hc]
    rfl

theorem mem_backup_content (fs : Fs) (tk : List String) (e : String × String)
    (h : e ∈ tk.filterMap (fun p => (fs p).map (fun c => (p, c)))) :
    fs e.1 = some e.2 := by
  rcases List.mem_filterMap.mp h with ⟨p, _, hf⟩
  rcases Option.map_eq_some'.mp hf with ⟨c, hc, hce⟩
  rw [← hce]
  exact hc

/-- Round trip: on any filesystem, writing any subset of the write-plan
paths, then deleting the existing cleanup-glob matches and extracting
the backup, is the identity. -/
theorem enableCapture_roundtrip (fs : Fs) (nid : Nat) (i : Inst)
    (written : List (String × String))
    (hw : ∀ p ∈ written.map Prod.fst, p ∈ i.toUpdate.map Prod.fst) :
    writeAll
      (deleteAll (writeAll fs written)
        (fgExisting (writeAll fs written) (enableCapture fs nid i).cleanupGlobs))
      (enableCapture fs nid i).backup = fs := by
  set lookup := i.toUpdate.map (fun e => (e.1, (fs e.1).isSome)) ++
      (fgExisting fs i.cleanup).map (fun p => (p, true)) with hlookup
  have hcg : (enableCapture fs nid i).cleanupGlobs =
      i.cleanup ++ (lookup.filter (fun e => !e.2)).map Prod.fst := rfl
  set toKeep := fgExisting fs
      (i.keep ++ (lookup.filter (fun e => e.2)).map Prod.fst) with htk
  have hbk : (enableCapture fs nid i).backup =
      toKeep.filterMap (fun p => (fs p).map (fun c => (p, c))) := rfl
  set fs' := writeAll fs written with hfs'
  -- membership facts about the lookup table
  have hlk_true : ∀ q, (fs q).isSome → q ∈ i.toUpdate.map Prod.fst →
      q ∈ (lookup.filter (fun e => e.2)).map Prod.fst := by
    intro q hs hm
    refine List.mem_map.mpr ⟨(q, true), List.mem_filter.mpr ⟨?_, rfl⟩, rfl⟩
    rcases List.mem_map.mp hm with ⟨e, he, hq⟩
    refine List.mem_append.mpr (Or.inl ?_)
    refine List.mem_map.mpr ⟨e, he, ?_⟩
    rw [hq, hs]
  have hlk_cleanup : ∀ q, (fs q).isSome → q ∈ i.cleanup →
      q ∈ (lookup.filter (fun e => e.2)).map Prod.fst := by
    intro q hs hm
    refine List.mem_map.mpr ⟨(q, true), List.mem_filter.mpr ⟨?_, rfl⟩, rfl⟩
    refine List.mem_append.mpr (Or.inr ?_)
    exact List.mem_map.mpr ⟨q, fgExisting_mem.mpr ⟨hm, hs⟩, rfl⟩
  have hlk_false : ∀ q, q ∈ (lookup.filter (fun e => !e.2)).map Prod.fst →
      fs q = none := by
    intro q hm
    rcases List.mem_map.mp hm with ⟨e, he, hq⟩
    rcases List.mem_filter.mp he with ⟨hel, hb⟩
    rcases List.mem_append.mp hel with h | h
    · rcases List.mem_map.mp h with ⟨u, _, hu⟩
      rw [← hu] at hb hq
      simp only [Bool.not_eq_true'] at hb
      rw [← hq]
      exact Option.not_isSome_iff_eq_none.mp (by simp [hb])
    · rcases List.mem_map.mp h with ⟨u, _, hu⟩
      rw [← hu] at hb
      simp at hb
  have hlk_false_mem : ∀ q, fs q = none → q ∈ i.toUpdate.map Prod.fst →
      q ∈ (lookup.filter (fun e => !e.2)).map Prod.fst := by
    intro q hn hm
    refine List.mem_map.mpr ⟨(q, false), List.mem_filter.mpr ⟨?_, rfl⟩, rfl⟩
    rcases List.mem_map.mp hm with ⟨e, he, hq⟩
    refine List.mem_append.mpr (Or.inl ?_)
    refine List.mem_map.mpr ⟨e, he, ?_⟩
    rw [hq, hn]
    rfl
  funext q
  by_cases hk : q ∈ toKeep
  · -- in the keep set: the extracted backup restores the original contents
    have hs : (fs q).isSome := (fgExisting_mem.mp hk).2
    rcases Option.isSome_iff_exists.mp hs with ⟨c, hc⟩
    rw [hbk, writeAll_const _ _ _ c
      (fun e he h1 => by
        have := mem_backup_content fs toKeep e he
        rw [h1, hc] at this
        exact (Option.some.injEq _ _).mp this.symm)
      ((mem_backup_keys fs toKeep q).mpr ⟨hk, hs⟩), hc]
  · have hnb : q ∉ (enableCapture fs nid i).backup.map Prod.fst := by
      rw [hbk]
      intro h
      exact hk ((mem_backup_keys fs toKeep q).mp h).1
    rw [writeAll_not_mem _ _ _ hnb]
    by_cases hd : q ∈ fgExisting fs' (enableCapture fs nid i).cleanupGlobs
    · -- deleted by the cleanup pass: the path did not exist before
      rw [deleteAll_mem _ _ _ hd]
      rcases fgExisting_mem.mp hd with ⟨hdm, _⟩
      rw [hcg] at hdm
      rcases List.mem_append.mp hdm with h | h
      · by_cases hs : (fs q).isSome
        · exact absurd (fgExisting_mem.mpr
            ⟨List.mem_append.mpr (Or.inr (hlk_cleanup q hs h)), hs⟩) hk
        · exact (Option.not_isSome_iff_eq_none.mp hs).symm
      · exact (hlk_false q h).symm
    · rw [deleteAll_not_mem _ _ _ hd]
      by_cases hwq : q ∈ written.map Prod.fst
      · -- a written path that is neither kept nor deleted: impossible
        exfalso
        have hm := hw q hwq
        by_cases hs : (fs q).isSome
        · exact hk (fgExisting_mem.mpr
            ⟨List.mem_append.mpr (Or.inr (hlk_true q hs hm)), hs⟩)
        · have hn : fs q = none := Option.not_isSome_iff_eq_none.mp hs
          apply hd
          refine fgExisting_mem.mpr ⟨?_, writeAll_isSome fs written q hwq⟩
          rw [hcg]
          exact List.mem_append.mpr (Or.inr (hlk_false_mem q hn hm))
      · exact writeAll_not_mem _ _ _ hwq

/-! ## Shape lemmas for the engine operations -/

theorem findInst_instId {s : Sys} {y : Nat} {i : Inst}
    (h : findInst s y = some i) : i.instId = y := by
  have := List.find?_some h
  simpa using this

theorem restore_disabled_shape (s : Sys) (instId : Nat) (i : Inst)
    (hfind : findInst s instId = some i) (hdis : i.isDisabled = true) :
    restoreInst s instId = (s, .ok ()) := by
  simp [restoreInst, hfind, hdis]

theorem restore_top_shape (s : Sys) (instId : Nat) (i : Inst) (tp : Nat × Nat)
    (hfind : findInst s instId = some i) (hen : i.isDisabled = false)
    (htop : s.stack.getLast? = some tp) (he : tp.1 = i.enId) :
    restoreInst s instId = (popStack (applyDoRestore s i), .ok ()) := by
  simp [restoreInst, hfind, hen, htop, he]

theorem restore_mismatch_shape (s : Sys) (instId : Nat) (i : Inst)
    (tp : Nat × Nat) (s' : Sys)
    (hfind : findInst s instId = some i) (hen : i.isDisabled = false)
    (htop : s.stack.getLast? = some tp) (he : ¬ tp.1 = i.enId)
    (hr : releaseAll s = some s') :
    restoreInst s instId = (s', .error (.lockOrder i.enId tp.1)) := by
  simp [restoreInst, hfind, hen, htop, he, hr]

theorem enable_ok_shape (s : Sys) (instId : Nat) (i : Inst)
    (hfind : findInst s instId = some i) (hdis : i.isDisabled = true) :
    enableInst s instId none none =
      ({ fs := writeAll s.fs i.toUpdate,
         stack := s.stack ++ [((enableCapture s.fs s.nextId i).enId, instId)],
         insts := setInst s.insts
           { enableCapture s.fs s.nextId i with isDisabled := false },
         tmp := s.tmp ++ [(enableCapture s.fs s.nextId i).tarFile],
         nextId := s.nextId + 1,
         log := s.log ++ [.lockAcquired,
           .backupCreated (enableCapture s.fs s.nextId i).tarFile, .replaced] },
       .ok ()) := by
  simp [enableInst, hfind, hdis]

theorem enable_lockfail_shape (s : Sys) (instId : Nat) (i : Inst) (n : Nat)
    (replaceFault : Option (Nat × List (String × String)))
    (hfind : findInst s instId = some i) (hdis : i.isDisabled = true) :
    enableInst s instId (some n) replaceFault =
      ({ s with log := s.log ++ [.lockFailed] }, .error (.injected n)) := by
  simp [enableInst, hfind, hdis]

theorem enable_writefail_shape (s : Sys) (instId : Nat) (i : Inst) (n : Nat)
    (written : List (String × String))
    (hfind : findInst s instId = some i) (hdis : i.isDisabled = true) :
    enableInst s instId none (some (n, written)) =
      (applyDoRestore
        { s with fs := writeAll s.fs written,
                 nextId := s.nextId + 1,
                 tmp := s.tmp ++ [(enableCapture s.fs s.nextId i).tarFile],
                 log := s.log ++ [.lockAcquired,
                   .backupCreated (enableCapture s.fs s.nextId i).tarFile,
                   .replaceFailed] }
        (enableCapture s.fs s.nextId i),
       .error (.injected n)) := by
  simp [enableInst, hfind, hdis]

theorem enable_already_shape (s : Sys) (instId : Nat) (i : Inst)
    (lockFault : Option Nat)
    (replaceFault : Option (Nat × List (String × String)))
    (s' : Sys)
    (hfind : findInst s instId = some i) (hen : i.isDisabled = false)
    (hr : restoreInst s instId = (s', .ok ())) :
    enableInst s instId lockFault replaceFault =
      (s', .error .alreadyEnabled) := by
  simp [enableInst, hfind, hen, hr]

theorem enable_already_err_shape (s : Sys) (instId : Nat) (i : Inst)
    (lockFault : Option Nat)
    (replaceFault : Option (Nat × List (String × String)))
    (s' : Sys) (e : Err)
    (hfind : findInst s instId = some i) (hen : i.isDisabled = false)
    (hr : restoreInst s instId = (s', .error e)) :
    enableInst s instId lockFault replaceFault = (s', .error e) := by
  simp [enableInst, hfind, hen, hr]

theorem setInst_setInst (x : List Inst) (a b : Inst)
    (hab : a.instId = b.instId) : setInst (setInst x a) b = setInst x b := by
  induction x with
  | nil => rfl
  | cons j t ih =>
    have hset : ∀ (y : List Inst) (c : Inst) (jj : Inst),
        setInst (jj :: y) c = (if jj.instId == c.instId then c else jj) :: setInst y c :=
      fun _ _ _ => rfl
    rw [hset, hset, hset, ih]
    by_cases hj : j.instId = a.instId
    · simp [hj, hab]
    · have hj' : ¬ (j.instId = b.instId) := by rw [← hab]; exact hj
      simp [hj, hj']

/-! ## Draining the lock stack -/

theorem drainFuel_empty (f : Nat) (s : Sys) (h : s.stack = []) :
    drainFuel f s = some s := by
  cases f <;> simp [drainFuel, h]

theorem releaseAll_empty (s : Sys) (h : s.stack = []) :
    releaseAll s = some s :=
  drainFuel_empty _ _ h

theorem releaseAll_step (s : Sys) (tp : Nat × Nat) (i : Inst)
    (htop : s.stack.getLast? = some tp) (hfind : findInst s tp.2 = some i)
    (hen : i.isDisabled = false) :
    releaseAll s = releaseAll (popStack (applyDoRestore s i)) := by
  have hne : s.stack ≠ [] := by
    intro h
    rw [h] at htop
    simp at htop
  have hpos : 0 < s.stack.length := List.length_pos.mpr hne
  show drainFuel s.stack.length s =
    drainFuel (popStack (applyDoRestore s i)).stack.length
      (popStack (applyDoRestore s i))
  have hl2 : (popStack (applyDoRestore s i)).stack.length = s.stack.length - 1 := by
    show s.stack.dropLast.length = _
    rw [List.length_dropLast]
  rw [hl2]
  obtain ⟨n, hn⟩ : ∃ n, s.stack.length = n + 1 := ⟨s.stack.length - 1, by omega⟩
  rw [hn]
  simp only [Nat.add_sub_cancel]
  simp [drainFuel, htop, hfind, hen]

/-- `UnwindsTo s fs₀`: draining the stack of `s`, top to bottom, makes
progress at every step and ends with the filesystem `fs₀`.  This is the
key invariant of reachable engine states: the backups on the stack
unwind, layer by layer, to the quiescent filesystem. -/
inductive UnwindsTo : Sys → Fs → Prop where
  | nil (s : Sys) (fs₀ : Fs) : s.stack = [] → s.fs = fs₀ → UnwindsTo s fs₀
  | snoc (s : Sys) (fs₀ : Fs) (tp : Nat × Nat) (i : Inst) :
      s.stack.getLast? = some tp → findInst s tp.2 = some i →
      i.isDisabled = false →
      UnwindsTo (popStack (applyDoRestore s i)) fs₀ →
      UnwindsTo s fs₀

theorem unwindsTo_nil_fs {s : Sys} {fs₀ : Fs} (h : UnwindsTo s fs₀)
    (hst : s.stack = []) : s.fs = fs₀ := by
  cases h with
  | nil _ _ _ h2 => exact h2
  | snoc _ _ tp i htop => rw [hst] at htop; simp at htop

theorem findInst_popRestore (s : Sys) (i : Inst) (y : Nat) :
    findInst (popStack (applyDoRestore s i)) y =
      if i.instId = y then
        ((findInst s y).map (fun _ => { i with isDisabled := true }))
      else findInst s y :=
  findInst_setInst (popStack (applyDoRestore s i)) s.insts
    { i with isDisabled := true } y rfl

theorem unwindsTo_congr {s : Sys} {fs₀ : Fs} (h : UnwindsTo s fs₀) :
    ∀ t : Sys, t.fs = s.fs → t.stack = s.stack →
      (∀ e ∈ s.stack, findInst t e.2 = findInst s e.2) → UnwindsTo t fs₀ := by
  induction h with
  | nil s fs₀ h1 h2 =>
    intro t hfs hst _
    exact .nil t fs₀ (by rw [hst, h1]) (by rw [hfs, h2])
  | snoc s fs₀ tp i htop hfind hen _ ih =>
    intro t hfs hst hlk
    have hmem : tp ∈ s.stack := by
      rcases List.getLast?_eq_getLast s.stack (by
        intro h
        rw [h] at htop
        simp at htop) with h
      rw [h] at htop
      exact (Option.some.injEq _ _).mp htop ▸ List.getLast_mem _
    have hfind' : findInst t tp.2 = some i := by rw [hlk tp hmem, hfind]
    refine .snoc t fs₀ tp i (by rw [hst, htop]) hfind' hen (ih _ ?_ ?_ ?_)
    · show (applyDoRestore t i).fs = (applyDoRestore s i).fs
      simp [applyDoRestore, hfs]
    · show (applyDoRestore t i).stack.dropLast = (applyDoRestore s i).stack.dropLast
      show t.stack.dropLast = s.stack.dropLast
      rw [hst]
    · intro e he
      have he' : e ∈ s.stack := by
        have : (popStack (applyDoRestore s i)).stack = s.stack.dropLast := rfl
        rw [this] at he
        exact List.dropLast_sublist _ |>.mem he
      rw [findInst_popRestore, findInst_popRestore, hlk e he']

/-- Draining a stack that unwinds: `releaseAll` succeeds, ends at the
quiescent filesystem with an empty stack, leaves instances that were not
on the stack untouched, and leaves every instance that was on the stack
disabled. -/
theorem unwindsTo_releaseAll {s : Sys} {fs₀ : Fs} (h : UnwindsTo s fs₀)
    (hnd : (s.stack.map Prod.snd).Nodup) :
    ∃ s', releaseAll s = some s' ∧ s'.fs = fs₀ ∧ s'.stack = [] ∧
      (∀ y, y ∉ s.stack.map Prod.snd → findInst s' y = findInst s y) ∧
      (∀ e ∈ s.stack, findInst s' e.2 =
        (findInst s e.2).map (fun j => { j with isDisabled := true })) := by
  induction h with
  | nil s fs₀ h1 h2 =>
    refine ⟨s, releaseAll_empty s h1, h2, h1, fun y _ => rfl, fun e he => ?_⟩
    rw [h1] at he
    simp at he
  | snoc s fs₀ tp i htop hfind hen hrec ih =>
    have hne : s.stack ≠ [] := by
      intro hh
      rw [hh] at htop
      simp at htop
    have hlast : s.stack.getLast hne = tp := by
      rw [List.getLast?_eq_getLast _ hne] at htop
      exact Option.some.inj htop
    have hdecomp : s.stack = s.stack.dropLast ++ [tp] := by
      conv_lhs => rw [← List.dropLast_append_getLast hne]
      rw [hlast]
    have htstack : (popStack (applyDoRestore s i)).stack = s.stack.dropLast := rfl
    have hnd' : ((popStack (applyDoRestore s i)).stack.map Prod.snd).Nodup := by
      rw [htstack]
      exact hnd.sublist ((List.dropLast_sublist s.stack).map Prod.snd)
    have hnotdl : tp.2 ∉ s.stack.dropLast.map Prod.snd := by
      have h2 := hnd
      rw [hdecomp, List.map_append] at h2
      intro hm
      exact (List.nodup_append.mp h2).2.2 hm (by simp)
    have hiid : i.instId = tp.2 := findInst_instId hfind
    rcases ih hnd' with ⟨s', h1, h2, h3, h4, h5⟩
    refine ⟨s', by rw [releaseAll_step s tp i htop hfind hen]; exact h1, h2, h3,
      ?_, ?_⟩
    · intro y hy
      have hy' : y ∉ s.stack.dropLast.map Prod.snd := by
        intro hm
        exact hy (by
          rw [hdecomp]
          simp only [List.map_append, List.mem_append]
          exact Or.inl hm)
      have hyne : ¬ (i.instId = y) := by
        rw [hiid]
        intro hh
        apply hy
        rw [hdecomp, List.map_append]
        refine List.mem_append.mpr (Or.inr ?_)
        rw [← hh]
        simp
      rw [h4 y (by rw [htstack]; exact hy'), findInst_popRestore, if_neg hyne]
    · intro e he
      rw [hdecomp] at he
      rcases List.mem_append.mp he with he | he
      · have hne2 : ¬ (i.instId = e.2) := by
          rw [hiid]
          intro hh
          exact hnotdl (hh ▸ List.mem_map_of_mem Prod.snd he)
        rw [h5 e (by rw [htstack]; exact he), findInst_popRestore, if_neg hne2]
      · have he' : e = tp := by simpa using he
        rw [he']
        rw [h4 tp.2 (by rw [htstack]; exact hnotdl), findInst_popRestore,
          if_pos hiid, hfind]
        rfl

/-- The well-formedness of the lock stack in reachable states: enable
ids and instance identities on the stack are pairwise distinct, enable
ids are below the `nanoid` counter, and every stacked handle belongs to
a live instance whose current enable id matches the handle. -/
def StackOk (s : Sys) : Prop :=
  (s.stack.map Prod.fst).Nodup ∧ (s.stack.map Prod.snd).Nodup ∧
  (∀ e ∈ s.stack, e.1 < s.nextId) ∧
  (∀ e ∈ s.stack, ∃ i, findInst s e.2 = some i ∧ i.isDisabled = false ∧
    i.enId = e.1)

theorem stackOk_not_stacked_of_disabled {s : Sys} {instId : Nat} {i : Inst}
    (hok : StackOk s) (hfind : findInst s instId = some i)
    (hdis : i.isDisabled = true) : ∀ e ∈ s.stack, e.2 ≠ instId := by
  intro e he hq
  rcases hok.2.2.2 e he with ⟨i', hfind', hen', _⟩
  rw [hq, hfind] at hfind'
  have hii : i = i' := Option.some.inj hfind'
  rw [← hii, hdis] at hen'
  simp at hen'

theorem stackOk_mkSys (fs : Fs) (insts : List Inst) : StackOk (mkSys fs insts) := by
  refine ⟨List.nodup_nil, List.nodup_nil, ?_, ?_⟩ <;> (intro e he; simp [mkSys] at he)

theorem unwindsTo_mkSys (fs : Fs) (insts : List Inst) :
    UnwindsTo (mkSys fs insts) fs :=
  .nil _ _ rfl rfl

/-- Enabling a disabled instance preserves the unwinding invariant: the
new top layer's `doRestore` returns the filesystem to its pre-enable
state (`enableCapture_roundtrip`), below which the old stack unwinds as
before. -/
theorem unwindsTo_enable (s : Sys) (fs₀ : Fs) (instId : Nat) (i : Inst)
    (hfind : findInst s instId = some i) (hdis : i.isDisabled = true)
    (hok : StackOk s) (h : UnwindsTo s fs₀) :
    UnwindsTo (enableInst s instId none none).1 fs₀ := by
  rw [enable_ok_shape s instId i hfind hdis]
  have hiid : i.instId = instId := findInst_instId hfind
  set cap := enableCapture s.fs s.nextId i with hcap
  set icap : Inst := { cap with isDisabled := false } with hicap
  set s' : Sys :=
    { fs := writeAll s.fs i.toUpdate,
      stack := s.stack ++ [(cap.enId, instId)],
      insts := setInst s.insts icap,
      tmp := s.tmp ++ [cap.tarFile],
      nextId := s.nextId + 1,
      log := s.log ++ [.lockAcquired, .backupCreated cap.tarFile, .replaced] }
    with hs'
  have hcapid : cap.instId = instId := by rw [hcap]; exact hiid
  have hfind' : findInst s' instId = some icap := by
    rw [findInst_setInst s' s.insts icap instId rfl,
      if_pos (by rw [hicap]; exact hcapid)]
    rw [show s.insts.find? (fun j => j.instId == instId) = findInst s instId from rfl,
      hfind]
    rfl
  refine .snoc s' fs₀ (cap.enId, instId) icap (List.getLast?_concat _) hfind'
    rfl ?_
  -- the popped, restored state agrees with s
  have hns : ∀ e ∈ s.stack, e.2 ≠ instId :=
    stackOk_not_stacked_of_disabled hok hfind hdis
  refine unwindsTo_congr h (popStack (applyDoRestore s' icap)) ?_ ?_ ?_
  · show writeAll (deleteAll s'.fs (fgExisting s'.fs icap.cleanupGlobs))
      icap.backup = s.fs
    have h1 : icap.cleanupGlobs = cap.cleanupGlobs := rfl
    have h2 : icap.backup = cap.backup := rfl
    rw [h1, h2]
    exact enableCapture_roundtrip s.fs s.nextId i i.toUpdate (fun p hp => hp)
  · show (s.stack ++ [(cap.enId, instId)]).dropLast = s.stack
    exact List.dropLast_concat ..
  · intro e he
    rw [findInst_popRestore s' icap e.2,
      if_neg (by
        intro hh
        exact hns e he (by rw [← hh]; rw [hicap]; exact hcapid.symm ▸ rfl))]
    rw [findInst_setInst s' s.insts icap e.2 rfl,
      if_neg (by rw [hicap]; rw [hcapid]; exact fun hh => hns e he hh.symm)]
    rfl

/-- Enabling a disabled instance preserves stack well-formedness. -/
theorem stackOk_enable (s : Sys) (instId : Nat) (i : Inst)
    (hfind : findInst s instId = some i) (hdis : i.isDisabled = true)
    (hok : StackOk s) : StackOk (enableInst s instId none none).1 := by
  rw [enable_ok_shape s instId i hfind hdis]
  have hiid : i.instId = instId := findInst_instId hfind
  set cap := enableCapture s.fs s.nextId i with hcap
  set icap : Inst := { cap with isDisabled := false } with hicap
  have hcapid : cap.instId = instId := by rw [hcap]; exact hiid
  have hns : ∀ e ∈ s.stack, e.2 ≠ instId :=
    stackOk_not_stacked_of_disabled hok hfind hdis
  have hcapen : cap.enId = s.nextId := rfl
  refine ⟨?_, ?_, ?_, ?_⟩
  · show ((s.stack ++ [(cap.enId, instId)]).map Prod.fst).Nodup
    rw [List.map_append]
    refine List.Nodup.append hok.1 (List.nodup_singleton _) ?_
    intro a ha hb
    simp only [List.map_cons, List.map_nil, List.mem_singleton] at hb
    rcases List.mem_map.mp ha with ⟨e, he, hq⟩
    have := hok.2.2.1 e he
    rw [hq, hb, hcapen] at this
    exact lt_irrefl _ this
  · show ((s.stack ++ [(cap.enId, instId)]).map Prod.snd).Nodup
    rw [List.map_append]
    refine List.Nodup.append hok.2.1 (List.nodup_singleton _) ?_
    intro a ha hb
    simp only [List.map_cons, List.map_nil, List.mem_singleton] at hb
    rcases List.mem_map.mp ha with ⟨e, he, hq⟩
    exact hns e he (by rw [hq, hb])
  · intro e he
    rcases List.mem_append.mp he with he | he
    · exact Nat.lt_succ_of_lt (hok.2.2.1 e he)
    · have : e = (cap.enId, instId) := by simpa using he
      rw [this, hcapen]
      exact Nat.lt_succ_self _
  · intro e he
    rcases List.mem_append.mp he with he | he
    · rcases hok.2.2.2 e he with ⟨i', hf', hen', hid'⟩
      refine ⟨i', ?_, hen', hid'⟩
      rw [findInst_setInst _ s.insts icap e.2 rfl,
        if_neg (by rw [hicap]; rw [hcapid]; exact fun hh => hns e he hh.symm)]
      exact hf'
    · have he' : e = (cap.enId, instId) := by simpa using he
      refine ⟨icap, ?_, rfl, by rw [he']⟩
      rw [he']
      rw [findInst_setInst _ s.insts icap instId rfl,
        if_pos (by rw [hicap]; exact hcapid)]
      rw [show s.insts.find? (fun j => j.instId == instId) = findInst s instId from rfl,
        hfind]
      rfl

/-- A sequence of `restore()` calls; the flag records whether every call
succeeded (the sequence stops at the first failure). -/
def restoreSeq : Sys → List Nat → Sys × Bool
  | s, [] => (s, true)
  | s, y :: rest =>
    match restoreInst s y with
    | (s', Except.ok _) => restoreSeq s' rest
    | (s', Except.error _) => (s', false)

/-- Restoring in exact reverse enable order (last enabled first) succeeds
at every step and unwinds every layer, ending at the quiescent
filesystem with an empty stack. -/
theorem reverse_restore {s : Sys} {fs₀ : Fs} (hu : UnwindsTo s fs₀)
    (hok : StackOk s) :
    ∃ s', restoreSeq s (s.stack.reverse.map Prod.snd) = (s', true) ∧
      s'.fs = fs₀ ∧ s'.stack = [] := by
  induction hu with
  | nil s fs₀ h1 h2 => exact ⟨s, by rw [h1]; rfl, h2, h1⟩
  | snoc s fs₀ tp i htop hfind hen hrec ih =>
    have hne : s.stack ≠ [] := by
      intro hh
      rw [hh] at htop
      simp at htop
    have hlast : s.stack.getLast hne = tp := by
      rw [List.getLast?_eq_getLast _ hne] at htop
      exact Option.some.inj htop
    have hdecomp : s.stack = s.stack.dropLast ++ [tp] := by
      conv_lhs => rw [← List.dropLast_append_getLast hne]
      rw [hlast]
    have hiid : i.instId = tp.2 := findInst_instId hfind
    have hnotdl : tp.2 ∉ s.stack.dropLast.map Prod.snd := by
      have h2 := hok.2.1
      rw [hdecomp, List.map_append] at h2
      intro hm
      exact (List.nodup_append.mp h2).2.2 hm (by simp)
    have htpmem : tp ∈ s.stack := by
      rw [hdecomp]
      simp
    rcases hok.2.2.2 tp htpmem with ⟨i', hf', _, hid'⟩
    have hii : i' = i := by
      rw [hfind] at hf'
      exact (Option.some.inj hf').symm
    have henid : tp.1 = i.enId := by rw [← hid', hii]
    have hshape := restore_top_shape s tp.2 i tp hfind hen htop henid
    set t := popStack (applyDoRestore s i) with ht
    have htstack : t.stack = s.stack.dropLast := rfl
    have hokt : StackOk t := by
      refine ⟨?_, ?_, ?_, ?_⟩
      · rw [htstack]
        exact hok.1.sublist ((List.dropLast_sublist s.stack).map Prod.fst)
      · rw [htstack]
        exact hok.2.1.sublist ((List.dropLast_sublist s.stack).map Prod.snd)
      · intro e he
        rw [htstack] at he
        have : t.nextId = s.nextId := rfl
        rw [this]
        exact hok.2.2.1 e ((List.dropLast_sublist s.stack).mem he)
      · intro e he
        rw [htstack] at he
        rcases hok.2.2.2 e ((List.dropLast_sublist s.stack).mem he) with
          ⟨i2, hf2, hen2, hid2⟩
        refine ⟨i2, ?_, hen2, hid2⟩
        rw [findInst_popRestore s i e.2,
          if_neg (by
            rw [hiid]
            intro hh
            exact hnotdl (hh ▸ List.mem_map_of_mem Prod.snd he))]
        exact hf2
    rcases ih hokt with ⟨s', h1, h2, h3⟩
    refine ⟨s', ?_, h2, h3⟩
    have hrev : s.stack.reverse.map Prod.snd =
        tp.2 :: (t.stack.reverse.map Prod.snd) := by
      rw [htstack]
      conv_lhs => rw [hdecomp]
      simp
    rw [hrev, restoreSeq, hshape]
    exact h1

/-- Restoring a live stacked instance that is not at the top of the lock
stack drains the whole stack (every stacked instance ends up disabled,
the filesystem is back at the quiescent state) and raises the
lock-ordering error naming the two ids. -/
theorem restore_out_of_order {s : Sys} {fs₀ : Fs} (hu : UnwindsTo s fs₀)
    (hok : StackOk s) (e : Nat × Nat) (hmem : e ∈ s.stack.dropLast) :
    ∃ s' tp, s.stack.getLast? = some tp ∧
      restoreInst s e.2 = (s', .error (.lockOrder e.1 tp.1)) ∧
      s'.fs = fs₀ ∧ s'.stack = [] ∧
      (∀ e' ∈ s.stack, findInst s' e'.2 =
        (findInst s e'.2).map (fun j => { j with isDisabled := true })) := by
  have hne : s.stack ≠ [] := by
    intro hh
    rw [hh] at hmem
    simp at hmem
  have htop : s.stack.getLast? = some (s.stack.getLast hne) :=
    List.getLast?_eq_getLast _ hne
  set tp := s.stack.getLast hne with htp
  have hdecomp : s.stack = s.stack.dropLast ++ [tp] := by
    conv_lhs => rw [← List.dropLast_append_getLast hne]
  have hmem' : e ∈ s.stack := (List.dropLast_sublist s.stack).mem hmem
  rcases hok.2.2.2 e hmem' with ⟨i, hf, hen, hid⟩
  have hnefst : ¬ (tp.1 = i.enId) := by
    rw [hid]
    have h2 := hok.1
    rw [hdecomp, List.map_append] at h2
    intro hh
    exact (List.nodup_append.mp h2).2.2
      (hh ▸ List.mem_map_of_mem Prod.fst hmem) (by simp)
  rcases unwindsTo_releaseAll hu hok.2.1 with ⟨s', h1, h2, h3, _, h5⟩
  refine ⟨s', tp, htop, ?_, h2, h3, h5⟩
  have := restore_mismatch_shape s e.2 i tp s' hf hen htop hnefst h1
  rw [this, hid]

/-! ## Lemmas about normalization and flattening -/

theorem Entry.isFile_eq_not_isDir (v : Entry) : v.isFile = !v.isDir := by
  cases v <;> rfl

/-- If any top-level key resolves to the virtual root and holds a file,
the mapping step of `normalize` fails with `DirectoryIsInvalid`, naming
the first such offending key. -/
theorem mapM_normEntry_error (parent : String) (S : Directory) (k : String)
    (v : Entry) (hmem : (k, v) ∈ S) (hroot : pathResolveRoot k = "/")
    (hfile : v.isFile = true) :
    ∃ k₀ v₀, (k₀, v₀) ∈ S ∧ pathResolveRoot k₀ = "/" ∧ v₀.isFile = true ∧
      S.mapM (normEntryAbs parent) =
        .error (.directoryIsInvalid (parent ++ "/" ++ k₀)) := by
  induction S with
  | nil => simp at hmem
  | cons e t ih =>
    by_cases he : pathResolveRoot e.1 = "/" ∧ e.2.isDir = false
    · refine ⟨e.1, e.2, List.mem_cons_self _ _, he.1, ?_, ?_⟩
      · rw [Entry.isFile_eq_not_isDir, he.2]
        rfl
      · rw [List.mapM_cons]
        have : normEntryAbs parent e =
            .error (.directoryIsInvalid (parent ++ "/" ++ e.1)) := by
          simp [normEntryAbs, he.1, he.2]
        rw [this]
        rfl
    · have hmem' : (k, v) ∈ t := by
        rcases List.mem_cons.mp hmem with hh | hh
        · exfalso
          apply he
          rw [← hh]
          refine ⟨hroot, ?_⟩
          rw [Entry.isFile_eq_not_isDir] at hfile
          simpa using hfile
        · exact hh
      rcases ih hmem' with ⟨k₀, v₀, h1, h2, h3, h4⟩
      refine ⟨k₀, v₀, List.mem_cons_of_mem _ h1, h2, h3, ?_⟩
      rw [List.mapM_cons]
      have hc : (decide (pathResolveRoot e.1 = "/") && !e.2.isDir) = false := by
        by_cases h1' : pathResolveRoot e.1 = "/"
        · have h2' : e.2.isDir = true := by
            by_contra hc2
            exact he ⟨h1', by simpa using hc2⟩
          simp [h1', h2']
        · simp [h1']
      have hr : normEntryAbs parent e =
          .ok (pathRelativeRoot (pathResolveRoot e.1), e.2) := by
        simp [normEntryAbs, hc]
      rw [hr, h4]
      rfl

/-- A spec containing a top-level key that resolves to the virtual root
with a file value makes `normalize` — and `flatten`, which normalizes
first — fail with `DirectoryIsInvalid` naming an offending path, before
any further processing. -/
theorem normalize_root_file_error (S : Directory) (k : String) (v : Entry)
    (hmem : (k, v) ∈ S) (hroot : pathResolveRoot k = "/")
    (hfile : v.isFile = true) :
    ∃ k₀ v₀, (k₀, v₀) ∈ S ∧ pathResolveRoot k₀ = "/" ∧ v₀.isFile = true ∧
      normalize S = .error (.directoryIsInvalid ("." ++ "/" ++ k₀)) ∧
      flatten S = .error (.directoryIsInvalid ("." ++ "/" ++ k₀)) := by
  rcases mapM_normEntry_error "." S k v hmem hroot hfile with
    ⟨k₀, v₀, h1, h2, h3, h4⟩
  have hn : normalize S = .error (.directoryIsInvalid ("." ++ "/" ++ k₀)) := by
    simp only [normalize, normalizeF]
    rw [h4]
    rfl
  refine ⟨k₀, v₀, h1, h2, h3, hn, ?_⟩
  rw [flatten, hn]
  rfl

theorem pathResolveRoot_isAbsolute (x : String) :
    pathIsAbsolute (pathResolveRoot x) = true := rfl

theorem pathResolveAbs_isAbsolute (parent p : String) :
    pathIsAbsolute (pathResolveAbs parent p) = true := by
  rw [pathResolveAbs]
  split <;> exact pathResolveRoot_isAbsolute _

/-- Every path produced by `flatList` is absolute. -/
theorem flatListF_keys_abs (fuel : Nat) :
    ∀ (root : Directory) (parent : String) (p : String × File),
      p ∈ flatListF fuel root parent → pathIsAbsolute p.1 = true := by
  induction fuel with
  | zero => intro root parent p hp; simp [flatListF] at hp
  | succ fuel ih =>
    intro root parent p hp
    rw [flatListF] at hp
    rw [List.mem_insertionSort] at hp
    rcases List.mem_append.mp hp with hp | hp
    · rcases List.mem_map.mp hp with ⟨kk, _, hq⟩
      rw [← hq]
      exact pathResolveAbs_isAbsolute _ _
    · rw [List.mem_flatten] at hp
      rcases hp with ⟨l, hl, hpl⟩
      rcases List.mem_map.mp hl with ⟨dn, _, hq⟩
      rw [← hq] at hpl
      exact ih _ _ p hpl

/-- C4's first half, for every spec: a successful `flatten` produces
pairwise-distinct, absolute keys. -/
theorem flatten_keys_nodup_abs (S F : Directory) (h : flatten S = .ok F) :
    (F.map Prod.fst).Nodup ∧
      ∀ kk ∈ F.map Prod.fst, pathIsAbsolute kk = true := by
  rw [flatten] at h
  cases hn : normalize S with
  | error e => rw [hn] at h; exact absurd h (by simp [Except.bind])
  | ok n =>
    rw [hn] at h
    have hF : F = ((flatListF (Entry.dsize n + 1) n "/").map
        (fun p => (p.1, Entry.file p.2))).foldl
      (fun res p => objSet res p.1 p.2) [] :=
      (Except.ok.inj (show Except.ok (((flatListF (Entry.dsize n + 1) n "/").map
          (fun p => (p.1, Entry.file p.2))).foldl
        (fun res p => objSet res p.1 p.2) []) = Except.ok F from h)).symm
    constructor
    · rw [hF]
      exact nodup_keys_foldl_objSet _ _ List.nodup_nil
    · intro kk hkk
      rw [hF] at hkk
      rcases keys_foldl_objSet_subset _ _ _ hkk with hk | hk
      · simp at hk
      · rcases List.mem_map.mp hk with ⟨q, hq, hq2⟩
        rcases List.mem_map.mp hq with ⟨p, hp, hp2⟩
        rw [← hq2, ← hp2]
        exact flatListF_keys_abs _ _ _ p hp

/-! ## Claim theorems -/

/-- C3: Normalization resolves duplicate definitions by insertion order
(last wins): `{'/etc': {a: '1'}, '/etc/a': '2'}` normalizes to
`{etc: {a: '2'}}`; two entries that are both directories at the point of
resolution, with no remaining path segments, are shallow-merged with
right-hand entries winning: `{'/dir/': {f: 'v1'}, '/dir': {g: 'v2'}}`
normalizes to `{dir: {f: 'v1', g: 'v2'}}`.  In general, for a resolved
single-segment key, a later file entry fully replaces whatever is there,
and a later directory entry meeting a directory is shallow-merged
key-by-key (`normStep`, the body of the grouping fold). -/
theorem normalize_last_write_wins (normalized : Directory) (location : String)
    (f : File) (cd cur : Directory)
    (h1 : splitSlash location = [location]) (h2 : ¬ location = "")
    (h3 : objGet normalized location = some (.dir cur)) :
    dir [("/etc", .dir [("a", .file (.contents "1"))]),
         ("/etc/a", .file (.contents "2"))] =
      .ok [("etc", .dir [("a", .file (.contents "2"))])] ∧
    dir [("/dir/", .dir [("f", .file (.contents "v1"))]),
         ("/dir", .dir [("g", .file (.contents "v2"))])] =
      .ok [("dir", .dir [("f", .file (.contents "v1")),
                         ("g", .file (.contents "v2"))])] ∧
    normStep normalized (location, .file f) =
      objSet normalized location (.file f) ∧
    normStep normalized (location, .dir cd) =
      objSet normalized location (.dir (objMerge cur cd)) := by
  refine ⟨rfl, rfl, ?_, ?_⟩
  · simp [normStep, h1, h2, h3]
  · simp [normStep, h1, h2, h3]

theorem normalize_last_write_wins_witness :
    normStep [("etc", Entry.dir [("a", Entry.file (.contents "1"))])]
        ("etc", Entry.file (.contents "2")) =
      objSet [("etc", Entry.dir [("a", Entry.file (.contents "1"))])] "etc"
        (Entry.file (.contents "2")) ∧
    normStep [("etc", Entry.dir [("a", Entry.file (.contents "1"))])]
        ("etc", Entry.dir [("b", Entry.file (.contents "3"))]) =
      objSet [("etc", Entry.dir [("a", Entry.file (.contents "1"))])] "etc"
        (Entry.dir (objMerge [("a", Entry.file (.contents "1"))]
          [("b", Entry.file (.contents "3"))])) :=
  ⟨(normalize_last_write_wins
      [("etc", Entry.dir [("a", Entry.file (.contents "1"))])] "etc"
      (File.contents "2") [("b", Entry.file (.contents "3"))]
      [("a", Entry.file (.contents "1"))] rfl (by decide) rfl).2.2.1,
   (normalize_last_write_wins
      [("etc", Entry.dir [("a", Entry.file (.contents "1"))])] "etc"
      (File.contents "2") [("b", Entry.file (.contents "3"))]
      [("a", Entry.file (.contents "1"))] rfl (by decide) rfl).2.2.2⟩

/-- C8: `normalize({})` and `normalize({'.': {}})` both return the empty
spec; a spec with a key resolving to the virtual root whose value is a
file fails with `DirectoryIsInvalid` naming the offending path (for
example `{'.': 'x'}` fails naming `./.`), and `flatten`, which
normalizes first, fails identically.  The error arises in the pure
mapping step of normalization, before any filesystem access. -/
theorem normalize_root_validation :
    normalize [] = .ok [] ∧
    normalize [(".", Entry.dir [])] = .ok [] ∧
    normalize [(".", Entry.file (.contents "x"))] =
      .error (.directoryIsInvalid "./.") ∧
    flatten [(".", Entry.file (.contents "x"))] =
      .error (.directoryIsInvalid "./.") ∧
    (∀ (S : Directory) (k : String) (v : Entry), (k, v) ∈ S →
      pathResolveRoot k = "/" → v.isFile = true →
      ∃ k₀ v₀, (k₀, v₀) ∈ S ∧ pathResolveRoot k₀ = "/" ∧ v₀.isFile = true ∧
        normalize S = .error (.directoryIsInvalid ("." ++ "/" ++ k₀)) ∧
        flatten S = .error (.directoryIsInvalid ("." ++ "/" ++ k₀))) :=
  ⟨rfl, rfl, rfl, rfl, normalize_root_file_error⟩

theorem normalize_root_validation_witness :
    ∃ k₀ v₀,
      (k₀, v₀) ∈ [(".", Entry.file (.contents "x"))] ∧
      pathResolveRoot k₀ = "/" ∧ v₀.isFile = true ∧
      normalize [(".", Entry.file (.contents "x"))] =
        .error (.directoryIsInvalid ("." ++ "/" ++ k₀)) ∧
      flatten [(".", Entry.file (.contents "x"))] =
        .error (.directoryIsInvalid ("." ++ "/" ++ k₀)) :=
  normalize_root_validation.2.2.2.2 [(".", Entry.file (.contents "x"))]
    "." (Entry.file (.contents "x")) (by simp) rfl rfl

/-- C4 (counterexample): flattening is not idempotent.  For
`S = {'.': {'a': 'x', 'a/b': 'y'}}`, the relative key splats `a/b` into
the top level unsplit, so `flatten(S) = {'/a': 'x', '/a/b': 'y'}`; but
flattening that flat spec again re-nests `'/a/b'`, and the later entry
discards the file at `'/a'`: the result is `{'/a/b': 'y'}`, so
`flatten(flatten-as-spec(S)) ≠ flatten(S)`. -/
theorem flatten_not_idempotent :
    ¬ ((do
        let F ← flatten [(".", Entry.dir [("a", Entry.file (.contents "x")),
          ("a/b", Entry.file (.contents "y"))])]
        flatten F) =
      flatten [(".", Entry.dir [("a", Entry.file (.contents "x")),
        ("a/b", Entry.file (.contents "y"))])]) := by
  intro h
  have h1 : flatten [(".", Entry.dir [("a", Entry.file (.contents "x")),
      ("a/b", Entry.file (.contents "y"))])] =
    .ok [("/a", Entry.file (.contents "x")),
         ("/a/b", Entry.file (.contents "y"))] := rfl
  have h2 : flatten [("/a", Entry.file (.contents "x")),
      ("/a/b", Entry.file (.contents "y"))] =
    .ok [("/a/b", Entry.file (.contents "y"))] := rfl
  rw [h1] at h
  have h3 : flatten [("/a", Entry.file (.contents "x")),
      ("/a/b", Entry.file (.contents "y"))] =
    .ok [("/a", Entry.file (.contents "x")),
         ("/a/b", Entry.file (.contents "y"))] := h
  rw [h2] at h3
  have := congrArg (Except.map List.length) h3
  simp [Except.map] at this

/-- C9: `fileSpec` and `fileRef` return fully-populated records: missing
timestamps default to the construction-time date, missing uid/gid to the
process identity (or `0` where unavailable), supplied fields are kept;
`fileRef`'s relative string source is resolved against the provided
`basedir` (defaulting to the process working directory), never against
the overlay's `rootdir`. -/
theorem fileSpec_fileRef_defaults (env : ProcEnv) (s : String)
    (p : FileSpecOpt) (r : FileRefOpt) (bd : String) :
    fileSpec env (.contents s) =
      { contents := s, atime := env.now, mtime := env.now,
        uid := env.procUid.getD 0, gid := env.procGid.getD 0 } ∧
    fileSpec env (.opt p) =
      { contents := p.contents.getD "", atime := p.atime.getD env.now,
        mtime := p.mtime.getD env.now, uid := p.uid.getD (env.procUid.getD 0),
        gid := p.gid.getD (env.procGid.getD 0) } ∧
    fileRef env (.str s) (some bd) =
      { src := if pathIsAbsolute s then s else pathResolveCwd env.cwd bd s,
        atime := env.now, mtime := env.now,
        uid := env.procUid.getD 0, gid := env.procGid.getD 0 } ∧
    fileRef env (.str s) none =
      { src := if pathIsAbsolute s then s
               else pathResolveCwd env.cwd env.cwd s,
        atime := env.now, mtime := env.now,
        uid := env.procUid.getD 0, gid := env.procGid.getD 0 } ∧
    fileRef env (.opt r) (some bd) =
      { src := r.src, atime := r.atime.getD env.now,
        mtime := r.mtime.getD env.now, uid := r.uid.getD (env.procUid.getD 0),
        gid := r.gid.getD (env.procGid.getD 0) } := by
  refine ⟨rfl, rfl, ?_, ?_, rfl⟩ <;>
    (cases hs : pathIsAbsolute s <;> simp [fileRef, hs])

/-- A successful `restore()` on a live instance can only come from the
stack-top branch: the state is the popped, restored one. -/
theorem restore_ok_state (s : Sys) (instId : Nat) (i : Inst) (s' : Sys)
    (u : Unit) (hfind : findInst s instId = some i)
    (hen : i.isDisabled = false)
    (hok : restoreInst s instId = (s', .ok u)) :
    s' = popStack (applyDoRestore s i) := by
  cases htop : s.stack.getLast? with
  | none =>
    simp only [restoreInst, hfind, hen, htop] at hok
    simp at hok
  | some tp =>
    by_cases he : tp.1 = i.enId
    · simp only [restoreInst, hfind, hen, htop, he] at hok
      simp at hok
      exact hok.symm
    · cases hr : releaseAll s with
      | some s2 =>
        simp only [restoreInst, hfind, hen, htop, he, hr] at hok
        simp at hok
      | none =>
        simp only [restoreInst, hfind, hen, htop, he, hr] at hok
        simp at hok

theorem findInst_after_enable (s : Sys) (instId : Nat) (i : Inst)
    (hfind : findInst s instId = some i) (hdis : i.isDisabled = true) :
    findInst (enableInst s instId none none).1 instId =
      some { enableCapture s.fs s.nextId i with isDisabled := false } := by
  rw [enable_ok_shape s instId i hfind hdis]
  have hiid : (enableCapture s.fs s.nextId i).instId = instId := by
    show i.instId = instId
    exact findInst_instId hfind
  rw [findInst_setInst _ s.insts _ instId rfl, if_pos hiid]
  rw [show s.insts.find? (fun j => j.instId == instId) = findInst s instId
    from rfl, hfind]
  rfl

/-- C7: `restore()` is idempotent after its first success.  A successful
restore on a live instance marks it disabled; a subsequent `restore()`
returns the very same state (no filesystem mutation, no lock-stack
change) with a successful result. -/
theorem restore_idempotent (s : Sys) (instId : Nat) (i : Inst) (s' : Sys)
    (u : Unit) (hfind : findInst s instId = some i)
    (hen : i.isDisabled = false)
    (hok : restoreInst s instId = (s', .ok u)) :
    findInst s' instId = some { i with isDisabled := true } ∧
    restoreInst s' instId = (s', .ok ()) := by
  have hs' := restore_ok_state s instId i s' u hfind hen hok
  have hf' : findInst s' instId = some { i with isDisabled := true } := by
    rw [hs', findInst_popRestore, if_pos (findInst_instId hfind), hfind]
    rfl
  exact ⟨hf', restore_disabled_shape s' instId _ hf' rfl⟩

/-! Concrete scenario used by the stateful witnesses: a base filesystem
with one existing file, and two built (disabled) instances. -/

def demoFs : Fs := fun p => if p = "/etc/hostname" then some "base" else none

def demoA : Inst := mkInst 1 [("/etc/hostname", "one")] [] []

def demoB : Inst :=
  mkInst 2 [("/etc/hostname", "two"), ("/etc/other.conf", "x")] [] []

def demoS0 : Sys := mkSys demoFs [demoA, demoB]

def demoS1 : Sys := (enableInst demoS0 1 none none).1

def demoS2 : Sys := (enableInst demoS1 2 none none).1

def demoR1 : Sys := (restoreInst demoS1 1).1

def noInst : Inst := mkInst 0 [] [] []

theorem restore_idempotent_witness :
    findInst demoR1 1 =
      some { (findInst demoS1 1).getD noInst with isDisabled := true } ∧
    restoreInst demoR1 1 = (demoR1, .ok ()) :=
  restore_idempotent demoS1 1 ((findInst demoS1 1).getD noInst) demoR1 ()
    rfl rfl rfl

/-- C5: if the destructive apply step of `enable()` fails (after an
arbitrary subset of the write-plan has been written), the engine runs
exactly one `doRestore` — delete the existing cleanup-glob matches,
extract the backup, delete the backup artifact — and re-raises the
original write error unchanged: the result is a single `applyDoRestore`
application carrying the injected error, the filesystem is back to its
pre-enable state, and the lock stack and temp directory are
untouched. -/
theorem enable_write_failure_recovery (s : Sys) (instId : Nat) (i : Inst)
    (n : Nat) (written : List (String × String))
    (hfind : findInst s instId = some i) (hdis : i.isDisabled = true)
    (hw : ∀ p ∈ written.map Prod.fst, p ∈ i.toUpdate.map Prod.fst)
    (htar : (enableCapture s.fs s.nextId i).tarFile ∉ s.tmp) :
    enableInst s instId none (some (n, written)) =
      (applyDoRestore
        { s with fs := writeAll s.fs written,
                 nextId := s.nextId + 1,
                 tmp := s.tmp ++ [(enableCapture s.fs s.nextId i).tarFile],
                 log := s.log ++ [.lockAcquired,
                   .backupCreated (enableCapture s.fs s.nextId i).tarFile,
                   .replaceFailed] }
        (enableCapture s.fs s.nextId i),
       .error (.injected n)) ∧
    (enableInst s instId none (some (n, written))).1.fs = s.fs ∧
    (enableInst s instId none (some (n, written))).1.stack = s.stack ∧
    (enableInst s instId none (some (n, written))).1.tmp = s.tmp := by
  have hsh := enable_writefail_shape s instId i n written hfind hdis
  refine ⟨hsh, ?_, ?_, ?_⟩
  · rw [hsh]
    exact enableCapture_roundtrip s.fs s.nextId i written hw
  · rw [hsh]
    rfl
  · rw [hsh]
    show (s.tmp ++ [(enableCapture s.fs s.nextId i).tarFile]).erase
      (enableCapture s.fs s.nextId i).tarFile = s.tmp
    rw [List.erase_append_right _ htar, List.erase_cons_head, List.append_nil]

theorem enable_write_failure_recovery_witness :
    enableInst demoS0 1 none (some (5, [("/etc/hostname", "one")])) =
      (applyDoRestore
        { demoS0 with
            fs := writeAll demoS0.fs [("/etc/hostname", "one")],
            nextId := demoS0.nextId + 1,
            tmp := demoS0.tmp ++
              [(enableCapture demoS0.fs demoS0.nextId demoA).tarFile],
            log := demoS0.log ++ [.lockAcquired,
              .backupCreated (enableCapture demoS0.fs demoS0.nextId demoA).tarFile,
              .replaceFailed] }
        (enableCapture demoS0.fs demoS0.nextId demoA),
       .error (.injected 5)) ∧
    (enableInst demoS0 1 none (some (5, [("/etc/hostname", "one")]))).1.fs =
      demoS0.fs ∧
    (enableInst demoS0 1 none (some (5, [("/etc/hostname", "one")]))).1.stack =
      demoS0.stack ∧
    (enableInst demoS0 1 none (some (5, [("/etc/hostname", "one")]))).1.tmp =
      demoS0.tmp :=
  enable_write_failure_recovery demoS0 1 demoA 5 [("/etc/hostname", "one")]
    rfl rfl (by decide) (by decide)

/-- C2 (counterexample): the claim that `enable()` creates the backup
archive before acquiring the process-wide lock, and deletes it if lock
acquisition fails, is false for this engine: the successful trace
acquires the lock first and creates the backup while holding it, and a
lock-acquisition failure leaves a trace with no backup-creation and no
backup-deletion event — there is nothing to delete. -/
theorem enable_lock_before_backup_counterexample :
    (enableInst demoS0 1 none none).1.log =
      [.lockAcquired, .backupCreated "/tmp/testfs-1.tar", .replaced] ∧
    ¬ ((enableInst demoS0 1 none none).1.log.indexOf
        (Ev.backupCreated "/tmp/testfs-1.tar") <
      (enableInst demoS0 1 none none).1.log.indexOf Ev.lockAcquired) ∧
    (enableInst demoS0 1 (some 7) none).2 = .error (.injected 7) ∧
    (enableInst demoS0 1 (some 7) none).1.log = [.lockFailed] ∧
    (enableInst demoS0 1 (some 7) none).1.tmp = [] ∧
    (∀ t : String,
      Ev.backupCreated t ∉ (enableInst demoS0 1 (some 7) none).1.log) ∧
    (∀ t : String,
      Ev.backupDeleted t ∉ (enableInst demoS0 1 (some 7) none).1.log) := by
  refine ⟨rfl, by decide, rfl, rfl, rfl, ?_, ?_⟩ <;>
    (intro t ht; simp only [show (enableInst demoS0 1 (some 7) none).1.log =
      [.lockFailed] from rfl, List.mem_singleton] at ht; cases ht)

/-- C2 (amended): during `enable()` the process-wide lock is acquired
first and the backup archive is created while holding it, as the event
trace records; if lock acquisition fails, no part of the enable body has
run — no backup artifact exists, nothing is deleted — and the lock
failure propagates untouched, the only state change being the logged
failure event. -/
theorem enable_lock_then_backup (s : Sys) (instId : Nat) (i : Inst) (n : Nat)
    (hfind : findInst s instId = some i) (hdis : i.isDisabled = true) :
    (enableInst s instId none none).1.log =
      s.log ++ [.lockAcquired,
        .backupCreated (enableCapture s.fs s.nextId i).tarFile, .replaced] ∧
    (enableInst s instId none none).1.tmp =
      s.tmp ++ [(enableCapture s.fs s.nextId i).tarFile] ∧
    enableInst s instId (some n) none =
      ({ s with log := s.log ++ [.lockFailed] }, .error (.injected n)) := by
  refine ⟨?_, ?_, enable_lockfail_shape s instId i n none hfind hdis⟩ <;>
    rw [enable_ok_shape s instId i hfind hdis]

theorem enable_lock_then_backup_witness :
    (enableInst demoS0 1 none none).1.log =
      demoS0.log ++ [.lockAcquired,
        .backupCreated (enableCapture demoS0.fs demoS0.nextId demoA).tarFile,
        .replaced] ∧
    (enableInst demoS0 1 none none).1.tmp =
      demoS0.tmp ++ [(enableCapture demoS0.fs demoS0.nextId demoA).tarFile] ∧
    enableInst demoS0 1 (some 9) none =
      ({ demoS0 with log := demoS0.log ++ [.lockFailed] },
       .error (.injected 9)) :=
  enable_lock_then_backup demoS0 1 demoA 9 rfl rfl

/-- C1: for every reachable stack of currently-enabled instances
(`UnwindsTo` and `StackOk` are established for the initial state and
preserved by `enable`), calling `restore()` on a live stacked instance
that is not at the top first drains the entire stack — every stacked
instance is restored and left disabled, the filesystem is back at the
quiescent state, no overlay files remain — and then raises the
lock-ordering error; calling `restore()` in exact reverse enable order
succeeds at every layer and unwinds them all. -/
theorem lifo_restore_discipline (s : Sys) (fs₀ : Fs)
    (hu : UnwindsTo s fs₀) (hok : StackOk s) :
    (∀ e ∈ s.stack.dropLast,
      ∃ s' tp, s.stack.getLast? = some tp ∧
        restoreInst s e.2 = (s', .error (.lockOrder e.1 tp.1)) ∧
        s'.fs = fs₀ ∧ s'.stack = [] ∧
        (∀ e' ∈ s.stack, findInst s' e'.2 =
          (findInst s e'.2).map (fun j => { j with isDisabled := true }))) ∧
    (∃ s', restoreSeq s (s.stack.reverse.map Prod.snd) = (s', true) ∧
      s'.fs = fs₀ ∧ s'.stack = []) :=
  ⟨fun e he => restore_out_of_order hu hok e he, reverse_restore hu hok⟩

theorem lifo_restore_discipline_witness :
    (∀ e ∈ demoS2.stack.dropLast,
      ∃ s' tp, demoS2.stack.getLast? = some tp ∧
        restoreInst demoS2 e.2 = (s', .error (.lockOrder e.1 tp.1)) ∧
        s'.fs = demoFs ∧ s'.stack = [] ∧
        (∀ e' ∈ demoS2.stack, findInst s' e'.2 =
          (findInst demoS2 e'.2).map
            (fun j => { j with isDisabled := true }))) ∧
    (∃ s', restoreSeq demoS2 (demoS2.stack.reverse.map Prod.snd) =
        (s', true) ∧ s'.fs = demoFs ∧ s'.stack = []) :=
  lifo_restore_discipline demoS2 demoFs
    (unwindsTo_enable demoS1 demoFs 2 ((findInst demoS1 2).getD noInst)
      rfl rfl
      (stackOk_enable demoS0 1 demoA rfl rfl (stackOk_mkSys demoFs [demoA, demoB]))
      (unwindsTo_enable demoS0 demoFs 1 demoA rfl rfl
        (stackOk_mkSys demoFs [demoA, demoB])
        (unwindsTo_mkSys demoFs [demoA, demoB])))
    (stackOk_enable demoS1 2 ((findInst demoS1 2).getD noInst) rfl rfl
      (stackOk_enable demoS0 1 demoA rfl rfl
        (stackOk_mkSys demoFs [demoA, demoB])))

/-- C6 (counterexample): with instance A enabled and then instance B
enabled on top of it, calling `A.enable()` again does not raise the
already-enabled error: the forced restore of A is out of LIFO order, so
the engine drains the whole stack and raises the lock-ordering error
instead. -/
theorem enable_twice_counterexample :
    (enableInst demoS2 1 none none).2 = .error (.lockOrder 1 2) ∧
    (enableInst demoS2 1 none none).2 ≠ .error .alreadyEnabled := by
  constructor
  · rfl
  · intro h
    rw [show (enableInst demoS2 1 none none).2 =
      .error (.lockOrder 1 2) from rfl] at h
    cases h

/-- C6 (amended): re-enabling an enabled instance first force-restores
it.  When the instance is the most recently enabled one, the restore
succeeds, the filesystem and stack return to their pre-first-enable
state, and the `already enabled` error is raised.  When other instances
were enabled above it, the forced restore drains the entire stack to the
quiescent filesystem and the lock-ordering error is raised instead. -/
theorem enable_twice_restores_first (sPrev : Sys) (instId : Nat) (i : Inst)
    (lf : Option Nat) (rf rf2 : Option (Nat × List (String × String)))
    (hfind : findInst sPrev instId = some i) (hdis : i.isDisabled = true) :
    (∃ s', enableInst (enableInst sPrev instId none none).1 instId lf rf =
      (s', .error .alreadyEnabled) ∧ s'.fs = sPrev.fs ∧
      s'.stack = sPrev.stack) ∧
    (∀ (s : Sys) (fs₀ : Fs) (e : Nat × Nat), UnwindsTo s fs₀ → StackOk s →
      e ∈ s.stack.dropLast →
      ∃ s' tp, s.stack.getLast? = some tp ∧
        enableInst s e.2 lf rf2 = (s', .error (.lockOrder e.1 tp.1)) ∧
        s'.fs = fs₀ ∧ s'.stack = []) := by
  constructor
  · set cap := enableCapture sPrev.fs sPrev.nextId i with hcap
    set icap : Inst := { cap with isDisabled := false } with hicap
    have hf1 : findInst (enableInst sPrev instId none none).1 instId =
        some icap := findInst_after_enable sPrev instId i hfind hdis
    have hsh := enable_ok_shape sPrev instId i hfind hdis
    have htop : (enableInst sPrev instId none none).1.stack.getLast? =
        some (cap.enId, instId) := by
      rw [hsh]
      exact List.getLast?_concat _
    have hrt := restore_top_shape (enableInst sPrev instId none none).1
      instId icap (cap.enId, instId) hf1 rfl htop rfl
    refine ⟨popStack (applyDoRestore (enableInst sPrev instId none none).1 icap),
      enable_already_shape _ instId icap lf rf _ hf1 rfl hrt, ?_, ?_⟩
    · show writeAll (deleteAll (enableInst sPrev instId none none).1.fs
        (fgExisting (enableInst sPrev instId none none).1.fs icap.cleanupGlobs))
        icap.backup = sPrev.fs
      rw [hsh]
      exact enableCapture_roundtrip sPrev.fs sPrev.nextId i i.toUpdate
        (fun p hp => hp)
    · show (enableInst sPrev instId none none).1.stack.dropLast = sPrev.stack
      rw [hsh]
      exact List.dropLast_concat ..
  · intro s fs₀ e hu hok he
    rcases hok.2.2.2 e ((List.dropLast_sublist s.stack).mem he) with
      ⟨ie, hfe, hene, _⟩
    rcases restore_out_of_order hu hok e he with ⟨s', tp, htop, hre, hfs, hst, _⟩
    exact ⟨s', tp, htop,
      enable_already_err_shape s e.2 ie lf rf2 s' _ hfe hene hre, hfs, hst⟩

theorem enable_twice_restores_first_witness :
    (∃ s', enableInst (enableInst demoS0 1 none none).1 1 none none =
      (s', .error .alreadyEnabled) ∧ s'.fs = demoS0.fs ∧
      s'.stack = demoS0.stack) ∧
    (∀ (s : Sys) (fs₀ : Fs) (e : Nat × Nat), UnwindsTo s fs₀ → StackOk s →
      e ∈ s.stack.dropLast →
      ∃ s' tp, s.stack.getLast? = some tp ∧
        enableInst s e.2 none none = (s', .error (.lockOrder e.1 tp.1)) ∧
        s'.fs = fs₀ ∧ s'.stack = []) :=
  enable_twice_restores_first demoS0 1 demoA none none none rfl rfl

/-- C10: `config(c)` is a shallow, per-field replacement of the global
defaults: every field present in `c` wholly replaces the default (keep
and cleanup lists are not concatenated, the default filesystem spec is
not recursively merged), and every absent field is left unchanged. -/
theorem config_shallow_replace (d : Config) (c : ConfigOpt) :
    (config d c).filesystem = c.filesystem.getD d.filesystem ∧
    (config d c).keep = c.keep.getD d.keep ∧
    (config d c).cleanup = c.cleanup.getD d.cleanup ∧
    (config d c).rootdir = c.rootdir.getD d.rootdir ∧
    (config d c).basedir = c.basedir.getD d.basedir :=
  ⟨rfl, rfl, rfl, rfl, rfl⟩

/-! ## Path algebra

Facts about splitting, joining and resolving needed to analyse
re-flattening a flat spec.  A clean segment is what Node's normalization
leaves in a path: nonempty, slash-free, and neither `.` nor `..`. -/

def cleanSeg (s : List Char) : Prop :=
  s ≠ [] ∧ '/' ∉ s ∧ s ≠ ['.'] ∧ s ≠ ['.', '.']

theorem splitSlashCore_ne_nil (l : List Char) : splitSlashCore l ≠ [] := by
  induction l with
  | nil => simp [splitSlashCore]
  | cons c rest ih =>
    by_cases hc : c = '/'
    · simp [splitSlashCore, hc]
    · simp only [splitSlashCore, if_neg hc]
      cases hsp : splitSlashCore rest with
      | nil => simp
      | cons h t => simp

theorem splitSlashCore_cons_ne (c : Char) (rest : List Char) (hc : ¬ c = '/') :
    splitSlashCore (c :: rest) =
      (c :: (splitSlashCore rest).headI) :: (splitSlashCore rest).tail := by
  simp only [splitSlashCore, if_neg hc]
  cases hsp : splitSlashCore rest with
  | nil => exact absurd hsp (splitSlashCore_ne_nil rest)
  | cons h t => rfl

theorem splitSlashCore_append_slash (x y : List Char) :
    splitSlashCore (x ++ '/' :: y) = splitSlashCore x ++ splitSlashCore y := by
  induction x with
  | nil => simp [splitSlashCore]
  | cons c rest ih =>
    by_cases hc : c = '/'
    · simp [splitSlashCore, hc, ih]
    · rw [show (c :: rest) ++ '/' :: y = c :: (rest ++ '/' :: y) from rfl,
        splitSlashCore_cons_ne c _ hc, splitSlashCore_cons_ne c rest hc, ih]
      cases hsp : splitSlashCore rest with
      | nil => exact absurd hsp (splitSlashCore_ne_nil rest)
      | cons h t => simp

theorem splitSlashCore_slashfree (l : List Char) (h : '/' ∉ l) :
    splitSlashCore l = [l] := by
  induction l with
  | nil => rfl
  | cons c rest ih =>
    simp only [List.mem_cons] at h
    push_neg at h
    simp only [splitSlashCore, if_neg (Ne.symm h.1), ih h.2]

theorem splitSlashCore_mem_slashfree (l : List Char) (s : List Char)
    (hs : s ∈ splitSlashCore l) : '/' ∉ s := by
  induction l generalizing s with
  | nil =>
    simp only [splitSlashCore, List.mem_singleton] at hs
    simp [hs]
  | cons c rest ih =>
    by_cases hc : c = '/'
    · simp only [splitSlashCore, if_pos hc, List.mem_cons] at hs
      rcases hs with hs | hs
      · simp [hs]
      · exact ih s hs
    · simp only [splitSlashCore, if_neg hc] at hs
      cases hsp : splitSlashCore rest with
      | nil => exact absurd hsp (splitSlashCore_ne_nil rest)
      | cons h t =>
        rw [hsp] at hs
        rcases List.mem_cons.mp hs with hs | hs
        · intro hm
          rw [hs] at hm
          rcases List.mem_cons.mp hm with hm | hm
          · exact hc hm.symm
          · exact ih h (by rw [hsp]; exact List.mem_cons_self _ _) hm
        · exact ih s (by rw [hsp]; exact List.mem_cons_of_mem _ hs)

theorem joinSlashCore_splitSlashCore (l : List Char) :
    joinSlashCore (splitSlashCore l) = l := by
  induction l with
  | nil => rfl
  | cons c rest ih =>
    by_cases hc : c = '/'
    · simp only [splitSlashCore, if_pos hc]
      cases hsp : splitSlashCore rest with
      | nil => exact absurd hsp (splitSlashCore_ne_nil rest)
      | cons h t =>
        rw [hsp] at ih
        show [] ++ '/' :: joinSlashCore (h :: t) = c :: rest
        rw [ih, hc]
        rfl
    · simp only [splitSlashCore, if_neg hc]
      cases hsp : splitSlashCore rest with
      | nil => exact absurd hsp (splitSlashCore_ne_nil rest)
      | cons h t =>
        rw [hsp] at ih
        cases t with
        | nil =>
          show c :: h = c :: rest
          rw [show joinSlashCore [h] = h from rfl] at ih
          rw [ih]
        | cons h2 t2 =>
          show (c :: h) ++ '/' :: joinSlashCore (h2 :: t2) = c :: rest
          rw [← ih]
          rfl

theorem splitSlashCore_joinSlashCore (segs : List (List Char))
    (hne : segs ≠ []) (hsf : ∀ s ∈ segs, '/' ∉ s) :
    splitSlashCore (joinSlashCore segs) = segs := by
  induction segs with
  | nil => exact absurd rfl hne
  | cons s t ih =>
    cases t with
    | nil => exact splitSlashCore_slashfree s (hsf s (List.mem_singleton_self _))
    | cons s2 t2 =>
      show splitSlashCore (s ++ '/' :: joinSlashCore (s2 :: t2)) = s :: s2 :: t2
      rw [splitSlashCore_append_slash,
        splitSlashCore_slashfree s (hsf s (List.mem_cons_self _ _)),
        ih (by simp) (fun u hu => hsf u (List.mem_cons_of_mem _ hu))]
      rfl

theorem joinSlashCore_append (a b : List (List Char)) (ha : a ≠ []) (hb : b ≠ []) :
    joinSlashCore (a ++ b) = joinSlashCore a ++ '/' :: joinSlashCore b := by
  induction a with
  | nil => exact absurd rfl ha
  | cons s t ih =>
    cases t with
    | nil =>
      cases b with
      | nil => exact absurd rfl hb
      | cons b1 b2 => rfl
    | cons s2 t2 =>
      show s ++ '/' :: joinSlashCore ((s2 :: t2) ++ b) =
        (s ++ '/' :: joinSlashCore (s2 :: t2)) ++ '/' :: joinSlashCore b
      rw [ih (by simp)]
      simp

theorem resolveStep_clean_or_empty (l : List (List Char)) (acc : List (List Char))
    (h : ∀ s ∈ l, s = [] ∨ cleanSeg s) :
    l.foldl resolveStep acc = acc ++ l.filter (fun s => !s.isEmpty) := by
  induction l generalizing acc with
  | nil => simp
  | cons s t ih =>
    rcases h s (List.mem_cons_self _ _) with hs | hs
    · subst hs
      show t.foldl resolveStep (resolveStep acc []) = _
      rw [show resolveStep acc [] = acc by simp [resolveStep]]
      rw [ih acc (fun u hu => h u (List.mem_cons_of_mem _ hu))]
      simp [List.filter]
    · have h1 : ¬ (s = [] ∨ s = ['.']) := by
        rintro (hh | hh)
        · exact hs.1 hh
        · exact hs.2.2.1 hh
      have h2 : ¬ (s = ['.', '.']) := hs.2.2.2
      show t.foldl resolveStep (resolveStep acc s) = _
      rw [show resolveStep acc s = acc ++ [s] by simp [resolveStep, h1, h2]]
      rw [ih _ (fun u hu => h u (List.mem_cons_of_mem _ hu))]
      have hne : s.isEmpty = false := by
        cases s with
        | nil => exact absurd rfl hs.1
        | cons a b => rfl
      simp [List.filter, hne]

theorem resolveSegsCore_image_clean (segs : List (List Char))
    (hsf : ∀ s ∈ segs, '/' ∉ s) :
    ∀ s ∈ resolveSegsCore segs, cleanSeg s := by
  have main : ∀ (l : List (List Char)) (acc : List (List Char)),
      (∀ s ∈ l, '/' ∉ s) → (∀ s ∈ acc, cleanSeg s) →
      ∀ s ∈ l.foldl resolveStep acc, cleanSeg s := by
    intro l
    induction l with
    | nil => intro acc _ hacc s hs; exact hacc s hs
    | cons u t ih =>
      intro acc hl hacc s hs
      refine ih (resolveStep acc u)
        (fun v hv => hl v (List.mem_cons_of_mem _ hv)) ?_ s hs
      intro v hv
      by_cases h1 : u = [] ∨ u = ['.']
      · rw [show resolveStep acc u = acc by simp [resolveStep, h1]] at hv
        exact hacc v hv
      · by_cases h2 : u = ['.', '.']
        · rw [show resolveStep acc u = acc.dropLast by
            simp [resolveStep, h1, h2]] at hv
          exact hacc v ((List.dropLast_sublist acc).mem hv)
        · rw [show resolveStep acc u = acc ++ [u] by
            simp [resolveStep, h1, h2]] at hv
          rcases List.mem_append.mp hv with hv | hv
          · exact hacc v hv
          · rw [List.mem_singleton.mp hv]
            push_neg at h1
            exact ⟨h1.1, hl u (List.mem_cons_self _ _), h1.2, h2⟩
  exact main segs [] hsf (by simp)

/-- Every output of `pathResolveRoot` is a slash followed by a join of
clean segments. -/
theorem pathResolveRoot_shape (x : String) :
    ∃ segs, (∀ s ∈ segs, cleanSeg s) ∧
      pathResolveRoot x = ⟨'/' :: joinSlashCore segs⟩ :=
  ⟨resolveSegsCore (splitSlashCore x.data),
    resolveSegsCore_image_clean _ (splitSlashCore_mem_slashfree x.data), rfl⟩

/-- `pathResolveRoot` fixes normalized absolute paths. -/
theorem pathResolveRoot_fix (segs : List (List Char))
    (hc : ∀ s ∈ segs, cleanSeg s) :
    pathResolveRoot ⟨'/' :: joinSlashCore segs⟩ = ⟨'/' :: joinSlashCore segs⟩ := by
  rw [pathResolveRoot]
  congr 1
  show '/' :: joinSlashCore (resolveSegsCore
    (splitSlashCore ('/' :: joinSlashCore segs))) = _
  have h1 : splitSlashCore ('/' :: joinSlashCore segs) =
      [] :: splitSlashCore (joinSlashCore segs) := by
    simp [splitSlashCore]
  rw [h1]
  cases hs : segs with
  | nil =>
    show '/' :: joinSlashCore (resolveSegsCore [[], []]) = _
    rfl
  | cons s t =>
    rw [← hs]
    have h2 : splitSlashCore (joinSlashCore segs) = segs :=
      splitSlashCore_joinSlashCore segs (by rw [hs]; simp)
        (fun u hu => (hc u hu).2.1)
    rw [h2]
    show '/' :: joinSlashCore (([] :: segs).foldl resolveStep []) = _
    rw [resolveStep_clean_or_empty _ _ (by
      intro u hu
      rcases List.mem_cons.mp hu with hu | hu
      · exact Or.inl hu
      · exact Or.inr (hc u hu))]
    have h3 : ([] :: segs).filter (fun s => !s.isEmpty) = segs := by
      rw [show ([] :: segs).filter (fun s => !s.isEmpty) =
        segs.filter (fun s => !s.isEmpty) by simp [List.filter]]
      refine List.filter_eq_self.mpr ?_
      intro u hu
      cases hcu : u with
      | nil => exact absurd hcu (hc u hu).1
      | cons a b => rfl
    rw [h3]
    rfl

/-- `pathResolveRoot` turns a normalized relative path into the
corresponding absolute one. -/
theorem pathResolveRoot_rel (segs : List (List Char)) (hne : segs ≠ [])
    (hc : ∀ s ∈ segs, cleanSeg s) :
    pathResolveRoot ⟨joinSlashCore segs⟩ = ⟨'/' :: joinSlashCore segs⟩ := by
  rw [pathResolveRoot]
  congr 1
  show '/' :: joinSlashCore (resolveSegsCore
    (splitSlashCore (joinSlashCore segs))) = _
  rw [splitSlashCore_joinSlashCore segs hne (fun u hu => (hc u hu).2.1)]
  show '/' :: joinSlashCore (segs.foldl resolveStep []) = _
  rw [resolveStep_clean_or_empty _ _ (fun u hu => Or.inr (hc u hu))]
  have h3 : segs.filter (fun s => !s.isEmpty) = segs := by
    refine List.filter_eq_self.mpr ?_
    intro u hu
    cases hcu : u with
    | nil => exact absurd hcu (hc u hu).1
    | cons a b => rfl
  rw [h3]
  rfl

theorem pathIsAbsolute_join_clean (segs : List (List Char)) (hne : segs ≠ [])
    (hc : ∀ s ∈ segs, cleanSeg s) :
    pathIsAbsolute ⟨joinSlashCore segs⟩ = false := by
  cases segs with
  | nil => exact absurd rfl hne
  | cons s t =>
    have hs := hc s (List.mem_cons_self _ _)
    cases hcs : s with
    | nil => exact absurd hcs hs.1
    | cons a b =>
      have ha : a ≠ '/' := by
        intro hh
        exact hs.2.1 (by rw [hcs, hh]; exact List.mem_cons_self _ _)
      cases t with
      | nil =>
        show pathIsAbsolute ⟨a :: b⟩ = false
        simp [pathIsAbsolute, ha]
      | cons s2 t2 =>
        show pathIsAbsolute ⟨(a :: b) ++ '/' :: joinSlashCore (s2 :: t2)⟩ = false
        simp [pathIsAbsolute, ha]

/-- Resolving a normalized relative path against a normalized absolute
parent concatenates the segment lists. -/
theorem pathResolveAbs_clean (psegs ksegs : List (List Char))
    (hp : ∀ s ∈ psegs, cleanSeg s) (hk : ∀ s ∈ ksegs, cleanSeg s)
    (hkne : ksegs ≠ []) :
    pathResolveAbs ⟨'/' :: joinSlashCore psegs⟩ ⟨joinSlashCore ksegs⟩ =
      ⟨'/' :: joinSlashCore (psegs ++ ksegs)⟩ := by
  rw [pathResolveAbs, pathIsAbsolute_join_clean ksegs hkne hk]
  simp only [Bool.false_eq_true, if_false]
  have hdata : (String.mk ('/' :: joinSlashCore psegs) ++ "/" ++
      String.mk (joinSlashCore ksegs)).data =
      ('/' :: joinSlashCore psegs) ++ '/' :: joinSlashCore ksegs := by
    show (('/' :: joinSlashCore psegs) ++ "/".data) ++ joinSlashCore ksegs = _
    simp
  rw [pathResolveRoot]
  rw [show (String.mk ('/' :: joinSlashCore psegs) ++ "/" ++
      String.mk (joinSlashCore ksegs)).data =
      ('/' :: joinSlashCore psegs) ++ '/' :: joinSlashCore ksegs from hdata]
  congr 1
  have h1 : splitSlashCore (('/' :: joinSlashCore psegs) ++ '/' ::
      joinSlashCore ksegs) =
      ([] :: splitSlashCore (joinSlashCore psegs)) ++
        splitSlashCore (joinSlashCore ksegs) := by
    rw [show ('/' :: joinSlashCore psegs) ++ '/' :: joinSlashCore ksegs =
      '/' :: (joinSlashCore psegs ++ '/' :: joinSlashCore ksegs) from rfl]
    rw [show splitSlashCore ('/' :: (joinSlashCore psegs ++ '/' ::
      joinSlashCore ksegs)) = [] :: splitSlashCore (joinSlashCore psegs ++
      '/' :: joinSlashCore ksegs) by simp [splitSlashCore]]
    rw [splitSlashCore_append_slash]
    rfl
  rw [h1, splitSlashCore_joinSlashCore ksegs hkne (fun u hu => (hk u hu).2.1)]
  cases hps : psegs with
  | nil =>
    show '/' :: joinSlashCore (resolveSegsCore (([] :: [[]]) ++ ksegs)) = _
    show '/' :: joinSlashCore ((([] :: [[]]) ++ ksegs).foldl resolveStep []) = _
    rw [resolveStep_clean_or_empty _ _ (by
      intro u hu
      rcases List.mem_append.mp hu with hu | hu
      · have hu' : u = [] := by simpa using hu
        exact Or.inl hu'
      · exact Or.inr (hk u hu))]
    have : (([] :: [[]]) ++ ksegs).filter (fun s => !s.isEmpty) = ksegs := by
      rw [show (([] : List Char) :: [[]]) ++ ksegs = [] :: [] :: ksegs from rfl]
      rw [show ([] :: [] :: ksegs).filter (fun s => !s.isEmpty) =
        ksegs.filter (fun s => !s.isEmpty) by simp [List.filter]]
      refine List.filter_eq_self.mpr ?_
      intro u hu
      cases hcu : u with
      | nil => exact absurd hcu (hk u hu).1
      | cons a b => rfl
    rw [this]
  | cons p pt =>
    rw [← hps]
    rw [splitSlashCore_joinSlashCore psegs (by rw [hps]; simp)
      (fun u hu => (hp u hu).2.1)]
    show '/' :: joinSlashCore ((([] :: psegs) ++ ksegs).foldl resolveStep []) = _
    rw [resolveStep_clean_or_empty _ _ (by
      intro u hu
      rcases List.mem_append.mp hu with hu | hu
      · rcases List.mem_cons.mp hu with hu | hu
        · exact Or.inl hu
        · exact Or.inr (hp u hu)
      · exact Or.inr (hk u hu))]
    have : (([] :: psegs) ++ ksegs).filter (fun s => !s.isEmpty) =
        psegs ++ ksegs := by
      rw [show (([] : List Char) :: psegs) ++ ksegs = [] :: (psegs ++ ksegs)
        from rfl]
      rw [show ([] :: (psegs ++ ksegs)).filter (fun s => !s.isEmpty) =
        (psegs ++ ksegs).filter (fun s => !s.isEmpty) by simp [List.filter]]
      refine List.filter_eq_self.mpr ?_
      intro u hu
      have hcu : cleanSeg u := by
        rcases List.mem_append.mp hu with hu | hu
        · exact hp u hu
        · exact hk u hu
      cases hcu2 : u with
      | nil => exact absurd hcu2 hcu.1
      | cons a b => rfl
    rw [this]
    rfl

/-! ## The path order

`strLe` (the model of `localeCompare(..) <= 0` used by `flatList`'s sort)
is a total order on strings: total, transitive and antisymmetric. -/

theorem charListLe_total (a : List Char) :
    ∀ b, charListLe a b = true ∨ charListLe b a = true := by
  induction a with
  | nil => intro b; exact Or.inl rfl
  | cons x xs ih =>
    intro b
    cases b with
    | nil => exact Or.inr rfl
    | cons y ys =>
      by_cases hxy : x = y
      · subst hxy
        rcases ih ys with h | h
        · exact Or.inl (by simpa [charListLe] using h)
        · exact Or.inr (by simpa [charListLe] using h)
      · rcases lt_or_gt_of_ne hxy with h | h
        · exact Or.inl (by simp [charListLe, hxy, h])
        · exact Or.inr (by simp [charListLe, Ne.symm hxy, h])

theorem charListLe_trans : ∀ {a b c : List Char}, charListLe a b = true →
    charListLe b c = true → charListLe a c = true := by
  intro a
  induction a with
  | nil => intro b c _ _; rfl
  | cons x xs ih =>
    intro b c hab hbc
    cases b with
    | nil => simp [charListLe] at hab
    | cons y ys =>
      cases c with
      | nil => simp [charListLe] at hbc
      | cons z zs =>
        by_cases hxy : x = y
        · subst hxy
          by_cases hxz : x = z
          · subst hxz
            simp only [charListLe, if_pos rfl] at hab hbc ⊢
            exact ih hab hbc
          · simp only [charListLe, if_pos rfl] at hab
            simp only [charListLe, if_neg hxz] at hbc ⊢
            exact hbc
        · by_cases hyz : y = z
          · subst hyz
            simp only [charListLe, if_neg hxy] at hab ⊢
            exact hab
          · simp only [charListLe, if_neg hxy] at hab
            simp only [charListLe, if_neg hyz] at hbc
            have h1 : x < y := of_decide_eq_true hab
            have h2 : y < z := of_decide_eq_true hbc
            have hxz : x ≠ z := ne_of_lt (lt_trans h1 h2)
            simp [charListLe, hxz, lt_trans h1 h2]

theorem charListLe_antisymm : ∀ {a b : List Char}, charListLe a b = true →
    charListLe b a = true → a = b := by
  intro a
  induction a with
  | nil =>
    intro b _ hba
    cases b with
    | nil => rfl
    | cons y ys => simp [charListLe] at hba
  | cons x xs ih =>
    intro b hab hba
    cases b with
    | nil => simp [charListLe] at hab
    | cons y ys =>
      by_cases hxy : x = y
      · subst hxy
        simp only [charListLe, if_pos rfl] at hab hba
        rw [ih hab hba]
      · simp only [charListLe, if_neg hxy] at hab
        simp only [charListLe, if_neg (Ne.symm hxy)] at hba
        exact absurd (of_decide_eq_true hba) (lt_asymm (of_decide_eq_true hab))

theorem strLe_total (a b : String) : strLe a b = true ∨ strLe b a = true :=
  charListLe_total a.data b.data

theorem strLe_trans {a b c : String} (h1 : strLe a b = true)
    (h2 : strLe b c = true) : strLe a c = true :=
  charListLe_trans h1 h2

theorem strLe_antisymm {a b : String} (h1 : strLe a b = true)
    (h2 : strLe b a = true) : a = b := by
  cases a with
  | mk la =>
    cases b with
    | mk lb => exact congrArg String.mk (charListLe_antisymm h1 h2)

/-- Two sorted lists that are permutations of each other are equal, with
antisymmetry only required on the members involved. -/
theorem pairwise_perm_eq {α : Type} {R : α → α → Prop} :
    ∀ {l₁ l₂ : List α}, l₁.Perm l₂ → l₁.Pairwise R → l₂.Pairwise R →
      (∀ a b, a ∈ l₁ → b ∈ l₂ → R a b → R b a → a = b) → l₁ = l₂ := by
  intro l₁
  induction l₁ with
  | nil =>
    intro l₂ hp _ _ _
    exact hp.nil_eq
  | cons a t ih =>
    intro l₂ hp hs₁ hs₂ hanti
    cases l₂ with
    | nil => simp at hp
    | cons b u =>
      have hab : a = b := by
        have ha2 : a ∈ b :: u := hp.mem_iff.mp (List.mem_cons_self a t)
        rcases List.mem_cons.mp ha2 with h | h
        · exact h
        · have hba : R b a := (List.pairwise_cons.mp hs₂).1 a h
          have hb1 : b ∈ a :: t := hp.symm.mem_iff.mp (List.mem_cons_self b u)
          rcases List.mem_cons.mp hb1 with h' | h'
          · exact h'.symm
          · have hab' : R a b := (List.pairwise_cons.mp hs₁).1 b h'
            exact hanti a b (List.mem_cons_self a t) (List.mem_cons_self b u)
              hab' hba
      subst hab
      rw [ih hp.cons_inv (List.pairwise_cons.mp hs₁).2
        (List.pairwise_cons.mp hs₂).2
        (fun x y hx hy => hanti x y (List.mem_cons_of_mem _ hx)
          (List.mem_cons_of_mem _ hy))]

/-! ## More object-model facts -/

theorem objGet_eq_none {α : Type} (d : List (String × α)) (k : String)
    (h : k ∉ d.map Prod.fst) : objGet d k = none := by
  induction d with
  | nil => rfl
  | cons e t ih =>
    simp only [List.map_cons, List.mem_cons] at h
    push_neg at h
    obtain ⟨k', v⟩ := e
    simp only [objGet, if_neg (Ne.symm h.1)]
    exact ih h.2

theorem mem_keys_of_objGet {α : Type} (d : List (String × α)) (k : String)
    (v : α) (h : objGet d k = some v) : k ∈ d.map Prod.fst := by
  by_contra hm
  rw [objGet_eq_none d k hm] at h
  exact absurd h (by simp)

theorem objGet_of_mem_nodup {α : Type} (d : List (String × α)) (k : String)
    (v : α) (hn : (d.map Prod.fst).Nodup) (h : (k, v) ∈ d) :
    objGet d k = some v := by
  induction d with
  | nil => simp at h
  | cons e t ih =>
    obtain ⟨k', v'⟩ := e
    rcases List.mem_cons.mp h with h | h
    · injection h with h1 h2
      subst h1
      subst h2
      simp [objGet]
    · have hk : k' ≠ k := by
        intro hh
        subst hh
        exact (List.pairwise_cons.mp hn).1 k' (List.mem_map_of_mem Prod.fst h) rfl
      simp only [objGet, if_neg hk]
      exact ih (List.pairwise_cons.mp hn).2 h

theorem mem_of_objGet {α : Type} (d : List (String × α)) (k : String) (v : α)
    (h : objGet d k = some v) : (k, v) ∈ d := by
  induction d with
  | nil => simp [objGet] at h
  | cons e t ih =>
    obtain ⟨k', v'⟩ := e
    by_cases hk : k' = k
    · simp only [objGet, if_pos hk] at h
      rw [hk, Option.some.inj h]
      exact List.mem_cons_self _ _
    · simp only [objGet, if_neg hk] at h
      exact List.mem_cons_of_mem _ (ih h)

theorem objSet_not_mem_keys {α : Type} (d : List (String × α)) (k : String)
    (v : α) (h : k ∉ d.map Prod.fst) : objSet d k v = d ++ [(k, v)] := by
  induction d with
  | nil => rfl
  | cons e t ih =>
    simp only [List.map_cons, List.mem_cons] at h
    push_neg at h
    obtain ⟨k', v'⟩ := e
    simp only [objSet, if_neg (Ne.symm h.1)]
    rw [ih h.2]
    rfl

theorem mem_objSet_elim {α : Type} (d : List (String × α)) (k : String) (v : α)
    (q : String × α) (hn : (d.map Prod.fst).Nodup) (hq : q ∈ objSet d k v) :
    q = (k, v) ∨ (q ∈ d ∧ q.1 ≠ k) := by
  induction d with
  | nil =>
    simp only [objSet, List.mem_singleton] at hq
    exact Or.inl hq
  | cons e t ih =>
    obtain ⟨k', v'⟩ := e
    by_cases hk : k' = k
    · subst hk
      simp only [objSet, if_pos rfl] at hq
      rcases List.mem_cons.mp hq with hq | hq
      · exact Or.inl hq
      · refine Or.inr ⟨List.mem_cons_of_mem _ hq, ?_⟩
        intro hh
        exact (List.pairwise_cons.mp hn).1 q.1
          (List.mem_map_of_mem Prod.fst hq) hh.symm
    · simp only [objSet, if_neg hk] at hq
      rcases List.mem_cons.mp hq with hq | hq
      · subst hq
        exact Or.inr ⟨List.mem_cons_self _ _, hk⟩
      · rcases ih (List.pairwise_cons.mp hn).2 hq with h | h
        · exact Or.inl h
        · exact Or.inr ⟨List.mem_cons_of_mem _ h.1, h.2⟩

theorem foldl_objSet_fresh {α : Type} :
    ∀ (l acc : List (String × α)), (∀ p ∈ l, p.1 ∉ acc.map Prod.fst) →
      ((l.map Prod.fst).Nodup) →
      l.foldl (fun res p => objSet res p.1 p.2) acc = acc ++ l := by
  intro l
  induction l with
  | nil => intro acc _ _; simp
  | cons e t ih =>
    intro acc hfresh hn
    show t.foldl (fun res p => objSet res p.1 p.2) (objSet acc e.1 e.2) = _
    rw [objSet_not_mem_keys acc e.1 e.2 (hfresh e (List.mem_cons_self _ _))]
    rw [ih (acc ++ [(e.1, e.2)]) ?_ (List.pairwise_cons.mp hn).2]
    · simp
    · intro p hp
      simp only [List.map_append, List.mem_append]
      push_neg
      refine ⟨hfresh p (List.mem_cons_of_mem _ hp), ?_⟩
      simp only [List.map_cons, List.map_nil, List.mem_singleton]
      intro hh
      exact (List.pairwise_cons.mp hn).1 p.1
        (List.mem_map_of_mem Prod.fst hp) hh.symm

theorem foldl_objSet_id {α : Type} (l : List (String × α))
    (hn : (l.map Prod.fst).Nodup) :
    l.foldl (fun res p => objSet res p.1 p.2) [] = l := by
  rw [foldl_objSet_fresh l [] (by simp) hn]
  rfl

theorem keys_foldl_objSet_sublist {α : Type} :
    ∀ (l acc : List (String × α)),
      ((l.foldl (fun res p => objSet res p.1 p.2) acc).map Prod.fst).Sublist
        (acc.map Prod.fst ++ l.map Prod.fst) := by
  intro l
  induction l with
  | nil => intro acc; simp
  | cons e t ih =>
    intro acc
    show ((t.foldl (fun res p => objSet res p.1 p.2)
      (objSet acc e.1 e.2)).map Prod.fst).Sublist _
    refine (ih (objSet acc e.1 e.2)).trans ?_
    rw [keys_objSet]
    by_cases hm : e.1 ∈ acc.map Prod.fst
    · rw [if_pos hm]
      simp only [List.map_cons]
      exact List.Sublist.append_left (List.sublist_cons_self _ _) _
    · rw [if_neg hm]
      simp only [List.map_cons, List.append_assoc, List.singleton_append]
      exact List.Sublist.refl _

theorem eq_of_mem_nodup_keys {α : Type} :
    ∀ (d : List (String × α)) (k : String) (v v' : α),
      (d.map Prod.fst).Nodup → (k, v) ∈ d → (k, v') ∈ d → v = v' := by
  intro d
  induction d with
  | nil => intro k v v' _ h; simp at h
  | cons e t ih =>
    intro k v v' hn h1 h2
    have hkey : ∀ (w : α), (k, w) ∈ t → k ∉ [e.1] := by
      intro w hw hke
      simp only [List.mem_singleton] at hke
      exact (List.pairwise_cons.mp hn).1 k
        (List.mem_map_of_mem Prod.fst hw) hke.symm
    rcases List.mem_cons.mp h1 with h1 | h1
    · rcases List.mem_cons.mp h2 with h2 | h2
      · rw [← h1] at h2
        exact ((Prod.mk.injEq _ _ _ _).mp h2.symm).2
      · exact absurd (by simp [← h1]) (hkey v' h2)
    · rcases List.mem_cons.mp h2 with h2 | h2
      · exact absurd (by simp [← h2]) (hkey v h1)
      · exact ih k v v' (List.pairwise_cons.mp hn).2 h1 h2

/-! ## Flat specs as segment paths, and normal-form trees

A flat spec (the shape `flatten` outputs) is modelled by a ghost list of
(segment-path, file) pairs.  A normal-form tree is what `normalize`
produces on such a spec: every key a single clean segment, keys pairwise
distinct, values files or normal-form subtrees. -/

abbrev SegPath := List (List Char)

def relKey (segs : SegPath) : String := ⟨joinSlashCore segs⟩

def toRelPair (p : SegPath × File) : String × Entry :=
  (relKey p.1, Entry.file p.2)

def toAbsPair (p : SegPath × File) : String × Entry :=
  (⟨'/' :: joinSlashCore p.1⟩, Entry.file p.2)

def goodPath (segs : SegPath) : Prop :=
  segs ≠ [] ∧ ∀ s ∈ segs, cleanSeg s

def goodList (L : List (SegPath × File)) : Prop :=
  (∀ p ∈ L, goodPath p.1) ∧
    L.Pairwise (fun a b => ¬ a.1 <+: b.1 ∧ ¬ b.1 <+: a.1)

def headFilter (h : List Char) (L : List (SegPath × File)) :
    List (SegPath × File) :=
  L.filter (fun p => decide (p.1.headI = h))

mutual

def Entry.nfE : Entry → Prop
  | .file _ => True
  | .dir d => Entry.nfD d

def Entry.nfD : Directory → Prop
  | [] => True
  | (k, v) :: t =>
    cleanSeg k.data ∧ k ∉ t.map Prod.fst ∧ Entry.nfE v ∧ Entry.nfD t

end

mutual

def Entry.leavesE (k : String) : Entry → List (SegPath × File)
  | .file f => [([k.data], f)]
  | .dir d => (Entry.leavesD d).map (fun p => (k.data :: p.1, p.2))

def Entry.leavesD : Directory → List (SegPath × File)
  | [] => []
  | (k, v) :: t => Entry.leavesE k v ++ Entry.leavesD t

end

mutual

def Entry.heightE : Entry → Nat
  | .file _ => 0
  | .dir d => Entry.heightD d + 1

def Entry.heightD : Directory → Nat
  | [] => 0
  | (_, v) :: t => max (Entry.heightE v) (Entry.heightD t)

end

mutual

theorem Entry.heightE_le_esize (v : Entry) :
    Entry.heightE v ≤ Entry.esize v + 1 :=
  match v with
  | .file _ => Nat.zero_le _
  | .dir d => Nat.succ_le_succ (Entry.heightD_le_dsize d)

theorem Entry.heightD_le_dsize (d : Directory) :
    Entry.heightD d ≤ Entry.dsize d :=
  match d with
  | [] => Nat.le_refl 0
  | (k, v) :: t => by
    show max (Entry.heightE v) (Entry.heightD t) ≤
      k.length + 1 + Entry.esize v + Entry.dsize t
    refine max_le ?_ ?_
    · have h1 := Entry.heightE_le_esize v
      omega
    · have h1 := Entry.heightD_le_dsize t
      omega

end

theorem joinSlashCore_good_ne_nil (segs : SegPath) (h : goodPath segs) :
    joinSlashCore segs ≠ [] := by
  rcases segs with _ | ⟨x, _ | ⟨y, t⟩⟩
  · exact absurd rfl h.1
  · exact (h.2 x (List.mem_singleton_self _)).1
  · show x ++ '/' :: joinSlashCore (y :: t) ≠ []
    simp

theorem relKey_inj (p q : SegPath) (hp : goodPath p) (hq : goodPath q)
    (h : relKey p = relKey q) : p = q := by
  have hdata : joinSlashCore p = joinSlashCore q := congrArg String.data h
  calc p = splitSlashCore (joinSlashCore p) :=
        (splitSlashCore_joinSlashCore p hp.1 (fun u hu => (hp.2 u hu).2.1)).symm
    _ = splitSlashCore (joinSlashCore q) := by rw [hdata]
    _ = q := splitSlashCore_joinSlashCore q hq.1 (fun u hu => (hq.2 u hu).2.1)

theorem length_le_joinSlashCore (segs : SegPath) (h : goodPath segs) :
    segs.length ≤ (joinSlashCore segs).length := by
  rcases segs with _ | ⟨x, t⟩
  · exact absurd rfl h.1
  · induction t generalizing x with
    | nil =>
      have : x ≠ [] := (h.2 x (List.mem_singleton_self _)).1
      show 1 ≤ x.length
      exact List.length_pos.mpr this
    | cons y t2 ih =>
      have hx : x ≠ [] := (h.2 x (List.mem_cons_self _ _)).1
      have ht : goodPath (y :: t2) :=
        ⟨by simp, fun u hu => h.2 u (List.mem_cons_of_mem _ hu)⟩
      have ihy := ih y ht
      show (y :: t2).length + 1 ≤ (x ++ '/' :: joinSlashCore (y :: t2)).length
      rw [List.length_append]
      have hx1 : 1 ≤ x.length := List.length_pos.mpr hx
      have hb : (y :: t2).length = t2.length + 1 := rfl
      simp only [List.length_cons]
      omega

theorem dsize_mem_le (F : Directory) (k : String) (v : Entry)
    (h : (k, v) ∈ F) : k.length + 1 ≤ Entry.dsize F := by
  induction F with
  | nil => simp at h
  | cons e t ih =>
    obtain ⟨k', v'⟩ := e
    show k.length + 1 ≤ k'.length + 1 + Entry.esize v' + Entry.dsize t
    rcases List.mem_cons.mp h with h | h
    · injection h with h1 h2
      subst h1
      omega
    · have := ih h
      omega

theorem mapM_ok_of_forall {α β γ : Type} (f : α → Except γ β) (g : α → β) :
    ∀ (l : List α), (∀ a ∈ l, f a = .ok (g a)) → l.mapM f = .ok (l.map g) := by
  intro l
  induction l with
  | nil => intro _; rfl
  | cons a t ih =>
    intro h
    rw [List.mapM_cons, h a (List.mem_cons_self _ _),
      ih (fun b hb => h b (List.mem_cons_of_mem _ hb))]
    rfl

theorem normEntryAbs_rel (parent : String) (segs : SegPath) (f : File)
    (h : goodPath segs) :
    normEntryAbs parent (relKey segs, Entry.file f) =
      .ok (relKey segs, Entry.file f) := by
  have h1 : pathResolveRoot (relKey segs) = ⟨'/' :: joinSlashCore segs⟩ :=
    pathResolveRoot_rel segs h.1 h.2
  have h2 : ¬ ((⟨'/' :: joinSlashCore segs⟩ : String) = "/") := by
    intro hh
    have hd : '/' :: joinSlashCore segs = ['/'] := congrArg String.data hh
    exact joinSlashCore_good_ne_nil segs h (by simpa using hd)
  simp only [normEntryAbs, h1]
  rw [if_neg (by simp [h2])]
  show Except.ok (pathRelativeRoot ⟨'/' :: joinSlashCore segs⟩, _) = _
  rfl

theorem normEntryAbs_abs (parent : String) (segs : SegPath) (f : File)
    (h : goodPath segs) :
    normEntryAbs parent (⟨'/' :: joinSlashCore segs⟩, Entry.file f) =
      .ok (relKey segs, Entry.file f) := by
  have h1 : pathResolveRoot ⟨'/' :: joinSlashCore segs⟩ =
      ⟨'/' :: joinSlashCore segs⟩ := pathResolveRoot_fix segs h.2
  have h2 : ¬ ((⟨'/' :: joinSlashCore segs⟩ : String) = "/") := by
    intro hh
    have hd : '/' :: joinSlashCore segs = ['/'] := congrArg String.data hh
    exact joinSlashCore_good_ne_nil segs h (by simpa using hd)
  simp only [normEntryAbs, h1]
  rw [if_neg (by simp [h2])]
  show Except.ok (pathRelativeRoot ⟨'/' :: joinSlashCore segs⟩, _) = _
  rfl

theorem not_mem_keys_of_objGet_none {α : Type} (d : List (String × α))
    (k : String) (h : objGet d k = none) : k ∉ d.map Prod.fst := by
  induction d with
  | nil => simp
  | cons e t ih =>
    obtain ⟨k', v'⟩ := e
    by_cases hk : k' = k
    · simp [objGet, hk] at h
    · simp only [objGet, if_neg hk] at h
      simp only [List.map_cons, List.mem_cons]
      push_neg
      exact ⟨Ne.symm hk, ih h⟩

theorem cons_headI_tail {α : Type} [Inhabited α] (l : List α) (h : l ≠ []) :
    l.headI :: l.tail = l := by
  cases l with
  | nil => exact absurd rfl h
  | cons a t => rfl

theorem splitSlash_relKey (segs : SegPath) (h : goodPath segs) :
    splitSlash (relKey segs) = segs.map (fun l => ⟨l⟩) := by
  show (splitSlashCore (joinSlashCore segs)).map _ = _
  rw [splitSlashCore_joinSlashCore segs h.1 (fun u hu => (h.2 u hu).2.1)]

theorem pathJoin_map_mk (segs : SegPath) (h : segs ≠ []) :
    pathJoin (segs.map (fun l => ⟨l⟩)) = relKey segs := by
  rw [pathJoin, if_neg (by simpa using h)]
  show (⟨joinSlashCore ((segs.map (fun l => ⟨l⟩)).map String.data)⟩ : String) = _
  rw [List.map_map]
  show (⟨joinSlashCore (segs.map (fun l => l))⟩ : String) = _
  rw [List.map_id']
  rfl

/-- The grouping step on a fresh head: the entry is appended, nested one
level deeper when segments remain. -/
theorem normStep_flat_fresh (acc : Directory) (hd : List Char) (rest : SegPath)
    (f : File) (hgood : goodPath (hd :: rest))
    (hget : objGet acc ⟨hd⟩ = none) :
    normStep acc (toRelPair (hd :: rest, f)) =
      acc ++ [(⟨hd⟩, if rest = [] then Entry.file f
        else Entry.dir [(relKey rest, Entry.file f)])] := by
  have hsplit : splitSlash (relKey (hd :: rest)) =
      (⟨hd⟩ : String) :: rest.map (fun l => ⟨l⟩) := by
    rw [splitSlash_relKey _ hgood]
    rfl
  have hne : ¬ ((⟨hd⟩ : String) = "") := by
    intro hh
    exact (hgood.2 hd (List.mem_cons_self _ _)).1 (congrArg String.data hh)
  have hmem := not_mem_keys_of_objGet_none acc ⟨hd⟩ hget
  show normStep acc (relKey (hd :: rest), Entry.file f) = _
  cases rest with
  | nil =>
    simp [normStep, hsplit, hne, hget, objSet_not_mem_keys acc _ _ hmem]
  | cons r rt =>
    have hpj : pathJoin ((⟨r⟩ : String) :: rt.map (fun l => (⟨l⟩ : String))) =
        relKey (r :: rt) := pathJoin_map_mk (r :: rt) (by simp)
    simp [normStep, hsplit, hne, hget, hpj,
      objSet_not_mem_keys acc _ _ hmem]

/-- The grouping step on a head already grouped as a directory, with
segments remaining: the entry is added to the subdirectory under its
joined remaining path. -/
theorem normStep_flat_dir (acc : Directory) (hd : List Char) (rest : SegPath)
    (f : File) (sub : Directory) (hgood : goodPath (hd :: rest))
    (hrest : rest ≠ []) (hget : objGet acc ⟨hd⟩ = some (Entry.dir sub)) :
    normStep acc (toRelPair (hd :: rest, f)) =
      objSet acc ⟨hd⟩ (Entry.dir (objSet sub (relKey rest) (Entry.file f))) := by
  have hsplit : splitSlash (relKey (hd :: rest)) =
      (⟨hd⟩ : String) :: rest.map (fun l => ⟨l⟩) := by
    rw [splitSlash_relKey _ hgood]
    rfl
  have hne : ¬ ((⟨hd⟩ : String) = "") := by
    intro hh
    exact (hgood.2 hd (List.mem_cons_self _ _)).1 (congrArg String.data hh)
  show normStep acc (relKey (hd :: rest), Entry.file f) = _
  cases rest with
  | nil => exact absurd rfl hrest
  | cons r rt =>
    have hpj : pathJoin ((⟨r⟩ : String) :: rt.map (fun l => (⟨l⟩ : String))) =
        relKey (r :: rt) := pathJoin_map_mk (r :: rt) (by simp)
    simp [normStep, hsplit, hne, hget, hpj]

/-! ## The grouping fold on a flat spec

`groupInv done acc` says that `acc` is exactly the grouping of the
processed prefix `done` of a flat spec: one entry per distinct head
segment, a file when the head is a whole path, a one-level directory of
joined tails otherwise. -/

theorem headFilter_append (h : List Char) (l₁ l₂ : List (SegPath × File)) :
    headFilter h (l₁ ++ l₂) = headFilter h l₁ ++ headFilter h l₂ :=
  List.filter_append _ _

theorem headFilter_eq_nil (h : List Char) (l : List (SegPath × File))
    (hm : h ∉ l.map (fun p => p.1.headI)) : headFilter h l = [] := by
  rw [headFilter, List.filter_eq_nil_iff]
  intro q hq
  simp only [decide_eq_true_eq]
  intro hh
  exact hm (List.mem_map.mpr ⟨q, hq, hh⟩)

theorem headFilter_sublist (h : List Char) (l : List (SegPath × File)) :
    (headFilter h l).Sublist l := List.filter_sublist _

def groupInv (done : List (SegPath × File)) (acc : Directory) : Prop :=
  ((acc.map Prod.fst).Nodup) ∧
  (∀ s : String, s ∈ acc.map Prod.fst ↔
    s.data ∈ done.map (fun p => p.1.headI)) ∧
  (∀ kv ∈ acc, cleanSeg kv.1.data ∧
    ((∃ f, kv.2 = Entry.file f ∧
        headFilter kv.1.data done = [([kv.1.data], f)]) ∨
     (∃ sub, kv.2 = Entry.dir sub ∧
        sub = (headFilter kv.1.data done).map
          (fun p => (relKey p.1.tail, Entry.file p.2)) ∧
        (∀ p ∈ headFilter kv.1.data done, p.1.tail ≠ []))))

theorem groupInv_nil : groupInv [] [] := by
  refine ⟨List.nodup_nil, ?_, ?_⟩
  · intro s
    simp
  · intro kv hkv
    simp at hkv

theorem groupInv_step (done : List (SegPath × File)) (acc : Directory)
    (p : SegPath × File) (hgoodp : goodPath p.1)
    (hpf : ∀ q ∈ done, ¬ q.1 <+: p.1 ∧ ¬ p.1 <+: q.1)
    (hgooddone : ∀ q ∈ done, goodPath q.1)
    (hinv : groupInv done acc) :
    groupInv (done ++ [p]) (normStep acc (toRelPair p)) := by
  obtain ⟨segs, f⟩ := p
  obtain ⟨hnn, hclean⟩ := id hgoodp
  obtain ⟨hnd, hkeys, hdesc⟩ := hinv
  rcases segs with _ | ⟨hd, rest⟩
  · exact absurd rfl hnn
  cases hobj : objGet acc ⟨hd⟩ with
  | none =>
    have hfresh : (⟨hd⟩ : String) ∉ acc.map Prod.fst :=
      not_mem_keys_of_objGet_none _ _ hobj
    have hheads : hd ∉ done.map (fun q => q.1.headI) := by
      intro hh
      exact hfresh ((hkeys ⟨hd⟩).mpr hh)
    have hfilter : headFilter hd (done ++ [(hd :: rest, f)]) =
        [(hd :: rest, f)] := by
      rw [headFilter_append, headFilter_eq_nil hd done hheads]
      simp [headFilter, List.filter]
    rw [normStep_flat_fresh acc hd rest f hgoodp hobj]
    have hkeysA : (acc ++ [((⟨hd⟩ : String), if rest = [] then Entry.file f
        else Entry.dir [(relKey rest, Entry.file f)])]).map Prod.fst =
        acc.map Prod.fst ++ [⟨hd⟩] := by simp
    have hheadsA : ((done ++ [(hd :: rest, f)]).map (fun q => q.1.headI)) =
        done.map (fun q => q.1.headI) ++ [hd] := by simp
    refine ⟨?_, ?_, ?_⟩
    · rw [hkeysA, List.nodup_append]
      refine ⟨hnd, List.nodup_singleton _, ?_⟩
      intro a ha hb
      simp only [List.mem_singleton] at hb
      exact hfresh (hb ▸ ha)
    · intro s
      obtain ⟨sd⟩ := s
      rw [hkeysA, hheadsA]
      simp only [List.mem_append, List.mem_singleton]
      constructor
      · rintro (hs | hs)
        · exact Or.inl ((hkeys ⟨sd⟩).mp hs)
        · right
          have hs' : sd = hd := congrArg String.data hs
          exact hs'
      · rintro (hs | hs)
        · exact Or.inl ((hkeys ⟨sd⟩).mpr hs)
        · right
          have hs' : sd = hd := hs
          exact congrArg String.mk hs'
    · intro kv hkv
      rcases List.mem_append.mp hkv with hkv | hkv
      · obtain ⟨hcl, hdisj⟩ := hdesc kv hkv
        have hkne : kv.1.data ≠ hd := by
          intro hh
          have heta : kv.1 = ⟨kv.1.data⟩ := rfl
          exact hfresh ((heta.trans (congrArg String.mk hh)) ▸
            List.mem_map_of_mem Prod.fst hkv)
        have hfilter' : headFilter kv.1.data (done ++ [(hd :: rest, f)]) =
            headFilter kv.1.data done := by
          rw [headFilter_append]
          rw [show headFilter kv.1.data [(hd :: rest, f)] = [] from by
            simp [headFilter, List.filter, Ne.symm hkne]]
          simp
        exact ⟨hcl, by rw [hfilter']; exact hdisj⟩
      · rw [List.mem_singleton] at hkv
        subst hkv
        refine ⟨hclean hd (List.mem_cons_self _ _), ?_⟩
        rcases rest with _ | ⟨r, rt⟩
        · left
          refine ⟨f, by simp, ?_⟩
          show headFilter hd (done ++ [(hd :: [], f)]) = [([hd], f)]
          rw [hfilter]
        · right
          refine ⟨[(relKey (r :: rt), Entry.file f)], by simp, ?_, ?_⟩
          · show [(relKey (r :: rt), Entry.file f)] =
              (headFilter hd (done ++ [(hd :: r :: rt, f)])).map
                (fun p => (relKey p.1.tail, Entry.file p.2))
            rw [hfilter]
            rfl
          · intro q hq
            show q.1.tail ≠ []
            have hq' : q ∈ headFilter hd (done ++ [(hd :: r :: rt, f)]) := hq
            rw [hfilter] at hq'
            simp only [List.mem_singleton] at hq'
            rw [hq']
            simp
  | some v =>
    have hmemacc : ((⟨hd⟩ : String), v) ∈ acc := mem_of_objGet _ _ _ hobj
    obtain ⟨hclhd, hdv⟩ := hdesc _ hmemacc
    rcases hdv with ⟨f₀, hvf, hfil⟩ | ⟨sub, hvd, hsub, htails⟩
    · exfalso
      have hmemfil : ([hd], f₀) ∈ headFilter hd done := by
        have hfil' : headFilter hd done = [([hd], f₀)] := hfil
        rw [hfil']
        exact List.mem_singleton_self _
      have hmemdone : ([hd], f₀) ∈ done :=
        (headFilter_sublist hd done).subset hmemfil
      exact (hpf _ hmemdone).1 (by simp)
    · have hrest : rest ≠ [] := by
        intro hr
        subst hr
        have hh : hd ∈ done.map (fun q => q.1.headI) :=
          (hkeys ⟨hd⟩).mp (List.mem_map_of_mem Prod.fst hmemacc)
        rcases List.mem_map.mp hh with ⟨q, hqdone, hqhead⟩
        have hqfil : q ∈ headFilter hd done := by
          rw [headFilter, List.mem_filter]
          exact ⟨hqdone, by simp [hqhead]⟩
        have hqt : q.1.tail ≠ [] := htails q hqfil
        have hq1 : q.1 = hd :: q.1.tail := by
          rw [← hqhead]
          exact (cons_headI_tail q.1 (hgooddone q hqdone).1).symm
        apply (hpf q hqdone).2
        rw [hq1]
        simp
      have hvd' : v = Entry.dir sub := hvd
      rw [hvd'] at hobj
      rw [normStep_flat_dir acc hd rest f sub hgoodp hrest hobj]
      have hgoodrest : goodPath rest :=
        ⟨hrest, fun s hs => hclean s (List.mem_cons_of_mem _ hs)⟩
      have hnotin : relKey rest ∉ sub.map Prod.fst := by
        intro hin
        rw [hsub, List.map_map] at hin
        rcases List.mem_map.mp hin with ⟨q, hqfil, hqkey⟩
        have hqdone : q ∈ done := (headFilter_sublist hd done).subset hqfil
        have hqhead : q.1.headI = hd := by
          rw [headFilter] at hqfil
          exact of_decide_eq_true (List.mem_filter.mp hqfil).2
        have hgq : goodPath q.1 := hgooddone q hqdone
        have hqt : q.1.tail ≠ [] := htails q hqfil
        have hgqt : goodPath q.1.tail :=
          ⟨hqt, fun s hs => hgq.2 s (List.mem_of_mem_tail hs)⟩
        have hkeyeq : relKey q.1.tail = relKey rest := hqkey
        have hteq : q.1.tail = rest := relKey_inj _ _ hgqt hgoodrest hkeyeq
        apply (hpf q hqdone).2
        have hq1 : q.1 = hd :: q.1.tail := by
          rw [← hqhead]
          exact (cons_headI_tail q.1 hgq.1).symm
        rw [hq1, hteq]
      rw [objSet_not_mem_keys sub _ _ hnotin]
      have hfilterP : headFilter hd [(hd :: rest, f)] = [(hd :: rest, f)] := by
        simp [headFilter, List.filter]
      refine ⟨nodup_keys_objSet _ _ _ hnd, ?_, ?_⟩
      · intro s
        rw [keys_objSet, if_pos (List.mem_map_of_mem Prod.fst hmemacc)]
        rw [hkeys s]
        have hheadsA : ((done ++ [(hd :: rest, f)]).map (fun q => q.1.headI)) =
            done.map (fun q => q.1.headI) ++ [hd] := by simp
        rw [hheadsA]
        simp only [List.mem_append, List.mem_singleton]
        constructor
        · exact Or.inl
        · rintro (hs | hs)
          · exact hs
          · rw [hs]
            exact (hkeys ⟨hd⟩).mp (List.mem_map_of_mem Prod.fst hmemacc)
      · intro kv hkv
        rcases mem_objSet_elim acc _ _ kv hnd hkv with hkv | ⟨hkvacc, hkvne⟩
        · subst hkv
          refine ⟨hclhd, Or.inr
            ⟨sub ++ [(relKey rest, Entry.file f)], rfl, ?_, ?_⟩⟩
          · show sub ++ [(relKey rest, Entry.file f)] =
              (headFilter hd (done ++ [(hd :: rest, f)])).map
                (fun p => (relKey p.1.tail, Entry.file p.2))
            rw [headFilter_append, hfilterP, List.map_append, ← hsub]
            rfl
          · intro q hq
            show q.1.tail ≠ []
            have hq' : q ∈ headFilter hd (done ++ [(hd :: rest, f)]) := hq
            rw [headFilter_append, hfilterP] at hq'
            rcases List.mem_append.mp hq' with hq' | hq'
            · exact htails q hq'
            · simp only [List.mem_singleton] at hq'
              rw [hq']
              simpa using hrest
        · obtain ⟨hcl, hdisj⟩ := hdesc kv hkvacc
          have hkne : kv.1.data ≠ hd := by
            intro hh
            have heta : kv.1 = ⟨kv.1.data⟩ := rfl
            exact hkvne (heta.trans (congrArg String.mk hh))
          have hfilter' : headFilter kv.1.data (done ++ [(hd :: rest, f)]) =
              headFilter kv.1.data done := by
            rw [headFilter_append]
            rw [show headFilter kv.1.data [(hd :: rest, f)] = [] from by
              simp [headFilter, List.filter, Ne.symm hkne]]
            simp
          exact ⟨hcl, by rw [hfilter']; exact hdisj⟩

theorem groupInv_foldl : ∀ (todo done : List (SegPath × File)) (acc : Directory),
    goodList (done ++ todo) → groupInv done acc →
    groupInv (done ++ todo)
      (todo.foldl (fun a p => normStep a (toRelPair p)) acc) := by
  intro todo
  induction todo with
  | nil =>
    intro done acc h hi
    simpa using hi
  | cons p t ih =>
    intro done acc hgood hinv
    have hgoodp : goodPath p.1 := hgood.1 p (by simp)
    have hpf : ∀ q ∈ done, ¬ q.1 <+: p.1 ∧ ¬ p.1 <+: q.1 := by
      intro q hq
      exact (List.pairwise_append.mp hgood.2).2.2 q hq p (List.mem_cons_self _ _)
    have hgooddone : ∀ q ∈ done, goodPath q.1 :=
      fun q hq => hgood.1 q (List.mem_append.mpr (Or.inl hq))
    have hstep := groupInv_step done acc p hgoodp hpf hgooddone hinv
    have hassoc : done ++ p :: t = (done ++ [p]) ++ t := by simp
    rw [hassoc]
    exact ih (done ++ [p]) _ (by rw [← hassoc]; exact hgood) hstep

/-! ## Rebuilding the tree from the grouping -/

theorem headFilter_partition : ∀ (ks : List (List Char))
    (L : List (SegPath × File)), ks.Nodup →
    (∀ p ∈ L, p.1.headI ∈ ks) →
    ((ks.map (fun h => headFilter h L)).flatten).Perm L := by
  intro ks
  induction ks with
  | nil =>
    intro L _ hcover
    cases L with
    | nil => simp
    | cons p t => exact absurd (hcover p (List.mem_cons_self _ _)) (by simp)
  | cons h ks ih =>
    intro L hnd hcover
    simp only [List.map_cons, List.flatten_cons]
    have hL' : ∀ h' ∈ ks,
        headFilter h' (L.filter (fun p => !decide (p.1.headI = h))) =
          headFilter h' L := by
      intro h' hh'
      rw [headFilter, headFilter, List.filter_filter]
      apply List.filter_congr
      intro q hq
      by_cases hqh : q.1.headI = h'
      · have hne : ¬ (h' = h) :=
          fun hh => (List.pairwise_cons.mp hnd).1 h' hh' hh.symm
        simp [hqh, hne]
      · simp [hqh]
    have hperm := List.filter_append_perm (fun p => decide (p.1.headI = h)) L
    have hcover' : ∀ p ∈ L.filter (fun p => !decide (p.1.headI = h)),
        p.1.headI ∈ ks := by
      intro p hp
      have hpl : p ∈ L := List.mem_of_mem_filter hp
      have hne : ¬ (p.1.headI = h) := by
        have := List.of_mem_filter hp
        simpa using this
      rcases List.mem_cons.mp (hcover p hpl) with hc | hc
      · exact absurd hc hne
      · exact hc
    have hih := ih (L.filter (fun p => !decide (p.1.headI = h)))
      (List.pairwise_cons.mp hnd).2 hcover'
    have hmapeq : ks.map
        (fun h' => headFilter h' (L.filter (fun p => !decide (p.1.headI = h))))
        = ks.map (fun h' => headFilter h' L) :=
      List.map_congr_left hL'
    rw [hmapeq] at hih
    exact List.Perm.trans (hih.append_left (headFilter h L)) hperm

theorem keysEq_of_fa2 {P : String × Entry → Entry → Prop} :
    ∀ {G G' : Directory},
      List.Forall₂ (fun kv kv' => kv'.1 = kv.1 ∧ P kv kv'.2) G G' →
      G'.map Prod.fst = G.map Prod.fst := by
  intro G G' h
  induction h with
  | nil => rfl
  | @cons kv kv' t t' hr htl ih =>
    simp only [List.map_cons, ih]
    rw [hr.1]

theorem nfD_of_fa2 :
    ∀ {G G' : Directory},
      List.Forall₂ (fun kv kv' => kv'.1 = kv.1 ∧ Entry.nfE kv'.2) G G' →
      ((G.map Prod.fst).Nodup) → (∀ kv ∈ G, cleanSeg kv.1.data) →
      Entry.nfD G' := by
  intro G G' h
  induction h with
  | nil =>
    intro _ _
    trivial
  | @cons kv kv' t t' hr htl ih =>
    intro hnd hcl
    obtain ⟨k', v'⟩ := kv'
    show cleanSeg k'.data ∧ k' ∉ t'.map Prod.fst ∧ Entry.nfE v' ∧ Entry.nfD t'
    have hk : k' = kv.1 := hr.1
    refine ⟨?_, ?_, hr.2, ih (List.pairwise_cons.mp hnd).2
      (fun q hq => hcl q (List.mem_cons_of_mem _ hq))⟩
    · rw [hk]
      exact hcl kv (List.mem_cons_self _ _)
    · rw [keysEq_of_fa2 htl, hk]
      intro hmem
      exact (List.pairwise_cons.mp hnd).1 kv.1 hmem rfl

theorem leavesD_perm_of_fa2 (L : List (SegPath × File)) :
    ∀ {G G' : Directory},
      List.Forall₂ (fun kv kv' => kv'.1 = kv.1 ∧
        (Entry.leavesE kv.1 kv'.2).Perm (headFilter kv.1.data L)) G G' →
      (Entry.leavesD G').Perm
        ((G.map (fun kv => headFilter kv.1.data L)).flatten) := by
  intro G G' h
  induction h with
  | nil => simp [Entry.leavesD]
  | @cons kv kv' t t' hr htl ih =>
    obtain ⟨k', v'⟩ := kv'
    show (Entry.leavesE k' v' ++ Entry.leavesD t').Perm _
    simp only [List.map_cons, List.flatten_cons]
    refine List.Perm.append ?_ ih
    have hk : k' = kv.1 := hr.1
    rw [hk]
    exact hr.2

/-- The body of the rebuilding `foldlM` of `normalize`. -/
def normBody (fuel : Nat) (parent : String) (normalized : Directory)
    (p : String × Entry) : Except NormErr Directory :=
  match p with
  | (location, Entry.dir d) => do
    let nd ← normalizeF fuel d (parent ++ "/" ++ location)
    pure (objSet normalized location (.dir nd))
  | (location, contents) => pure (objSet normalized location contents)

theorem normalizeF_ok_mapM (fuel : Nat) (child : Directory) (parent : String)
    (pairs : List (String × Entry))
    (h : child.mapM (normEntryAbs parent) = .ok pairs) :
    normalizeF (fuel + 1) child parent =
      (pairs.foldl normStep []).foldlM (normBody fuel parent) [] := by
  show (do
    let pairs ← child.mapM (normEntryAbs parent)
    let grouped := pairs.foldl normStep []
    grouped.foldlM
      (fun normalized p =>
        match p with
        | (location, Entry.dir d) => do
          let nd ← normalizeF fuel d (parent ++ "/" ++ location)
          pure (objSet normalized location (Entry.dir nd))
        | (location, contents) => pure (objSet normalized location contents))
      []) = _
  rw [h]
  rfl

theorem mapM_ok_nil (child : Directory) (parent : String)
    (h : child.mapM (normEntryAbs parent) = .ok []) : child = [] := by
  cases child with
  | nil => rfl
  | cons a t =>
    exfalso
    rw [List.mapM_cons] at h
    cases ha : normEntryAbs parent a with
    | error e =>
      rw [ha] at h
      exact absurd (show Except.error e = Except.ok ([] : List (String × Entry))
        from h) (by simp)
    | ok x =>
      rw [ha] at h
      cases ht : t.mapM (normEntryAbs parent) with
      | error e =>
        rw [ht] at h
        exact absurd (show Except.error e = Except.ok ([] : List (String × Entry))
          from h) (by simp)
      | ok xs =>
        rw [ht] at h
        exact absurd (show Except.ok (x :: xs) =
          Except.ok ([] : List (String × Entry)) from h) (by simp)

theorem foldlM_build (fuel : Nat) (parent : String)
    (P : String × Entry → Entry → Prop) :
    ∀ (G acc : Directory), ((G.map Prod.fst).Nodup) →
    (∀ k ∈ G.map Prod.fst, k ∉ acc.map Prod.fst) →
    (∀ kv ∈ G, (∃ f, kv.2 = Entry.file f ∧ P kv kv.2) ∨
      (∃ sub N, kv.2 = Entry.dir sub ∧
        normalizeF fuel sub (parent ++ "/" ++ kv.1) = .ok N ∧
        P kv (Entry.dir N))) →
    ∃ G', G.foldlM (normBody fuel parent) acc = .ok (acc ++ G') ∧
      List.Forall₂ (fun kv kv' => kv'.1 = kv.1 ∧ P kv kv'.2) G G' := by
  intro G
  induction G with
  | nil =>
    intro acc _ _ _
    exact ⟨[], by rw [List.append_nil]; rfl, List.Forall₂.nil⟩
  | cons e t ih =>
    intro acc hnd hfresh hyp
    obtain ⟨k, v⟩ := e
    have hknotin : k ∉ acc.map Prod.fst :=
      hfresh k (by simp)
    rcases hyp (k, v) (List.mem_cons_self _ _) with ⟨f, hvf, hP⟩ |
      ⟨sub, N, hvd, hnorm, hP⟩
    · have hvf' : v = Entry.file f := hvf
      subst hvf'
      have hstep : normBody fuel parent acc (k, Entry.file f) =
          .ok (objSet acc k (Entry.file f)) := rfl
      rw [List.foldlM_cons, hstep]
      rw [objSet_not_mem_keys acc k _ hknotin]
      have hfresh2 : ∀ k' ∈ t.map Prod.fst,
          k' ∉ (acc ++ [(k, Entry.file f)]).map Prod.fst := by
        intro k' hk' hk'acc
        simp only [List.map_append, List.mem_append] at hk'acc
        rcases hk'acc with hk'acc | hk'acc
        · exact hfresh k' (List.mem_cons_of_mem _ hk') hk'acc
        · simp only [List.map_cons, List.map_nil, List.mem_singleton] at hk'acc
          subst hk'acc
          exact (List.pairwise_cons.mp hnd).1 k' hk' rfl
      obtain ⟨G'', hok, hfa⟩ := ih (acc ++ [(k, Entry.file f)])
        (List.pairwise_cons.mp hnd).2 hfresh2
        (fun kv hkv => hyp kv (List.mem_cons_of_mem _ hkv))
      refine ⟨(k, Entry.file f) :: G'', ?_, ?_⟩
      · show t.foldlM (normBody fuel parent) (acc ++ [(k, Entry.file f)]) = _
        rw [hok]
        simp
      · exact List.Forall₂.cons ⟨rfl, hP⟩ hfa
    · have hvd' : v = Entry.dir sub := hvd
      subst hvd'
      have hstep : normBody fuel parent acc (k, Entry.dir sub) =
          .ok (objSet acc k (Entry.dir N)) := by
        simp only [normBody]
        rw [hnorm]
        rfl
      rw [List.foldlM_cons, hstep]
      rw [objSet_not_mem_keys acc k _ hknotin]
      have hfresh2 : ∀ k' ∈ t.map Prod.fst,
          k' ∉ (acc ++ [(k, Entry.dir N)]).map Prod.fst := by
        intro k' hk' hk'acc
        simp only [List.map_append, List.mem_append] at hk'acc
        rcases hk'acc with hk'acc | hk'acc
        · exact hfresh k' (List.mem_cons_of_mem _ hk') hk'acc
        · simp only [List.map_cons, List.map_nil, List.mem_singleton] at hk'acc
          subst hk'acc
          exact (List.pairwise_cons.mp hnd).1 k' hk' rfl
      obtain ⟨G'', hok, hfa⟩ := ih (acc ++ [(k, Entry.dir N)])
        (List.pairwise_cons.mp hnd).2 hfresh2
        (fun kv hkv => hyp kv (List.mem_cons_of_mem _ hkv))
      refine ⟨(k, Entry.dir N) :: G'', ?_, ?_⟩
      · show t.foldlM (normBody fuel parent) (acc ++ [(k, Entry.dir N)]) = _
        rw [hok]
        simp
      · exact List.Forall₂.cons ⟨rfl, hP⟩ hfa

/-- Normalizing a flat spec whose keys are distinct joined clean paths,
none a directory-prefix of another, succeeds and produces a normal-form
tree whose leaves are exactly the spec's entries (up to order). -/
theorem normalizeF_flat : ∀ (fuel : Nat) (L : List (SegPath × File))
    (child : Directory) (parent : String),
    goodList L → (∀ p ∈ L, p.1.length ≤ fuel) →
    child.mapM (normEntryAbs parent) = .ok (L.map toRelPair) →
    ∃ N, normalizeF (fuel + 1) child parent = .ok N ∧
      Entry.nfD N ∧ (Entry.leavesD N).Perm L := by
  intro fuel
  induction fuel with
  | zero =>
    intro L child parent hgood hlen hmapM
    cases L with
    | cons p t =>
      exfalso
      have h1 := hlen p (List.mem_cons_self _ _)
      have h2 := (hgood.1 p (List.mem_cons_self _ _)).1
      cases hp : p.1 with
      | nil => exact h2 hp
      | cons a b =>
        rw [hp] at h1
        simp at h1
    | nil =>
      have hchild : child = [] := mapM_ok_nil child parent (by simpa using hmapM)
      subst hchild
      exact ⟨[], rfl, trivial, List.Perm.refl _⟩
  | succ f ih =>
    intro L child parent hgood hlen hmapM
    have hInv : groupInv L (L.foldl (fun a p => normStep a (toRelPair p)) []) :=
      groupInv_foldl L [] [] hgood groupInv_nil
    obtain ⟨hnd, hkeys, hdesc⟩ := hInv
    generalize hG : L.foldl (fun a p => normStep a (toRelPair p)) [] = G
      at hnd hkeys hdesc
    have hentry : ∀ kv ∈ G,
        (∃ f₀, kv.2 = Entry.file f₀ ∧ (Entry.nfE kv.2 ∧
          (Entry.leavesE kv.1 kv.2).Perm (headFilter kv.1.data L))) ∨
        (∃ sub N, kv.2 = Entry.dir sub ∧
          normalizeF (f + 1) sub (parent ++ "/" ++ kv.1) = .ok N ∧
          (Entry.nfE (Entry.dir N) ∧
            (Entry.leavesE kv.1 (Entry.dir N)).Perm
              (headFilter kv.1.data L))) := by
      intro kv hkv
      obtain ⟨hcl, hdisj⟩ := hdesc kv hkv
      rcases hdisj with ⟨f₀, hvf, hfil⟩ | ⟨sub, hvd, hsub, htails⟩
      · left
        refine ⟨f₀, hvf, ?_, ?_⟩
        · rw [hvf]
          trivial
        · rw [hvf]
          show ([([kv.1.data], f₀)] : List (SegPath × File)).Perm _
          rw [hfil]
      · right
        have hgrpmem : ∀ q ∈ headFilter kv.1.data L, q ∈ L :=
          fun q hq => (headFilter_sublist _ _).subset hq
        have hgrphead : ∀ q ∈ headFilter kv.1.data L, q.1.headI = kv.1.data := by
          intro q hq
          rw [headFilter] at hq
          exact of_decide_eq_true (List.mem_filter.mp hq).2
        have hgrpgood : ∀ q ∈ headFilter kv.1.data L, goodPath q.1 :=
          fun q hq => hgood.1 q (hgrpmem q hq)
        have hgrptail : ∀ q ∈ headFilter kv.1.data L, goodPath q.1.tail := by
          intro q hq
          exact ⟨htails q hq,
            fun s hs => (hgrpgood q hq).2 s (List.mem_of_mem_tail hs)⟩
        have hcons : ∀ q ∈ headFilter kv.1.data L,
            q.1 = kv.1.data :: q.1.tail := by
          intro q hq
          rw [← hgrphead q hq]
          exact (cons_headI_tail _ (hgrpgood q hq).1).symm
        have hgoodsub : goodList
            ((headFilter kv.1.data L).map (fun q => (q.1.tail, q.2))) := by
          constructor
          · intro p' hp'
            rcases List.mem_map.mp hp' with ⟨q, hq, hqe⟩
            rw [← hqe]
            exact hgrptail q hq
          · rw [List.pairwise_map]
            have hpw : (headFilter kv.1.data L).Pairwise
                (fun a b => ¬ a.1 <+: b.1 ∧ ¬ b.1 <+: a.1) :=
              List.Pairwise.sublist (headFilter_sublist _ _) hgood.2
            refine List.Pairwise.imp_of_mem ?_ hpw
            intro a b ha hb hab
            constructor
            · intro hpre
              apply hab.1
              rw [hcons a ha, hcons b hb]
              exact List.cons_prefix_cons.mpr ⟨rfl, hpre⟩
            · intro hpre
              apply hab.2
              rw [hcons a ha, hcons b hb]
              exact List.cons_prefix_cons.mpr ⟨rfl, hpre⟩
        have hlensub : ∀ p' ∈ (headFilter kv.1.data L).map
            (fun q => (q.1.tail, q.2)), p'.1.length ≤ f := by
          intro p' hp'
          rcases List.mem_map.mp hp' with ⟨q, hq, hqe⟩
          rw [← hqe]
          show q.1.tail.length ≤ f
          have h3 := hlen q (hgrpmem q hq)
          have h2 : q.1.tail.length + 1 ≤ f + 1 := by
            cases hq1 : q.1 with
            | nil => exact absurd hq1 (hgrpgood q hq).1
            | cons a b =>
              rw [hq1] at h3
              simp only [List.length_cons, List.tail_cons] at h3 ⊢
              omega
          omega
        have hmapMsub : sub.mapM (normEntryAbs (parent ++ "/" ++ kv.1)) =
            .ok (((headFilter kv.1.data L).map
              (fun q => (q.1.tail, q.2))).map toRelPair) := by
          have hall : ∀ a ∈ sub,
              normEntryAbs (parent ++ "/" ++ kv.1) a = .ok (id a) := by
            intro a ha
            rw [hsub] at ha
            rcases List.mem_map.mp ha with ⟨q, hq, hqe⟩
            rw [← hqe]
            exact normEntryAbs_rel _ q.1.tail q.2 (hgrptail q hq)
          rw [mapM_ok_of_forall _ id sub hall, List.map_id]
          rw [hsub, List.map_map]
          rfl
        obtain ⟨Nsub, hok, hnf, hperm⟩ := ih
          ((headFilter kv.1.data L).map (fun q => (q.1.tail, q.2)))
          sub (parent ++ "/" ++ kv.1) hgoodsub hlensub hmapMsub
        refine ⟨sub, Nsub, hvd, hok, hnf, ?_⟩
        show ((Entry.leavesD Nsub).map (fun p => (kv.1.data :: p.1, p.2))).Perm _
        have hmap := hperm.map (fun p => (kv.1.data :: p.1, p.2))
        rw [List.map_map] at hmap
        have hid : (headFilter kv.1.data L).map
            ((fun p => (kv.1.data :: p.1, p.2)) ∘ (fun q => (q.1.tail, q.2))) =
            headFilter kv.1.data L := by
          have hptw : ∀ q ∈ headFilter kv.1.data L,
              ((fun p => (kv.1.data :: p.1, p.2)) ∘
                (fun q => (q.1.tail, q.2))) q = id q := by
            intro q hq
            show (kv.1.data :: q.1.tail, q.2) = q
            rw [← hcons q hq]
          rw [List.map_congr_left hptw, List.map_id]
        rw [hid] at hmap
        exact hmap
    have hfreshG : ∀ k ∈ G.map Prod.fst, k ∉ ([] : Directory).map Prod.fst := by
      simp
    obtain ⟨G', hfold, hfa⟩ := foldlM_build (f + 1) parent
      (fun kv e => Entry.nfE e ∧
        (Entry.leavesE kv.1 e).Perm (headFilter kv.1.data L))
      G [] hnd hfreshG hentry
    refine ⟨G', ?_, ?_, ?_⟩
    · rw [normalizeF_ok_mapM (f + 1) child parent _ hmapM]
      rw [List.foldl_map]
      rw [hG]
      rw [hfold]
      simp
    · refine nfD_of_fa2 ?_ hnd ?_
      · exact hfa.imp (fun _ _ hab => ⟨hab.1, hab.2.1⟩)
      · intro kv hkv
        exact (hdesc kv hkv).1
    · have hfa2 : List.Forall₂ (fun kv kv' => kv'.1 = kv.1 ∧
          (Entry.leavesE kv.1 kv'.2).Perm (headFilter kv.1.data L)) G G' :=
        hfa.imp (fun _ _ hab => ⟨hab.1, hab.2.2⟩)
      have hld := leavesD_perm_of_fa2 L hfa2
      refine hld.trans ?_
      have hmm2 : G.map (fun kv => headFilter kv.1.data L) =
          (G.map (fun kv => kv.1.data)).map (fun h => headFilter h L) := by
        rw [List.map_map]
        rfl
      rw [hmm2]
      refine headFilter_partition _ L ?_ ?_
      · have heq : G.map (fun kv => kv.1.data) =
            (G.map Prod.fst).map String.data := by
          rw [List.map_map]
          rfl
        rw [heq]
        refine List.Nodup.map ?_ hnd
        intro a b hab
        calc a = ⟨a.data⟩ := rfl
          _ = ⟨b.data⟩ := by rw [hab]
          _ = b := rfl
      · intro p hp
        have hh : p.1.headI ∈ L.map (fun q => q.1.headI) :=
          List.mem_map_of_mem _ hp
        have hk := (hkeys ⟨p.1.headI⟩).mpr hh
        rcases List.mem_map.mp hk with ⟨kv, hkv, hkve⟩
        exact List.mem_map.mpr ⟨kv, hkv, congrArg String.data hkve⟩

/-! ## Walking a normal-form tree -/

theorem objGet_cons_ne {α : Type} (k' : String) (v' : α)
    (t : List (String × α)) (k : String) (h : ¬ (k' = k)) :
    objGet ((k', v') :: t) k = objGet t k := by
  simp [objGet, h]

theorem fileNames_cons (k : String) (v : Entry) (t : Directory)
    (hk : k ∉ t.map Prod.fst) :
    fileNames ((k, v) :: t) =
      (if v.isFile then [k] else []) ++ fileNames t := by
  have hhead : ((objGet ((k, v) :: t) k).map Entry.isFile).getD false =
      v.isFile := by
    simp [objGet]
  have htail : (t.map Prod.fst).filter
      (fun key => ((objGet ((k, v) :: t) key).map Entry.isFile).getD false) =
      fileNames t := by
    apply List.filter_congr
    intro key hkey
    have hne : ¬ (k = key) := fun hh => hk (hh ▸ hkey)
    rw [objGet_cons_ne k v t key hne]
  show (k :: t.map Prod.fst).filter _ = _
  rw [List.filter_cons, hhead, htail]
  by_cases hv : v.isFile
  · simp [hv]
  · simp [hv]

theorem dirNames_cons (k : String) (v : Entry) (t : Directory)
    (hk : k ∉ t.map Prod.fst) :
    dirNames ((k, v) :: t) =
      (if v.isDir then [k] else []) ++ dirNames t := by
  have hhead : ((objGet ((k, v) :: t) k).map Entry.isDir).getD false =
      v.isDir := by
    simp [objGet]
  have htail : (t.map Prod.fst).filter
      (fun key => ((objGet ((k, v) :: t) key).map Entry.isDir).getD false) =
      dirNames t := by
    apply List.filter_congr
    intro key hkey
    have hne : ¬ (k = key) := fun hh => hk (hh ▸ hkey)
    rw [objGet_cons_ne k v t key hne]
  show (k :: t.map Prod.fst).filter _ = _
  rw [List.filter_cons, hhead, htail]
  by_cases hv : v.isDir
  · simp [hv]
  · simp [hv]

theorem mem_fileNames_keys (root : Directory) (k : String)
    (h : k ∈ fileNames root) : k ∈ root.map Prod.fst :=
  List.mem_of_mem_filter h

theorem mem_dirNames_keys (root : Directory) (k : String)
    (h : k ∈ dirNames root) : k ∈ root.map Prod.fst :=
  List.mem_of_mem_filter h

theorem pathResolveAbs_single (psegs : List (List Char)) (k : String)
    (hps : ∀ s ∈ psegs, cleanSeg s) (hk : cleanSeg k.data) :
    pathResolveAbs ⟨'/' :: joinSlashCore psegs⟩ k =
      ⟨'/' :: joinSlashCore (psegs ++ [k.data])⟩ :=
  pathResolveAbs_clean psegs [k.data] hps
    (by
      intro s hs
      rw [List.mem_singleton.mp hs]
      exact hk)
    (by simp)

theorem flatListF_sorted (fuel : Nat) (root : Directory) (parent : String) :
    (flatListF fuel root parent).Pairwise (fun a b => strLe a.1 b.1 = true) := by
  cases fuel with
  | zero => simp [flatListF]
  | succ f =>
    rw [flatListF]
    haveI h1 : IsTotal (String × File) (fun a b => strLe a.1 b.1 = true) :=
      ⟨fun a b => strLe_total a.1 b.1⟩
    haveI h2 : IsTrans (String × File) (fun a b => strLe a.1 b.1 = true) :=
      ⟨fun a b c hab hbc => strLe_trans hab hbc⟩
    exact List.sorted_insertionSort _ _

/-- Walking a normal-form tree lists exactly its leaves, with keys
resolved below the (normalized absolute) parent. -/
theorem flatListF_nf : ∀ (fuel : Nat) (root : Directory)
    (psegs : List (List Char)),
    Entry.nfD root → (∀ s ∈ psegs, cleanSeg s) →
    Entry.heightD root < fuel →
    (flatListF fuel root ⟨'/' :: joinSlashCore psegs⟩).Perm
      ((Entry.leavesD root).map
        (fun p => (⟨'/' :: joinSlashCore (psegs ++ p.1)⟩, p.2))) := by
  intro fuel
  induction fuel with
  | zero =>
    intro root psegs _ _ hh
    omega
  | succ f ih =>
    intro root psegs hnf hps hh
    rw [flatListF]
    refine (List.perm_insertionSort _ _).trans ?_
    revert hnf hh
    induction root with
    | nil =>
      intro _ _
      simp [fileNames, dirNames, Entry.leavesD]
    | cons e t iht =>
      intro hnf hh
      obtain ⟨k, v⟩ := e
      obtain ⟨hclk, hknotin, hnfv, hnft⟩ := hnf
      have hht : Entry.heightD t < f + 1 := by
        have hle : Entry.heightD t ≤ Entry.heightD ((k, v) :: t) :=
          le_max_right _ _
        omega
      have hgett : ∀ key ∈ t.map Prod.fst,
          objGet ((k, v) :: t) key = objGet t key := by
        intro key hkey
        exact objGet_cons_ne k v t key (fun hh' => hknotin (hh' ▸ hkey))
      have hiht := iht hnft hht
      cases v with
      | file f₀ =>
        have hA : fileNames ((k, Entry.file f₀) :: t) = k :: fileNames t := by
          rw [fileNames_cons k _ t hknotin]
          rfl
        have hB : dirNames ((k, Entry.file f₀) :: t) = dirNames t := by
          rw [dirNames_cons k _ t hknotin]
          rfl
        rw [hA, hB, List.map_cons]
        have hfmap : (fileNames t).map
            (flatFilePair ((k, Entry.file f₀) :: t)
              ⟨'/' :: joinSlashCore psegs⟩) =
            (fileNames t).map (flatFilePair t ⟨'/' :: joinSlashCore psegs⟩) :=
          List.map_congr_left (fun key hkey => by
            rw [flatFilePair, flatFilePair,
              hgett key (mem_fileNames_keys t key hkey)])
        have hdmap : (dirNames t).map (fun dn => flatListF f
              ((objGet ((k, Entry.file f₀) :: t) dn).getD
                (Entry.dir [])).getDir
              (pathResolveAbs ⟨'/' :: joinSlashCore psegs⟩ dn)) =
            (dirNames t).map (fun dn => flatListF f
              ((objGet t dn).getD (Entry.dir [])).getDir
              (pathResolveAbs ⟨'/' :: joinSlashCore psegs⟩ dn)) :=
          List.map_congr_left (fun dn hdn => by
            rw [hgett dn (mem_dirNames_keys t dn hdn)])
        rw [hfmap, hdmap]
        have hhead : flatFilePair ((k, Entry.file f₀) :: t)
            ⟨'/' :: joinSlashCore psegs⟩ k =
            (⟨'/' :: joinSlashCore (psegs ++ [k.data])⟩, f₀) := by
          rw [show flatFilePair ((k, Entry.file f₀) :: t)
              ⟨'/' :: joinSlashCore psegs⟩ k =
              (pathResolveAbs ⟨'/' :: joinSlashCore psegs⟩ k, f₀) from by
            simp [flatFilePair, objGet, Entry.getFile]]
          rw [pathResolveAbs_single psegs k hps hclk]
        rw [hhead]
        show List.Perm
          ((((⟨'/' :: joinSlashCore (psegs ++ [k.data])⟩ : String), f₀) :: _)
            ++ _)
          (((⟨'/' :: joinSlashCore (psegs ++ [k.data])⟩ : String), f₀) ::
            (Entry.leavesD t).map _)
        rw [List.cons_append]
        exact hiht.cons _
      | dir sub =>
        have hA : fileNames ((k, Entry.dir sub) :: t) = fileNames t := by
          rw [fileNames_cons k _ t hknotin]
          rfl
        have hB : dirNames ((k, Entry.dir sub) :: t) = k :: dirNames t := by
          rw [dirNames_cons k _ t hknotin]
          rfl
        rw [hA, hB]
        simp only [List.map_cons, List.flatten_cons]
        have hfmap : (fileNames t).map
            (flatFilePair ((k, Entry.dir sub) :: t)
              ⟨'/' :: joinSlashCore psegs⟩) =
            (fileNames t).map (flatFilePair t ⟨'/' :: joinSlashCore psegs⟩) :=
          List.map_congr_left (fun key hkey => by
            rw [flatFilePair, flatFilePair,
              hgett key (mem_fileNames_keys t key hkey)])
        have hdmap : (dirNames t).map (fun dn => flatListF f
              ((objGet ((k, Entry.dir sub) :: t) dn).getD
                (Entry.dir [])).getDir
              (pathResolveAbs ⟨'/' :: joinSlashCore psegs⟩ dn)) =
            (dirNames t).map (fun dn => flatListF f
              ((objGet t dn).getD (Entry.dir [])).getDir
              (pathResolveAbs ⟨'/' :: joinSlashCore psegs⟩ dn)) :=
          List.map_congr_left (fun dn hdn => by
            rw [hgett dn (mem_dirNames_keys t dn hdn)])
        rw [hfmap, hdmap]
        have hlook : ((objGet ((k, Entry.dir sub) :: t) k).getD
            (Entry.dir [])).getDir = sub := by
          simp [objGet, Entry.getDir]
        rw [hlook, pathResolveAbs_single psegs k hps hclk]
        have hclps : ∀ s ∈ psegs ++ [k.data], cleanSeg s := by
          intro s hs
          rcases List.mem_append.mp hs with hs | hs
          · exact hps s hs
          · rw [List.mem_singleton.mp hs]
            exact hclk
        have hhsub : Entry.heightD sub < f := by
          have hle : Entry.heightD sub + 1 ≤ Entry.heightD
              ((k, Entry.dir sub) :: t) := le_max_left _ _
          omega
        have hihsub := ih sub (psegs ++ [k.data]) hnfv hclps hhsub
        have hadj : (Entry.leavesD sub).map (fun p =>
            ((⟨'/' :: joinSlashCore ((psegs ++ [k.data]) ++ p.1)⟩ : String),
              p.2)) = (Entry.leavesD sub).map (fun p =>
            ((⟨'/' :: joinSlashCore (psegs ++ (k.data :: p.1))⟩ : String),
              p.2)) :=
          List.map_congr_left (fun p _ => by rw [List.append_assoc]; rfl)
        rw [hadj] at hihsub
        rw [show Entry.leavesD ((k, Entry.dir sub) :: t) =
          (Entry.leavesD sub).map (fun p => (k.data :: p.1, p.2)) ++
            Entry.leavesD t from rfl]
        rw [List.map_append, List.map_map]
        have hcomm : ∀ (a b c : List (String × File)),
            (a ++ (b ++ c)).Perm (b ++ (a ++ c)) := by
          intro a b c
          rw [← List.append_assoc, ← List.append_assoc]
          exact (List.perm_append_comm.append_right c)
        exact (hcomm _ _ _).trans (List.Perm.append hihsub hiht)

/-! ## The shape of a successful flatten -/

theorem pathResolveAbs_shape (parent p : String) :
    ∃ segs, (∀ s ∈ segs, cleanSeg s) ∧
      pathResolveAbs parent p = ⟨'/' :: joinSlashCore segs⟩ := by
  rw [pathResolveAbs]
  split
  · exact pathResolveRoot_shape p
  · exact pathResolveRoot_shape _

theorem flatListF_keys_shape : ∀ (fuel : Nat) (root : Directory)
    (parent : String) (p : String × File), p ∈ flatListF fuel root parent →
    ∃ segs, (∀ s ∈ segs, cleanSeg s) ∧ p.1 = ⟨'/' :: joinSlashCore segs⟩ := by
  intro fuel
  induction fuel with
  | zero =>
    intro root parent p hp
    simp [flatListF] at hp
  | succ fuel ih =>
    intro root parent p hp
    rw [flatListF, List.mem_insertionSort] at hp
    rcases List.mem_append.mp hp with hp | hp
    · rcases List.mem_map.mp hp with ⟨kk, _, hq⟩
      rcases pathResolveAbs_shape parent kk with ⟨segs, hc, he⟩
      refine ⟨segs, hc, ?_⟩
      rw [← hq]
      exact he
    · rw [List.mem_flatten] at hp
      rcases hp with ⟨l, hl, hpl⟩
      rcases List.mem_map.mp hl with ⟨dn, _, hq⟩
      rw [← hq] at hpl
      exact ih _ _ p hpl

theorem mem_objSet_weak {α : Type} : ∀ (d : List (String × α)) (k : String)
    (v : α) (q : String × α), q ∈ objSet d k v → q ∈ d ∨ q = (k, v) := by
  intro d
  induction d with
  | nil =>
    intro k v q hq
    simp only [objSet, List.mem_singleton] at hq
    exact Or.inr hq
  | cons e t ih =>
    intro k v q hq
    obtain ⟨k', v'⟩ := e
    by_cases hk : k' = k
    · simp only [objSet, if_pos hk] at hq
      rcases List.mem_cons.mp hq with hq | hq
      · exact Or.inr hq
      · exact Or.inl (List.mem_cons_of_mem _ hq)
    · simp only [objSet, if_neg hk] at hq
      rcases List.mem_cons.mp hq with hq | hq
      · exact Or.inl (by rw [hq]; exact List.mem_cons_self _ _)
      · rcases ih k v q hq with h | h
        · exact Or.inl (List.mem_cons_of_mem _ h)
        · exact Or.inr h

theorem mem_foldl_objSet {α : Type} : ∀ (l acc : List (String × α))
    (q : String × α), q ∈ l.foldl (fun res p => objSet res p.1 p.2) acc →
    q ∈ acc ∨ q ∈ l := by
  intro l
  induction l with
  | nil =>
    intro acc q hq
    exact Or.inl hq
  | cons e t ih =>
    intro acc q hq
    rcases ih (objSet acc e.1 e.2) q hq with h | h
    · rcases mem_objSet_weak acc e.1 e.2 q h with h' | h'
      · exact Or.inl h'
      · right
        rw [h']
        exact List.mem_cons_self _ _
    · exact Or.inr (List.mem_cons_of_mem _ h)

/-- A successful `flatten` yields a key-sorted object whose keys are
distinct normalized absolute paths and whose values are all files. -/
theorem flatten_output_props (S F : Directory) (h : flatten S = .ok F) :
    (F.map Prod.fst).Nodup ∧
    F.Pairwise (fun a b => strLe a.1 b.1 = true) ∧
    (∀ kv ∈ F, ∃ segs f₀, (∀ s ∈ segs, cleanSeg s) ∧
      kv.1 = ⟨'/' :: joinSlashCore segs⟩ ∧ kv.2 = Entry.file f₀) := by
  rw [flatten] at h
  cases hn : normalize S with
  | error e =>
    rw [hn] at h
    exact absurd h (by simp [Except.bind])
  | ok n =>
    rw [hn] at h
    have hF : F = ((flatListF (Entry.dsize n + 1) n "/").map
        (fun p => (p.1, Entry.file p.2))).foldl
      (fun res p => objSet res p.1 p.2) [] :=
      (Except.ok.inj (show Except.ok (((flatListF (Entry.dsize n + 1) n
          "/").map (fun p => (p.1, Entry.file p.2))).foldl
        (fun res p => objSet res p.1 p.2) []) = Except.ok F from h)).symm
    refine ⟨?_, ?_, ?_⟩
    · rw [hF]
      exact nodup_keys_foldl_objSet _ _ List.nodup_nil
    · have hsorted := flatListF_sorted (Entry.dsize n + 1) n "/"
      have hkeys : ((flatListF (Entry.dsize n + 1) n "/").map
          (fun p => (p.1, Entry.file p.2))).map Prod.fst =
          (flatListF (Entry.dsize n + 1) n "/").map Prod.fst := by
        rw [List.map_map]
        rfl
      have hkp : (((flatListF (Entry.dsize n + 1) n "/").map
          (fun p => (p.1, Entry.file p.2))).map Prod.fst).Pairwise
          (fun a b => strLe a b = true) := by
        rw [hkeys, List.pairwise_map]
        exact hsorted
      have hsub : (F.map Prod.fst).Sublist
          (((flatListF (Entry.dsize n + 1) n "/").map
            (fun p => (p.1, Entry.file p.2))).map Prod.fst) := by
        rw [hF]
        have hs := keys_foldl_objSet_sublist
          ((flatListF (Entry.dsize n + 1) n "/").map
            (fun p => (p.1, Entry.file p.2))) ([] : Directory)
        simpa using hs
      have hkF : (F.map Prod.fst).Pairwise (fun a b => strLe a b = true) :=
        List.Pairwise.sublist hsub hkp
      exact List.pairwise_map.mp hkF
    · intro kv hkv
      rw [hF] at hkv
      rcases mem_foldl_objSet _ _ kv hkv with hkv' | hkv'
      · simp at hkv'
      · rcases List.mem_map.mp hkv' with ⟨p, hp, hpe⟩
        rcases flatListF_keys_shape _ _ _ p hp with ⟨segs, hc, he⟩
        refine ⟨segs, p.2, hc, ?_, ?_⟩
        · rw [← hpe]
          exact he
        · rw [← hpe]

/-- The ghost data of a flat-spec entry: its segment path and file. -/
def ghostFn (kv : String × Entry) : SegPath × File :=
  (splitSlashCore (kv.1.data.drop 1), kv.2.getFile)

/-- Guarded idempotence of `flatten`: re-flattening a flat result is the
identity as long as no entry sits at the bare root and no entry's path is
a directory-prefix of another entry's path. -/
theorem flatten_reflat (S F : Directory) (h : flatten S = .ok F)
    (hroot : ∀ kv ∈ F, ¬ (kv.1 = "/"))
    (hpf : ∀ p ∈ F, ∀ q ∈ F, ¬ (p.1.data ++ ['/'] <+: q.1.data)) :
    flatten F = .ok F := by
  obtain ⟨hnd, hsorted, hshape⟩ := flatten_output_props S F h
  have hsegs : ∀ kv ∈ F, goodPath (splitSlashCore (kv.1.data.drop 1)) ∧
      kv.1.data = '/' :: joinSlashCore (splitSlashCore (kv.1.data.drop 1)) ∧
      ∃ f₀, kv.2 = Entry.file f₀ := by
    intro kv hkv
    rcases hshape kv hkv with ⟨segs, f₀, hc, hk, hv⟩
    have hdata : kv.1.data = '/' :: joinSlashCore segs := congrArg String.data hk
    have hdrop : kv.1.data.drop 1 = joinSlashCore segs := by
      rw [hdata]
      rfl
    have hsne : segs ≠ [] := by
      intro hs
      apply hroot kv hkv
      rw [hk, hs]
      rfl
    have hsplit : splitSlashCore (kv.1.data.drop 1) = segs := by
      rw [hdrop]
      exact splitSlashCore_joinSlashCore segs hsne (fun u hu => (hc u hu).2.1)
    rw [hsplit]
    exact ⟨⟨hsne, hc⟩, hdata, f₀, hv⟩
  have hgoodL : goodList (F.map ghostFn) := by
    constructor
    · intro p hp
      rcases List.mem_map.mp hp with ⟨kv, hkv, hkve⟩
      rw [← hkve]
      exact (hsegs kv hkv).1
    · rw [List.pairwise_map]
      have hne : F.Pairwise (fun a b => a.1 ≠ b.1) := List.pairwise_map.mp hnd
      refine List.Pairwise.imp_of_mem ?_ hne
      intro a b ha hb hab
      obtain ⟨hga, hda, f₀a, hva⟩ := hsegs a ha
      obtain ⟨hgb, hdb, f₀b, hvb⟩ := hsegs b hb
      constructor
      · intro hpre
        rcases hpre with ⟨r, hr⟩
        have hr' : splitSlashCore (a.1.data.drop 1) ++ r =
            splitSlashCore (b.1.data.drop 1) := hr
        cases r with
        | nil =>
          apply hab
          have hseq : splitSlashCore (a.1.data.drop 1) =
              splitSlashCore (b.1.data.drop 1) := by simpa using hr'
          have hdd : a.1.data = b.1.data := by
            rw [hda, hdb, hseq]
          calc a.1 = ⟨a.1.data⟩ := rfl
            _ = ⟨b.1.data⟩ := by rw [hdd]
            _ = b.1 := rfl
        | cons r₀ rt =>
          apply hpf a ha b hb
          refine ⟨joinSlashCore (r₀ :: rt), ?_⟩
          rw [hda, hdb, ← hr']
          rw [joinSlashCore_append _ _ hga.1 (by simp)]
          simp
      · intro hpre
        rcases hpre with ⟨r, hr⟩
        have hr' : splitSlashCore (b.1.data.drop 1) ++ r =
            splitSlashCore (a.1.data.drop 1) := hr
        cases r with
        | nil =>
          apply hab
          have hseq : splitSlashCore (b.1.data.drop 1) =
              splitSlashCore (a.1.data.drop 1) := by simpa using hr'
          have hdd : a.1.data = b.1.data := by
            rw [hda, hdb, hseq]
          calc a.1 = ⟨a.1.data⟩ := rfl
            _ = ⟨b.1.data⟩ := by rw [hdd]
            _ = b.1 := rfl
        | cons r₀ rt =>
          apply hpf b hb a ha
          refine ⟨joinSlashCore (r₀ :: rt), ?_⟩
          rw [hda, hdb, ← hr']
          rw [joinSlashCore_append _ _ hgb.1 (by simp)]
          simp
  have hlen : ∀ p ∈ F.map ghostFn, p.1.length ≤ Entry.dsize F := by
    intro p hp
    rcases List.mem_map.mp hp with ⟨kv, hkv, hkve⟩
    obtain ⟨hg, hd, _⟩ := hsegs kv hkv
    have h1 := length_le_joinSlashCore _ hg
    have h2 := dsize_mem_le F kv.1 kv.2 hkv
    have h3 : kv.1.length =
        (joinSlashCore (splitSlashCore (kv.1.data.drop 1))).length + 1 := by
      show kv.1.data.length = _
      conv_lhs => rw [hd]
      rfl
    rw [← hkve]
    show (splitSlashCore (kv.1.data.drop 1)).length ≤ Entry.dsize F
    omega
  have hmapM : F.mapM (normEntryAbs ".") =
      .ok ((F.map ghostFn).map toRelPair) := by
    rw [List.map_map]
    refine mapM_ok_of_forall _ _ F ?_
    intro kv hkv
    rcases hshape kv hkv with ⟨segs, f₀, hc, hk, hv⟩
    have hsne : segs ≠ [] := by
      intro hs
      apply hroot kv hkv
      rw [hk, hs]
      rfl
    have hgood : goodPath segs := ⟨hsne, hc⟩
    show normEntryAbs "." kv = .ok (toRelPair (ghostFn kv))
    have hg2 : ghostFn kv = (segs, f₀) := by
      show (splitSlashCore (kv.1.data.drop 1), kv.2.getFile) = (segs, f₀)
      have hdrop : kv.1.data.drop 1 = joinSlashCore segs := by
        rw [congrArg String.data hk]
        rfl
      rw [hdrop,
        splitSlashCore_joinSlashCore segs hsne (fun u hu => (hc u hu).2.1), hv]
      rfl
    rw [hg2]
    rw [show kv = ((⟨'/' :: joinSlashCore segs⟩ : String), Entry.file f₀)
      from by rw [← hk, ← hv]]
    exact normEntryAbs_abs "." segs f₀ hgood
  obtain ⟨N, hok, hnf, hleaves⟩ := normalizeF_flat (Entry.dsize F)
    (F.map ghostFn) F "." hgoodL hlen hmapM
  rw [flatten]
  rw [show normalize F = Except.ok N from hok]
  show Except.ok (((flatListF (Entry.dsize N + 1) N "/").map
      (fun p => (p.1, Entry.file p.2))).foldl
    (fun res p => objSet res p.1 p.2) []) = Except.ok F
  have hwalk := flatListF_nf (Entry.dsize N + 1) N [] hnf (by simp)
    (Nat.lt_succ_of_le (Entry.heightD_le_dsize N))
  have heq : (F.map ghostFn).map (fun p =>
      ((⟨'/' :: joinSlashCore ([] ++ p.1)⟩ : String), p.2)) =
      F.map (fun kv => (kv.1, kv.2.getFile)) := by
    rw [List.map_map]
    refine List.map_congr_left ?_
    intro kv hkv
    obtain ⟨hg, hd, _⟩ := hsegs kv hkv
    show ((⟨'/' :: joinSlashCore ([] ++
      splitSlashCore (kv.1.data.drop 1))⟩ : String), kv.2.getFile) =
      (kv.1, kv.2.getFile)
    have h1 : ((⟨'/' :: joinSlashCore ([] ++
        splitSlashCore (kv.1.data.drop 1))⟩ : String)) = kv.1 := by
      show (⟨'/' :: joinSlashCore (splitSlashCore (kv.1.data.drop 1))⟩ :
        String) = kv.1
      calc (⟨'/' :: joinSlashCore (splitSlashCore (kv.1.data.drop 1))⟩ :
          String) = ⟨kv.1.data⟩ := by rw [← hd]
        _ = kv.1 := rfl
    rw [h1]
  have hchain : (flatListF (Entry.dsize N + 1) N
      ⟨'/' :: joinSlashCore []⟩).Perm
      (F.map (fun kv => (kv.1, kv.2.getFile))) := by
    refine hwalk.trans ?_
    have hm := hleaves.map (fun p =>
      ((⟨'/' :: joinSlashCore ([] ++ p.1)⟩ : String), p.2))
    rw [heq] at hm
    exact hm
  have hLLs := flatListF_sorted (Entry.dsize N + 1) N
    ⟨'/' :: joinSlashCore []⟩
  have hF₀s : (F.map (fun kv => (kv.1, kv.2.getFile))).Pairwise
      (fun a b => strLe a.1 b.1 = true) := by
    rw [List.pairwise_map]
    exact hsorted
  have hF₀nd : ((F.map (fun kv => (kv.1, kv.2.getFile))).map
      Prod.fst).Nodup := by
    rw [List.map_map]
    exact hnd
  have hEq : flatListF (Entry.dsize N + 1) N ⟨'/' :: joinSlashCore []⟩ =
      F.map (fun kv => (kv.1, kv.2.getFile)) := by
    refine pairwise_perm_eq hchain hLLs hF₀s ?_
    intro a b ha hb hab hba
    have hkey : a.1 = b.1 := strLe_antisymm hab hba
    have ha' : a ∈ F.map (fun kv => (kv.1, kv.2.getFile)) :=
      hchain.mem_iff.mp ha
    have hbmem : (a.1, b.2) ∈ F.map (fun kv => (kv.1, kv.2.getFile)) := by
      rw [hkey]
      exact hb
    have hv2 : a.2 = b.2 :=
      eq_of_mem_nodup_keys (F.map (fun kv => (kv.1, kv.2.getFile)))
        a.1 a.2 b.2 hF₀nd ha' hbmem
    calc a = (a.1, a.2) := rfl
      _ = (b.1, b.2) := by rw [hkey, hv2]
      _ = b := rfl
  rw [show ("/" : String) = (⟨'/' :: joinSlashCore []⟩ : String) from rfl]
  rw [hEq]
  have hmapF : (F.map (fun kv => (kv.1, kv.2.getFile))).map
      (fun p => (p.1, Entry.file p.2)) = F := by
    rw [List.map_map]
    have hptw : ∀ kv ∈ F, ((fun p => (p.1, Entry.file p.2)) ∘
        (fun kv => (kv.1, kv.2.getFile))) kv = id kv := by
      intro kv hkv
      rcases hshape kv hkv with ⟨segs, f₀, hc, hk, hv⟩
      show ((kv.1, Entry.file kv.2.getFile) : String × Entry) = kv
      have h2 : Entry.file kv.2.getFile = kv.2 := by
        rw [hv]
        rfl
      rw [h2]
    rw [List.map_congr_left hptw, List.map_id]
  rw [hmapF, foldl_objSet_id F hnd]

/-- C4 (amended): for every spec `S` on which `flatten` succeeds, the
keys of the result are pairwise-distinct absolute paths; and flattening
the flat result again returns it unchanged whenever no resulting entry
sits at the bare root `/` and no entry's path followed by a separator is
an initial segment of another entry's path.  Unguarded idempotence is
refuted by `flatten_not_idempotent`. -/
theorem flatten_distinct_absolute (S F : Directory) (h : flatten S = .ok F) :
    ((F.map Prod.fst).Nodup ∧
      ∀ kk ∈ F.map Prod.fst, pathIsAbsolute kk = true) ∧
    ((∀ kv ∈ F, ¬ (kv.1 = "/")) →
      (∀ p ∈ F, ∀ q ∈ F, ¬ (p.1.data ++ ['/'] <+: q.1.data)) →
      flatten F = .ok F) :=
  ⟨flatten_keys_nodup_abs S F h, fun h1 h2 => flatten_reflat S F h h1 h2⟩

theorem flatten_distinct_absolute_witness :
    flatten [("/etc", Entry.dir [("hosts", Entry.file (.contents "l"))]),
             ("/a", Entry.file (.contents "x"))] =
      .ok [("/a", Entry.file (.contents "x")),
           ("/etc/hosts", Entry.file (.contents "l"))] ∧
    ((([("/a", Entry.file (.contents "x")),
        ("/etc/hosts", Entry.file (.contents "l"))] : Directory).map
        Prod.fst).Nodup ∧
      ∀ kk ∈ ([("/a", Entry.file (.contents "x")),
        ("/etc/hosts", Entry.file (.contents "l"))] : Directory).map Prod.fst,
        pathIsAbsolute kk = true) ∧
    flatten [("/a", Entry.file (.contents "x")),
             ("/etc/hosts", Entry.file (.contents "l"))] =
      .ok [("/a", Entry.file (.contents "x")),
           ("/etc/hosts", Entry.file (.contents "l"))] :=
  ⟨rfl,
   (flatten_distinct_absolute
      [("/etc", Entry.dir [("hosts", Entry.file (.contents "l"))]),
       ("/a", Entry.file (.contents "x"))]
      [("/a", Entry.file (.contents "x")),
       ("/etc/hosts", Entry.file (.contents "l"))] rfl).1,
   (flatten_distinct_absolute
      [("/etc", Entry.dir [("hosts", Entry.file (.contents "l"))]),
       ("/a", Entry.file (.contents "x"))]
      [("/a", Entry.file (.contents "x")),
       ("/etc/hosts", Entry.file (.contents "l"))] rfl).2
     (by decide) (by decide)⟩

end MochaPod
